import Mathlib

/-!
# Endorsement discovery analyzer

A shallow embedding of `discovery/endorsement/endorsement.go` and theorems about it.

Conventions of the embedding:

* Go `string` and `[]byte` values are both immutable byte sequences; they are
  embedded as `String`, and the conversions `string(b)` and `[]byte(s)` are the identity.
  A nil byte slice is the empty string.
* A Go map is the list of its entries (`GoMap`), read with `GoMap.lookup` and written with
  `GoMap.insert`; `range` over a map visits the entries in list order.
* A pointer that may be nil is an `Option`; a Go `error` is `Option String` (`none` is nil).
* A run-time panic (index out of range, nil dereference) is the outer `none` of a result.
* `uint32(n)` is `n % 2 ^ 32`.

Two more source files are embedded after the analyzer, each in a namespace of its own:
`expiry_schedule_builder.go` (namespace `Pvtstatepurgemgmt`) and `GenerateSignerConfig` of
`idemixca.go` (namespace `Idemixca`). The definitions of all three come first, the theorems
after them.
-/

namespace Endorsement

/-! ## Go maps -/

/-- Go map with keys `κ` and values `ν`: its entries, oldest first. -/
abbrev GoMap (κ ν : Type) := List (κ × ν)

namespace GoMap

variable {κ ν : Type} [DecidableEq κ]

/-- Map read `v, exists := m[k]`. -/
def lookup : GoMap κ ν → κ → Option ν
  | [], _ => none
  | (k', v) :: rest, k => if k' = k then some v else lookup rest k

/-- Map write `m[k] = v`: overwrite the entry of `k`, or add one. -/
def insert : GoMap κ ν → κ → ν → GoMap κ ν
  | [], k, v => [(k, v)]
  | (k', v') :: rest, k, v => if k' = k then (k, v) :: rest else (k', v') :: insert rest k v

/-- Keys of the map, in iteration order. -/
def keys (m : GoMap κ ν) : List κ := m.map Prod.fst

/-- Values of the map, in iteration order. -/
def values (m : GoMap κ ν) : List ν := m.map Prod.snd

/-- Test `_, exists := m[k]`. -/
def contains (m : GoMap κ ν) (k : κ) : Bool := (lookup m k).isSome

/-- The builtin `delete(m, k)`: the map without the entry of `k`. -/
def delete (m : GoMap κ ν) (k : κ) : GoMap κ ν :=
  m.filter (fun e => decide (e.1 ≠ k))

end GoMap

/-! ## Data model -/

/-- The `msp.MSPPrincipal` message: classification tag and payload bytes. -/
structure MSPPrincipal where
  PrincipalClassification : Int
  Principal : String
deriving DecidableEq, Repr

/-- Modelled from the spec: `policies.PrincipalSet` is declared outside the sources at hand;
the spec calls it a multiset of principals carrying a plurality per principal. It is the
slice of principals, repetitions included. -/
abbrev PrincipalSet := List MSPPrincipal

/-- An entry of the installed-chaincode list of a member (`proto.Chaincode`). -/
structure Chaincode where
  Name : String
  Version : String
deriving DecidableEq, Repr

/-- The `proto.Properties` of a member: its installed chaincodes. -/
structure Properties where
  Chaincodes : List Chaincode
deriving DecidableEq, Repr

/-- Signed envelope (`proto.Envelope`), kept opaque. -/
structure Envelope where
  Payload : String
deriving DecidableEq, Repr

/-- Modelled from the spec: `discovery.NetworkMember` is declared outside the sources at hand;
the spec gives it a PKI-ID, a signed membership envelope and an installed-chaincode list.
`Properties` and `Envelope` are pointers. -/
structure NetworkMember where
  PKIid : String
  Properties : Option Properties
  Envelope : Option Envelope
deriving DecidableEq, Repr

/-- The zero value of `NetworkMember`, as read from a map at a missing key. -/
def NetworkMember.zero : NetworkMember := ⟨"", none, none⟩

/-- Modelled from the spec: `discovery.Members`, a slice of network members. -/
abbrev Members := List NetworkMember

/-- Modelled from the spec: `api.PeerIdentityInfo` is declared outside the sources at hand;
the spec gives it an opaque peer id, a raw identity blob and an MSP/org id. -/
structure PeerIdentityInfo where
  PKIId : String
  Identity : String
  Organization : String
deriving DecidableEq, Repr

/-- Modelled from the spec: `api.PeerIdentitySet`, a slice of identity records. -/
abbrev PeerIdentitySet := List PeerIdentityInfo

/-- The `chaincode.Metadata` of a chaincode in the ledger: name and version. -/
structure ChaincodeMetadata where
  Name : String
  Version : String
deriving DecidableEq, Repr

/-- One call of a chaincode interest (`discovery.ChaincodeCall`). -/
structure ChaincodeCall where
  Name : String
  CollectionNames : List String
deriving DecidableEq, Repr

/-- The interest of a client (`discovery.ChaincodeInterest`). -/
structure ChaincodeInterest where
  Chaincodes : List ChaincodeCall
deriving DecidableEq, Repr

/-- A layout (`discovery.Layout`): group alias to required quantity (a `uint32`). -/
structure Layout where
  QuantitiesByGroup : GoMap String Nat
deriving DecidableEq, Repr

/-- A peer record of the descriptor (`discovery.Peer`). -/
structure Peer where
  Identity : String
  StateInfo : Option Envelope
  MembershipInfo : Option Envelope
deriving DecidableEq, Repr

/-- The list of peers of one group (`discovery.Peers`). -/
structure Peers where
  Peers : List Peer
deriving DecidableEq, Repr

/-- The value returned by the analyzer (`discovery.EndorsementDescriptor`). -/
structure EndorsementDescriptor where
  Chaincode : String
  Layouts : List Layout
  EndorsersByGroups : GoMap String Peers
deriving DecidableEq, Repr

/-- Modelled from the spec: `policies.InquireablePolicy` is declared outside the sources at
hand; its `SatisfiedBy` capability enumerates the principal sets that satisfy the policy. -/
structure InquireablePolicy where
  SatisfiedBy : List PrincipalSet
deriving DecidableEq, Repr

/-! ## The principal-group mapper -/

/-- The `principalKey` struct. -/
structure principalKey where
  cls : Int
  principal : String
deriving DecidableEq, Repr

/-- The method `principalKey.toPrincipal`. -/
def principalKey.toPrincipal (pk : principalKey) : MSPPrincipal :=
  { PrincipalClassification := pk.cls, Principal := pk.principal }

/-- The type `principalGroupMapper`: principals to names of groups. -/
abbrev principalGroupMapper := GoMap principalKey String

/-- The alias `fmt.Sprintf("G%d", n)`. -/
def groupName (n : Nat) : String := "G" ++ toString n

/-- The method `principalGroupMapper.group`: the alias of the principal and the mapper after
the call. -/
def group (mapper : principalGroupMapper) (principal : principalKey) :
    String × principalGroupMapper :=
  match GoMap.lookup mapper principal with
  | some grp => (grp, mapper)
  | none =>
    let grp := groupName mapper.length
    (grp, GoMap.insert mapper principal grp)

/-- The function `mapPrincipalsToGroups`: first the set `totalPrincipals` of the keys of all
principals of all sets, then one `group` call per key of that set. -/
def mapPrincipalsToGroups (principalsSets : List PrincipalSet) : principalGroupMapper :=
  let totalPrincipals : GoMap principalKey Unit :=
    principalsSets.foldl (fun total principalSet =>
      principalSet.foldl (fun total principal =>
        GoMap.insert total
          { principal := principal.Principal, cls := principal.PrincipalClassification } ())
        total) []
  totalPrincipals.foldl (fun groupMapper entry => (group groupMapper entry.1).2) []

/-! ## Collaborator types used by the analyzer -/

/-- Modelled from the spec: `PrincipalSet.UniqueSet` lives outside the sources at hand; the
spec says it collapses the set to principal → plurality. The histogram counts every
principal of the slice under its (classification, payload). -/
def UniqueSet (ps : PrincipalSet) : GoMap MSPPrincipal Nat :=
  ps.foldl (fun histogram principal =>
    GoMap.insert histogram principal ((GoMap.lookup histogram principal).getD 0 + 1)) []

/-- Modelled from the spec: `PrincipalSets.ContainingOnly` lives outside the sources at hand;
the spec gives it set granularity: a set survives iff all of its principals pass the
predicate, and the surviving sets keep their order. -/
def ContainingOnly (psSets : List PrincipalSet) (f : MSPPrincipal → Bool) : List PrincipalSet :=
  psSets.filter (fun set => set.all f)

/-- Modelled from the spec: `Members.ByID`, the by-PKI-ID indexing of a member list. -/
def Members.ByID (members : Members) : GoMap String NetworkMember :=
  members.foldl (fun res peer => GoMap.insert res peer.PKIid peer) []

/-- Modelled from the spec: `Members.Filter`, filter-by-predicate, order kept. -/
def Members.Filter (members : Members) (filter : NetworkMember → Bool) : Members :=
  List.filter filter members

/-- Modelled from the spec: `Members.Intersect`, set-intersection by PKI-ID: the members of
the receiver whose PKI-ID indexes a member of the other list. -/
def Members.Intersect (members otherMembers : Members) : Members :=
  let m := Members.ByID otherMembers
  List.filter (fun member => GoMap.contains m member.PKIid) members

/-- Modelled from the spec: `PeerIdentitySet.ByID`, the identity records by PKI-ID. -/
def PeerIdentitySet.ByID (pis : PeerIdentitySet) : GoMap String PeerIdentityInfo :=
  pis.foldl (fun m id => GoMap.insert m id.PKIId id) []

/-- Modelled from the spec: `graph.Vertex` lives outside the sources at hand. A vertex has an
id, a payload of type `δ`, and its neighbours keyed by their ids; a neighbour is kept as
the payload (of type `η`) of the vertex on the other side. -/
structure Vertex (δ η : Type) where
  Id : String
  Data : δ
  neighbors : GoMap String η
deriving DecidableEq, Repr

/-- Modelled from the spec: `graph.NewVertex`, a vertex without neighbours. -/
def NewVertex {δ η : Type} (id : String) (data : δ) : Vertex δ η :=
  { Id := id, Data := data, neighbors := [] }

/-- Modelled from the spec: `Vertex.AddNeighbor` connects the two vertices with an edge, seen
from both ends. -/
def Vertex.AddNeighbor {δ η : Type} (v : Vertex δ η) (u : Vertex η δ) :
    Vertex δ η × Vertex η δ :=
  ({ v with neighbors := GoMap.insert v.neighbors u.Id u.Data },
   { u with neighbors := GoMap.insert u.neighbors v.Id v.Data })

/-- Modelled from the spec: `Vertex.Neighbors`, the neighbours of the vertex. -/
def Vertex.Neighbors {δ η : Type} (v : Vertex δ η) : List η :=
  GoMap.values v.neighbors

/-- A peer vertex carries a member; its neighbours are principal vertices. -/
abbrev PeerVertex := Vertex NetworkMember MSPPrincipal

/-- A principal vertex carries a principal; its neighbours are peer vertices. -/
abbrev PrincipalVertex := Vertex MSPPrincipal NetworkMember

/-- The four collaborators embedded in `endorsementAnalyzer`: gossip support, principal
evaluator, policy fetcher and chaincode metadata fetcher. -/
structure endorsementAnalyzer where
  IdentityInfo : PeerIdentitySet
  PeersOfChannel : String → Members
  Peers : Members
  SatisfiesPrincipal : String → String → MSPPrincipal → Option String
  MSPOfPrincipal : MSPPrincipal → String
  PolicyByChaincode : String → String → Option InquireablePolicy
  Metadata : String → String → Option ChaincodeMetadata

/-! ## The analyzer -/

/-- The type `memberIdentities`: PKI-ID to identity. -/
abbrev memberIdentities := GoMap String String

/-- The method `memberIdentities.identityByPKIID`; a missing key reads as the nil identity. -/
def identityByPKIID (m : memberIdentities) (id : String) : String :=
  (GoMap.lookup m id).getD ""

/-- The function `computeIdentitiesOfMembers`. -/
def computeIdentitiesOfMembers (identitySet : PeerIdentitySet)
    (members : GoMap String NetworkMember) : memberIdentities :=
  let identitiesByPKIID : GoMap String String :=
    identitySet.foldl (fun acc identity => GoMap.insert acc identity.PKIId identity.Identity) []
  members.foldl (fun identitiesOfMembers entry =>
    match GoMap.lookup identitiesByPKIID entry.2.PKIid with
    | some identity => GoMap.insert identitiesOfMembers entry.2.PKIid identity
    | none => identitiesOfMembers) []

/-- The type `peerPrincipalEvaluator`. -/
abbrev peerPrincipalEvaluator := NetworkMember → MSPPrincipal → Bool

/-- The method `endorsementAnalyzer.satisfiesPrincipal`: an evaluation error reads as false. -/
def satisfiesPrincipal (ea : endorsementAnalyzer) (channel : String)
    (identitiesOfMembers : memberIdentities) : peerPrincipalEvaluator :=
  fun member principal =>
    match ea.SatisfiesPrincipal channel (identityByPKIID identitiesOfMembers member.PKIid)
        principal with
    | none => true
    | some _ => false

/-- The struct `principalPeerGraph`. -/
structure principalPeerGraph where
  peerVertices : List PeerVertex
  principalVertices : GoMap String PrincipalVertex
deriving DecidableEq, Repr

/-- The struct `principalAndPeerData`. -/
structure principalAndPeerData where
  members : Members
  pGrps : principalGroupMapper

/-- Inner loop of `principalsToPeersGraph`: one principal vertex against every peer vertex. -/
def connectPeers (satisfiesPrincipal : peerPrincipalEvaluator) :
    List PeerVertex → PrincipalVertex → PrincipalVertex × List PeerVertex
  | [], principalVertex => (principalVertex, [])
  | peerVertex :: rest, principalVertex =>
    if satisfiesPrincipal peerVertex.Data principalVertex.Data then
      let linked := peerVertex.AddNeighbor principalVertex
      let done := connectPeers satisfiesPrincipal rest linked.2
      (done.1, linked.1 :: done.2)
    else
      let done := connectPeers satisfiesPrincipal rest principalVertex
      (done.1, peerVertex :: done.2)

/-- Outer loop of `principalsToPeersGraph`: every principal vertex in turn. -/
def connectPrincipals (satisfiesPrincipal : peerPrincipalEvaluator) :
    GoMap String PrincipalVertex → List PeerVertex →
      GoMap String PrincipalVertex × List PeerVertex
  | [], peerVertices => ([], peerVertices)
  | (grp, principalVertex) :: rest, peerVertices =>
    let inner := connectPeers satisfiesPrincipal peerVertices principalVertex
    let done := connectPrincipals satisfiesPrincipal rest inner.2
    ((grp, inner.1) :: done.1, done.2)

/-- The function `principalsToPeersGraph`. -/
def principalsToPeersGraph (data : principalAndPeerData)
    (satisfiesPrincipal : peerPrincipalEvaluator) : principalPeerGraph :=
  let peerVertices : List PeerVertex :=
    data.members.map (fun member => NewVertex member.PKIid member)
  let principalVertices : GoMap String PrincipalVertex :=
    data.pGrps.foldl (fun acc entry =>
      GoMap.insert acc entry.2 (NewVertex entry.2 entry.1.toPrincipal)) []
  let connected := connectPrincipals satisfiesPrincipal principalVertices peerVertices
  { peerVertices := connected.2, principalVertices := connected.1 }

/-- The function `isLayoutSatisfied`; `none` is the nil dereference at a group without a
principal vertex. -/
def isLayoutSatisfied : GoMap String Nat → principalPeerGraph → Option Bool
  | [], _ => some true
  | (grp, plurality) :: rest, satGraph =>
    match GoMap.lookup satGraph.principalVertices grp with
    | none => none
    | some vertex =>
      if vertex.Neighbors.length < plurality then some false
      else isLayoutSatisfied rest satGraph

/-- Inner loop of `computeLayouts`: the layout of one principal set, from its histogram. -/
def fillLayout : GoMap MSPPrincipal Nat → Layout → principalGroupMapper →
    Layout × principalGroupMapper
  | [], layout, principalGroups => (layout, principalGroups)
  | (principal, plurality) :: rest, layout, principalGroups =>
    let key : principalKey :=
      { cls := principal.PrincipalClassification, principal := principal.Principal }
    let named := group principalGroups key
    fillLayout rest
      { QuantitiesByGroup := GoMap.insert layout.QuantitiesByGroup named.1 (plurality % 2 ^ 32) }
      named.2

/-- Outer loop of `computeLayouts`, with the layouts appended so far and the mapper. -/
def computeLayoutsLoop (satGraph : principalPeerGraph) :
    List PrincipalSet → List Layout → principalGroupMapper →
      Option (List Layout × principalGroupMapper)
  | [], layouts, principalGroups => some (layouts, principalGroups)
  | principalSet :: rest, layouts, principalGroups =>
    let built := fillLayout (UniqueSet principalSet) { QuantitiesByGroup := [] } principalGroups
    match isLayoutSatisfied built.1.QuantitiesByGroup satGraph with
    | none => none
    | some true => computeLayoutsLoop satGraph rest (layouts ++ [built.1]) built.2
    | some false => computeLayoutsLoop satGraph rest layouts built.2

/-- The function `computeLayouts`: the feasible layouts and the mapper after the call;
`none` when a vertex lookup panics. -/
def computeLayouts (principalsSets : List PrincipalSet) (principalGroups : principalGroupMapper)
    (satGraph : principalPeerGraph) : Option (List Layout × principalGroupMapper) :=
  computeLayoutsLoop satGraph principalsSets [] principalGroups

/-- The method `layouts.groupsSet`. -/
def groupsSet (l : List Layout) : GoMap String Unit :=
  l.foldl (fun m layout =>
    layout.QuantitiesByGroup.foldl (fun m entry => GoMap.insert m entry.1 ()) m) []

/-- The struct `peerMembershipCriteria`. -/
structure peerMembershipCriteria where
  satGraph : principalPeerGraph
  idOfMembers : memberIdentities
  chanMemberById : GoMap String NetworkMember
  possibleLayouts : List Layout

/-- The function `endorsersByGroup`. -/
def endorsersByGroup (criteria : peerMembershipCriteria) : GoMap String Peers :=
  let includedGroups := groupsSet criteria.possibleLayouts
  criteria.satGraph.principalVertices.foldl (fun res entry =>
    if GoMap.contains includedGroups entry.1 then
      GoMap.insert res entry.1
        { Peers := entry.2.Neighbors.map (fun member =>
            { Identity := identityByPKIID criteria.idOfMembers member.PKIid,
              StateInfo :=
                ((GoMap.lookup criteria.chanMemberById member.PKIid).getD
                  NetworkMember.zero).Envelope,
              MembershipInfo := member.Envelope }) }
    else res) []

/-- The function `peersWithChaincode`. -/
def peersWithChaincode (ccMD : ChaincodeMetadata) : NetworkMember → Bool :=
  fun member =>
    match member.Properties with
    | none => false
    | some properties =>
      properties.Chaincodes.any (fun cc => cc.Name = ccMD.Name ∧ cc.Version = ccMD.Version)

/-- The function `mspIDsOfMembers`. -/
def mspIDsOfMembers (membersById : GoMap String NetworkMember)
    (identitiesByID : GoMap String PeerIdentityInfo) : GoMap String Unit :=
  membersById.foldl (fun res entry =>
    match GoMap.lookup identitiesByID entry.1 with
    | some identity => GoMap.insert res identity.Organization ()
    | none => res) []

/-- The membership of the channel with the chaincode installed (line 88). -/
def chanMembershipOf (ea : endorsementAnalyzer) (chainID : String) (ccMD : ChaincodeMetadata) :
    Members :=
  Members.Filter (ea.PeersOfChannel chainID) (peersWithChaincode ccMD)

/-- The alive members that joined the channel (line 91). -/
def aliveMembershipOf (ea : endorsementAnalyzer) (chainID : String) (ccMD : ChaincodeMetadata) :
    Members :=
  Members.Intersect ea.Peers (chanMembershipOf ea chainID ccMD)

/-- The identities of the alive channel members (line 95). -/
def identitiesOfMembersOf (ea : endorsementAnalyzer) (chainID : String)
    (ccMD : ChaincodeMetadata) : memberIdentities :=
  computeIdentitiesOfMembers ea.IdentityInfo (Members.ByID (aliveMembershipOf ea chainID ccMD))

/-- The predicate of the pre-filter (lines 110 to 114). -/
def mspFilter (ea : endorsementAnalyzer) (mspIDsOfChannelPeers : GoMap String Unit) :
    MSPPrincipal → Bool :=
  fun principal =>
    let mspID := ea.MSPOfPrincipal principal
    decide (mspID ≠ "") && GoMap.contains mspIDsOfChannelPeers mspID

/-- The principal sets that survive the pre-filter (lines 105 to 114). -/
def principalsSetsOf (ea : endorsementAnalyzer) (chainID : String) (ccMD : ChaincodeMetadata)
    (pol : InquireablePolicy) : List PrincipalSet :=
  let mspIDsOfChannelPeers :=
    mspIDsOfMembers (Members.ByID (aliveMembershipOf ea chainID ccMD))
      (PeerIdentitySet.ByID ea.IdentityInfo)
  ContainingOnly pol.SatisfiedBy (mspFilter ea mspIDsOfChannelPeers)

/-- The satisfaction graph of the call (lines 118 to 125). -/
def satGraphOf (ea : endorsementAnalyzer) (chainID : String) (ccMD : ChaincodeMetadata)
    (pol : InquireablePolicy) : principalPeerGraph :=
  principalsToPeersGraph
    { members := aliveMembershipOf ea chainID ccMD,
      pGrps := mapPrincipalsToGroups (principalsSetsOf ea chainID ccMD pol) }
    (satisfiesPrincipal ea chainID (identitiesOfMembersOf ea chainID ccMD))

/-- The method `endorsementAnalyzer.PeersForEndorsement`: the pair (descriptor, error) it
returns; the outer `none` is a panic. -/
def PeersForEndorsement (ea : endorsementAnalyzer) (chainID : String)
    (interest : ChaincodeInterest) : Option (Option EndorsementDescriptor × Option String) :=
  match interest.Chaincodes with
  | [] => none
  | chaincode :: _ =>
    match ea.Metadata chainID chaincode.Name with
    | none =>
      some (none, some ("No metadata was found for chaincode " ++ chaincode.Name ++
        " in channel " ++ chainID))
    | some ccMD =>
      let chanMembership := chanMembershipOf ea chainID ccMD
      let channelMembersById := Members.ByID chanMembership
      let identitiesOfMembers := identitiesOfMembersOf ea chainID ccMD
      match ea.PolicyByChaincode chainID chaincode.Name with
      | none => some (none, some "policy not found")
      | some pol =>
        let principalsSets := principalsSetsOf ea chainID ccMD pol
        let principalGroups := mapPrincipalsToGroups principalsSets
        let satGraph := satGraphOf ea chainID ccMD pol
        match computeLayouts principalsSets principalGroups satGraph with
        | none => none
        | some (layouts, _) =>
          if layouts.length = 0 then
            some (none, some "cannot satisfy any principal combination")
          else
            let criteria : peerMembershipCriteria :=
              { possibleLayouts := layouts,
                satGraph := satGraph,
                chanMemberById := channelMembersById,
                idOfMembers := identitiesOfMembers }
            some (some { Chaincode := chaincode.Name,
                         Layouts := layouts,
                         EndorsersByGroups := endorsersByGroup criteria }, none)

/-! ## Auxiliary definitions used by the statements -/

/-- The mappers that the code can build: the empty mapper of `make`, grown by `group` calls. -/
inductive Reachable : principalGroupMapper → Prop
  | empty : Reachable []
  | step (mapper : principalGroupMapper) (key : principalKey) :
      Reachable mapper → Reachable (group mapper key).2

/-- The key of a principal, as `computeLayouts` and `mapPrincipalsToGroups` form it. -/
def keyOf (principal : MSPPrincipal) : principalKey :=
  { cls := principal.PrincipalClassification, principal := principal.Principal }

/-- The layout that `computeLayouts` builds for one principal set, before the graph check. -/
def layoutOf (principalSet : PrincipalSet) (principalGroups : principalGroupMapper) : Layout :=
  (fillLayout (UniqueSet principalSet) { QuantitiesByGroup := [] } principalGroups).1

/-- The mapper after `computeLayouts` has built the layout of one principal set. -/
def mapperAfter (principalSet : PrincipalSet) (principalGroups : principalGroupMapper) :
    principalGroupMapper :=
  (fillLayout (UniqueSet principalSet) { QuantitiesByGroup := [] } principalGroups).2

/-- The candidate layouts of `computeLayouts`, one per principal set in input order, each
built with the mapper left by the sets before it. -/
def candidateLayouts : List PrincipalSet → principalGroupMapper → List Layout
  | [], _ => []
  | principalSet :: rest, principalGroups =>
    layoutOf principalSet principalGroups ::
      candidateLayouts rest (mapperAfter principalSet principalGroups)

/-- The mapper after `computeLayouts` has gone through all the principal sets. -/
def mapperAfterAll : List PrincipalSet → principalGroupMapper → principalGroupMapper
  | [], principalGroups => principalGroups
  | principalSet :: rest, principalGroups =>
    mapperAfterAll rest (mapperAfter principalSet principalGroups)

/-- The graph check of `computeLayouts` passed for the layout. -/
def feasible (satGraph : principalPeerGraph) (layout : Layout) : Bool :=
  isLayoutSatisfied layout.QuantitiesByGroup satGraph == some true

/-- Value of a decimal numeral read from its most significant digit, after `acc`. -/
def digitsValue (acc : Nat) (cs : List Char) : Nat :=
  cs.foldl (fun a c => a * 10 + (c.toNat - 48)) acc

/-- The mapper after a sequence of `group` calls. -/
def groupAll (keys : List principalKey) (mapper : principalGroupMapper) : principalGroupMapper :=
  keys.foldl (fun m k => (group m k).2) mapper

/-- Representation invariant of the mappers the code builds: every key has one entry and the
entry at position `i` holds the alias `G<i>`. -/
def mapperWF (mapper : principalGroupMapper) : Prop :=
  (GoMap.keys mapper).Nodup ∧ GoMap.values mapper = (List.range mapper.length).map groupName

/-! ## Sample inputs -/

/-- Sample principal: member of orgA. -/
def sampleOrgA : MSPPrincipal := { PrincipalClassification := 0, Principal := "orgA" }

/-- Sample principal: member of orgB. -/
def sampleOrgB : MSPPrincipal := { PrincipalClassification := 0, Principal := "orgB" }

/-- Sample alive member with the given PKI-ID. -/
def sampleAlive (id : String) : NetworkMember :=
  { PKIid := id, Properties := none, Envelope := some { Payload := "alive-" ++ id } }

/-- Sample channel member with the given PKI-ID and chaincode `cc` at the given version. -/
def sampleChannel (id version : String) : NetworkMember :=
  { PKIid := id,
    Properties := some { Chaincodes := [{ Name := "cc", Version := version }] },
    Envelope := some { Payload := "state-" ++ id } }

/-- Sample graph: group `G0` with the two peers `p1` and `p2` connected to it. -/
def sampleGraph : principalPeerGraph :=
  { peerVertices :=
      [{ Id := "p1", Data := sampleAlive "p1", neighbors := [("G0", sampleOrgA)] },
       { Id := "p2", Data := sampleAlive "p2", neighbors := [("G0", sampleOrgA)] }],
    principalVertices :=
      [("G0", { Id := "G0", Data := sampleOrgA,
                neighbors := [("p1", sampleAlive "p1"), ("p2", sampleAlive "p2")] })] }

/-- The id and the payload of a vertex, which no step of the graph construction changes. -/
def vertexCore {δ η : Type} (v : Vertex δ η) : String × δ := (v.Id, v.Data)

/-- The peer record that `endorsersByGroup` emits for a neighbour of a principal vertex. -/
def peerOf (criteria : peerMembershipCriteria) (member : NetworkMember) : Peer :=
  { Identity := identityByPKIID criteria.idOfMembers member.PKIid,
    StateInfo :=
      ((GoMap.lookup criteria.chanMemberById member.PKIid).getD NetworkMember.zero).Envelope,
    MembershipInfo := member.Envelope }

/-- The alias that a mapper holds for a principal (the empty string when it holds none). -/
def aliasIn (mapper : principalGroupMapper) (principal : MSPPrincipal) : String :=
  (GoMap.lookup mapper (keyOf principal)).getD ""

/-- The keys that `computeLayouts` passes to `group` for one principal set, in order. -/
def keysOfSet (principalSet : PrincipalSet) : List principalKey :=
  (UniqueSet principalSet).map (fun e => keyOf e.1)

/-- The second mapper holds every entry of the first. -/
def mapperExtends (mapper later : principalGroupMapper) : Prop :=
  ∀ (key : principalKey) (grp : String),
    GoMap.lookup mapper key = some grp → GoMap.lookup later key = some grp

/-- What a layout records for its principal set, with the aliases taken from a mapper: the
plurality of every principal of the set (as a `uint32`) under the alias of the principal,
and no entry besides one per distinct principal. -/
def recordsPluralities (mapper : principalGroupMapper) (principalSet : PrincipalSet)
    (layout : Layout) : Prop :=
  (∀ principal ∈ principalSet,
    GoMap.lookup layout.QuantitiesByGroup (group mapper (keyOf principal)).1 =
      some (principalSet.count principal % 2 ^ 32)) ∧
  layout.QuantitiesByGroup.length = principalSet.dedup.length ∧
  ∀ (grp : String) (quantity : Nat), (grp, quantity) ∈ layout.QuantitiesByGroup →
    ∃ principal ∈ principalSet, grp = (group mapper (keyOf principal)).1 ∧
      quantity = principalSet.count principal % 2 ^ 32

/-- Sample graph: group `G0` with peer `p1`, group `G1` with peer `p3`. -/
def sampleGraphTwo : principalPeerGraph :=
  { peerVertices :=
      [{ Id := "p1", Data := sampleAlive "p1", neighbors := [("G0", sampleOrgA)] },
       { Id := "p3", Data := sampleAlive "p3", neighbors := [("G1", sampleOrgB)] }],
    principalVertices :=
      [("G0", { Id := "G0", Data := sampleOrgA, neighbors := [("p1", sampleAlive "p1")] }),
       ("G1", { Id := "G1", Data := sampleOrgB, neighbors := [("p3", sampleAlive "p3")] })] }

/-- The layouts of a call of the analyzer: the layouts of the surviving principal sets, under
the mapper of those sets, that pass the check against the satisfaction graph. -/
def layoutsOf (ea : endorsementAnalyzer) (chainID : String) (ccMD : ChaincodeMetadata)
    (pol : InquireablePolicy) : List Layout :=
  ((principalsSetsOf ea chainID ccMD pol).map (fun ps =>
    layoutOf ps (mapPrincipalsToGroups (principalsSetsOf ea chainID ccMD pol)))).filter
      (feasible (satGraphOf ea chainID ccMD pol))

/-- The criteria that the analyzer hands to `endorsersByGroup` (lines 132 to 137). -/
def criteriaOf (ea : endorsementAnalyzer) (chainID : String) (ccMD : ChaincodeMetadata)
    (pol : InquireablePolicy) : peerMembershipCriteria :=
  { possibleLayouts := layoutsOf ea chainID ccMD pol,
    satGraph := satGraphOf ea chainID ccMD pol,
    chanMemberById := Members.ByID (chanMembershipOf ea chainID ccMD),
    idOfMembers := identitiesOfMembersOf ea chainID ccMD }

/-- The descriptor that the analyzer returns when some layout is feasible. -/
def descriptorOf (ea : endorsementAnalyzer) (chainID : String) (chaincode : ChaincodeCall)
    (ccMD : ChaincodeMetadata) (pol : InquireablePolicy) : EndorsementDescriptor :=
  { Chaincode := chaincode.Name,
    Layouts := layoutsOf ea chainID ccMD pol,
    EndorsersByGroups := endorsersByGroup (criteriaOf ea chainID ccMD pol) }

/-- Sample analyzer: peers `p1`, `p2` of orgA and `p3` of orgB, all alive, in the channel
and with chaincode `cc` version `1` installed; the policy is satisfied by the given sets. -/
def sampleAnalyzer (sets : List PrincipalSet) : endorsementAnalyzer :=
  { IdentityInfo :=
      [{ PKIId := "p1", Identity := "id1", Organization := "orgA" },
       { PKIId := "p2", Identity := "id2", Organization := "orgA" },
       { PKIId := "p3", Identity := "id3", Organization := "orgB" }],
    PeersOfChannel := fun _ =>
      [sampleChannel "p1" "1", sampleChannel "p2" "1", sampleChannel "p3" "1"],
    Peers := [sampleAlive "p1", sampleAlive "p2", sampleAlive "p3"],
    SatisfiesPrincipal := fun _ identity principal =>
      if (identity = "id1" ∨ identity = "id2") ∧ principal = sampleOrgA then none
      else if identity = "id3" ∧ principal = sampleOrgB then none
      else some "identity is not a member",
    MSPOfPrincipal := fun principal => principal.Principal,
    PolicyByChaincode := fun _ _ => some { SatisfiedBy := sets },
    Metadata := fun _ _ => some { Name := "cc", Version := "1" } }

/-- Sample interest: the single chaincode `cc`. -/
def sampleInterest : ChaincodeInterest :=
  { Chaincodes := [{ Name := "cc", CollectionNames := [] }] }

/-- The descriptor of the sample analyzer for the policy two-of-orgA. -/
def sampleDescriptor : EndorsementDescriptor :=
  { Chaincode := "cc",
    Layouts := [{ QuantitiesByGroup := [("G0", 2)] }],
    EndorsersByGroups :=
      [("G0", { Peers :=
          [{ Identity := "id1", StateInfo := some { Payload := "state-p1" },
             MembershipInfo := some { Payload := "alive-p1" } },
           { Identity := "id2", StateInfo := some { Payload := "state-p2" },
             MembershipInfo := some { Payload := "alive-p2" } }] })] }

/-- The descriptor of the sample analyzer for the policy one-of-orgA-and-one-of-orgB. -/
def sampleDescriptorTwo : EndorsementDescriptor :=
  { Chaincode := "cc",
    Layouts := [{ QuantitiesByGroup := [("G0", 1), ("G1", 1)] }],
    EndorsersByGroups :=
      [("G0", { Peers :=
          [{ Identity := "id1", StateInfo := some { Payload := "state-p1" },
             MembershipInfo := some { Payload := "alive-p1" } },
           { Identity := "id2", StateInfo := some { Payload := "state-p2" },
             MembershipInfo := some { Payload := "alive-p2" } }] }),
       ("G1", { Peers :=
          [{ Identity := "id3", StateInfo := some { Payload := "state-p3" },
             MembershipInfo := some { Payload := "alive-p3" } }] })] }

/-- The test of the pre-filter in the words of the specification: the MSP id of the principal
is not empty and is the organization of the identity that the identity index holds for the
PKI-ID of an alive member of the channel that has the chaincode installed. -/
def passesMspTest (ea : endorsementAnalyzer) (chainID : String) (ccMD : ChaincodeMetadata)
    (principal : MSPPrincipal) : Prop :=
  ea.MSPOfPrincipal principal ≠ "" ∧
    ∃ member ∈ aliveMembershipOf ea chainID ccMD, ∃ identity,
      GoMap.lookup (PeerIdentitySet.ByID ea.IdentityInfo) member.PKIid = some identity ∧
      identity.Organization = ea.MSPOfPrincipal principal

/-- The MSP id of the principal is not empty and is the organization of some record of the
identity set whose PKI-ID is the one of an alive member of the channel that has the
chaincode installed. -/
def orgOfAliveIdentity (ea : endorsementAnalyzer) (chainID : String) (ccMD : ChaincodeMetadata)
    (principal : MSPPrincipal) : Prop :=
  ea.MSPOfPrincipal principal ≠ "" ∧
    ∃ identity ∈ ea.IdentityInfo, identity.Organization = ea.MSPOfPrincipal principal ∧
      ∃ member ∈ aliveMembershipOf ea chainID ccMD, member.PKIid = identity.PKIId

/-- The member advertises an installed chaincode with the name and version of the metadata. -/
def advertises (ccMD : ChaincodeMetadata) (member : NetworkMember) : Prop :=
  ∃ properties, member.Properties = some properties ∧
    ∃ cc ∈ properties.Chaincodes, cc.Name = ccMD.Name ∧ cc.Version = ccMD.Version

/-- Sample analyzer whose ledger has no metadata for any chaincode. -/
def sampleAnalyzerNoMetadata : endorsementAnalyzer :=
  { sampleAnalyzer [[sampleOrgA, sampleOrgA]] with Metadata := fun _ _ => none }

/-- Sample analyzer that has metadata but no policy for any chaincode. -/
def sampleAnalyzerNoPolicy : endorsementAnalyzer :=
  { sampleAnalyzer [[sampleOrgA, sampleOrgA]] with PolicyByChaincode := fun _ _ => none }

/-- Sample analyzer for scenario S6: the ledger has chaincode `cc` at version `2`, every
channel peer advertises version `1`; the policy is satisfied by the given sets. -/
def sampleAnalyzerVersionTwo (sets : List PrincipalSet) : endorsementAnalyzer :=
  { sampleAnalyzer sets with Metadata := fun _ _ => some { Name := "cc", Version := "2" } }

/-- Sample interest with two chaincodes, `cc` first. -/
def sampleInterestTwo : ChaincodeInterest :=
  { Chaincodes := [{ Name := "cc", CollectionNames := [] },
                   { Name := "other", CollectionNames := [] }] }

/-! ## Iteration order of maps

Go leaves the order of a `range` over a map unspecified. The definitions below repeat the
analyzer with that order made explicit: an `IterationOrder` gives, for every `range` over a
map in the source, the order in which the entries are visited. A `range` that runs once per
loop round takes the round (the index of the principal set or layout, or the group) as well,
so that every execution of every `range` has an order of its own. -/

/-- The order of every `range` over a map in one run of the analyzer. -/
structure IterationOrder where
  /-- Line 298, `range totalPrincipals`. -/
  totalPrincipals : GoMap principalKey Unit → GoMap principalKey Unit
  /-- Line 266, `range data.pGrps`. -/
  pGrps : principalGroupMapper → principalGroupMapper
  /-- Line 271, `range principalVertices`. -/
  principalVertices : GoMap String PrincipalVertex → GoMap String PrincipalVertex
  /-- Line 217, `range principalSet.UniqueSet()`, for the principal set of the given index. -/
  uniqueSet : Nat → GoMap MSPPrincipal Nat → GoMap MSPPrincipal Nat
  /-- Line 238, `range layout`, for the layout of the principal set of the given index. -/
  layoutEntries : Nat → GoMap String Nat → GoMap String Nat
  /-- Line 355, `range layout.QuantitiesByGroup`, for the layout of the given index. -/
  quantities : Nat → GoMap String Nat → GoMap String Nat
  /-- Line 182, `range satGraph.principalVertices`. -/
  endorsers : GoMap String PrincipalVertex → GoMap String PrincipalVertex
  /-- Line 189, the slice that `Neighbors()` returns for the vertex of the given group. -/
  neighbors : String → List NetworkMember → List NetworkMember
  /-- Line 316, `range members`. -/
  members : GoMap String NetworkMember → GoMap String NetworkMember
  /-- Line 378, `range membersById`. -/
  membersById : GoMap String NetworkMember → GoMap String NetworkMember

/-- Every `range` visits every entry of its map once. -/
def IterationOrder.Valid (o : IterationOrder) : Prop :=
  (∀ m, (o.totalPrincipals m).Perm m) ∧
  (∀ m, (o.pGrps m).Perm m) ∧
  (∀ m, (o.principalVertices m).Perm m) ∧
  (∀ i m, (o.uniqueSet i m).Perm m) ∧
  (∀ i m, (o.layoutEntries i m).Perm m) ∧
  (∀ i m, (o.quantities i m).Perm m) ∧
  (∀ m, (o.endorsers m).Perm m) ∧
  (∀ g l, (o.neighbors g l).Perm l) ∧
  (∀ m, (o.members m).Perm m) ∧
  (∀ m, (o.membersById m).Perm m)

/-- The order in which the entries were written: every `range` visits the list as it is. -/
def IterationOrder.written : IterationOrder :=
  { totalPrincipals := fun m => m,
    pGrps := fun m => m,
    principalVertices := fun m => m,
    uniqueSet := fun _ m => m,
    layoutEntries := fun _ m => m,
    quantities := fun _ m => m,
    endorsers := fun m => m,
    neighbors := fun _ l => l,
    members := fun m => m,
    membersById := fun m => m }

/-- The set `totalPrincipals` of `mapPrincipalsToGroups` (lines 289 to 297). -/
def totalPrincipalsOf (principalsSets : List PrincipalSet) : GoMap principalKey Unit :=
  principalsSets.foldl (fun total principalSet =>
    principalSet.foldl (fun total principal =>
      GoMap.insert total
        { principal := principal.Principal, cls := principal.PrincipalClassification } ())
      total) []

/-- The function `mapPrincipalsToGroups` under an iteration order. -/
def mapPrincipalsToGroupsIn (o : IterationOrder) (principalsSets : List PrincipalSet) :
    principalGroupMapper :=
  (o.totalPrincipals (totalPrincipalsOf principalsSets)).foldl
    (fun groupMapper entry => (group groupMapper entry.1).2) []

/-- The function `principalsToPeersGraph` under an iteration order. -/
def principalsToPeersGraphIn (o : IterationOrder) (data : principalAndPeerData)
    (satisfiesPrincipal : peerPrincipalEvaluator) : principalPeerGraph :=
  let peerVertices : List PeerVertex :=
    data.members.map (fun member => NewVertex member.PKIid member)
  let principalVertices : GoMap String PrincipalVertex :=
    (o.pGrps data.pGrps).foldl (fun acc entry =>
      GoMap.insert acc entry.2 (NewVertex entry.2 entry.1.toPrincipal)) []
  let connected :=
    connectPrincipals satisfiesPrincipal (o.principalVertices principalVertices) peerVertices
  { peerVertices := connected.2, principalVertices := connected.1 }

/-- Outer loop of `computeLayouts` under an iteration order; the first argument is the index
of the next principal set. -/
def computeLayoutsLoopIn (o : IterationOrder) (satGraph : principalPeerGraph) :
    Nat → List PrincipalSet → List Layout → principalGroupMapper →
      Option (List Layout × principalGroupMapper)
  | _, [], layouts, principalGroups => some (layouts, principalGroups)
  | i, principalSet :: rest, layouts, principalGroups =>
    let built := fillLayout (o.uniqueSet i (UniqueSet principalSet))
      { QuantitiesByGroup := [] } principalGroups
    match isLayoutSatisfied (o.layoutEntries i built.1.QuantitiesByGroup) satGraph with
    | none => none
    | some true =>
      computeLayoutsLoopIn o satGraph (i + 1) rest (layouts ++ [built.1]) built.2
    | some false => computeLayoutsLoopIn o satGraph (i + 1) rest layouts built.2

/-- The function `computeLayouts` under an iteration order. -/
def computeLayoutsIn (o : IterationOrder) (principalsSets : List PrincipalSet)
    (principalGroups : principalGroupMapper) (satGraph : principalPeerGraph) :
    Option (List Layout × principalGroupMapper) :=
  computeLayoutsLoopIn o satGraph 0 principalsSets [] principalGroups

/-- Loop of `groupsSet` under an iteration order; the first argument is the index of the
next layout. -/
def groupsSetLoopIn (o : IterationOrder) : Nat → List Layout → GoMap String Unit →
    GoMap String Unit
  | _, [], m => m
  | i, layout :: rest, m =>
    groupsSetLoopIn o (i + 1) rest
      ((o.quantities i layout.QuantitiesByGroup).foldl
        (fun m entry => GoMap.insert m entry.1 ()) m)

/-- The method `layouts.groupsSet` under an iteration order. -/
def groupsSetIn (o : IterationOrder) (l : List Layout) : GoMap String Unit :=
  groupsSetLoopIn o 0 l []

/-- The function `endorsersByGroup` under an iteration order. -/
def endorsersByGroupIn (o : IterationOrder) (criteria : peerMembershipCriteria) :
    GoMap String Peers :=
  let includedGroups := groupsSetIn o criteria.possibleLayouts
  (o.endorsers criteria.satGraph.principalVertices).foldl (fun res entry =>
    if GoMap.contains includedGroups entry.1 then
      GoMap.insert res entry.1
        { Peers := (o.neighbors entry.1 entry.2.Neighbors).map (peerOf criteria) }
    else res) []

/-- The method `endorsementAnalyzer.PeersForEndorsement` under an iteration order. -/
def PeersForEndorsementIn (o : IterationOrder) (ea : endorsementAnalyzer) (chainID : String)
    (interest : ChaincodeInterest) : Option (Option EndorsementDescriptor × Option String) :=
  match interest.Chaincodes with
  | [] => none
  | chaincode :: _ =>
    match ea.Metadata chainID chaincode.Name with
    | none =>
      some (none, some ("No metadata was found for chaincode " ++ chaincode.Name ++
        " in channel " ++ chainID))
    | some ccMD =>
      let chanMembership := chanMembershipOf ea chainID ccMD
      let channelMembersById := Members.ByID chanMembership
      let aliveMembership := aliveMembershipOf ea chainID ccMD
      let membersById := Members.ByID aliveMembership
      let identitiesOfMembers :=
        computeIdentitiesOfMembers ea.IdentityInfo (o.members membersById)
      match ea.PolicyByChaincode chainID chaincode.Name with
      | none => some (none, some "policy not found")
      | some pol =>
        let mspIDsOfChannelPeers :=
          mspIDsOfMembers (o.membersById membersById) (PeerIdentitySet.ByID ea.IdentityInfo)
        let principalsSets :=
          ContainingOnly pol.SatisfiedBy (mspFilter ea mspIDsOfChannelPeers)
        let principalGroups := mapPrincipalsToGroupsIn o principalsSets
        let satGraph := principalsToPeersGraphIn o
          { members := aliveMembership, pGrps := principalGroups }
          (satisfiesPrincipal ea chainID identitiesOfMembers)
        match computeLayoutsIn o principalsSets principalGroups satGraph with
        | none => none
        | some (layouts, _) =>
          if layouts.length = 0 then
            some (none, some "cannot satisfy any principal combination")
          else
            let criteria : peerMembershipCriteria :=
              { possibleLayouts := layouts,
                satGraph := satGraph,
                chanMemberById := channelMembersById,
                idOfMembers := identitiesOfMembers }
            some (some { Chaincode := chaincode.Name,
                         Layouts := layouts,
                         EndorsersByGroups := endorsersByGroupIn o criteria }, none)

/-- The members that satisfy a principal, in the order in which `principalsToPeersGraph`
connects them to the vertex of the principal. -/
def neighborsOf (satisfiesPrincipal : peerPrincipalEvaluator) (members : Members)
    (principal : MSPPrincipal) : List NetworkMember :=
  (connectPeers satisfiesPrincipal
    (members.map (fun member => NewVertex member.PKIid member))
    (NewVertex "" principal)).1.Neighbors

/-- The layout holds, under the alias that the mapper gives each principal of the set, the
plurality of the principal as a `uint32`, and nothing else. -/
def layoutFor (mapper : principalGroupMapper) (principalSet : PrincipalSet)
    (layout : Layout) : Prop :=
  (GoMap.keys layout.QuantitiesByGroup).Nodup ∧
  ∀ (grp : String) (quantity : Nat), (grp, quantity) ∈ layout.QuantitiesByGroup ↔
    ∃ principal ∈ principalSet, aliasIn mapper principal = grp ∧
      quantity = principalSet.count principal % 2 ^ 32

/-- Every principal of the set is satisfied by as many members as its plurality asks for. -/
def setFeasible (satisfiesPrincipal : peerPrincipalEvaluator) (members : Members)
    (principalSet : PrincipalSet) : Bool :=
  principalSet.all (fun principal =>
    decide (principalSet.count principal % 2 ^ 32 ≤
      (neighborsOf satisfiesPrincipal members principal).length))

/-- The graph has, for every entry of the mapper, a principal vertex under the alias whose
neighbours are the members that satisfy the principal. -/
def graphFor (satisfiesPrincipal : peerPrincipalEvaluator) (members : Members)
    (mapper : principalGroupMapper) (satGraph : principalPeerGraph) : Prop :=
  (GoMap.keys satGraph.principalVertices).Nodup ∧
  (∀ grp : String, grp ∈ GoMap.keys satGraph.principalVertices ↔
    ∃ key, (key, grp) ∈ mapper) ∧
  ∀ (key : principalKey) (grp : String), (key, grp) ∈ mapper →
    ∃ vertex : PrincipalVertex,
      GoMap.lookup satGraph.principalVertices grp = some vertex ∧
      vertex.Neighbors = neighborsOf satisfiesPrincipal members key.toPrincipal

/-- The renaming of group aliases from one mapper to another: the alias that the first
mapper gives a principal goes to the alias that the second mapper gives that principal;
every other string stays as it is. -/
def aliasBridge (first second : principalGroupMapper) (grp : String) : String :=
  match first.find? (fun e => decide (e.2 = grp)) with
  | some e => (GoMap.lookup second e.1).getD grp
  | none => grp

/-- Two layouts hold the same quantities once the aliases of the first are renamed. -/
def layoutsAgree (rename : String → String) (first second : Layout) : Prop :=
  ∀ grp : String,
    GoMap.lookup second.QuantitiesByGroup (rename grp) =
      GoMap.lookup first.QuantitiesByGroup grp

/-- Two endorsers-by-group maps hold, once the aliases of the first are renamed, the same
groups with the same peers, up to the order of the peers within a group. -/
def endorsersAgree (rename : String → String) (first second : GoMap String Peers) : Prop :=
  ∀ grp : String,
    match GoMap.lookup first grp, GoMap.lookup second (rename grp) with
    | some peers, some others => peers.Peers.Perm others.Peers
    | none, none => True
    | _, _ => False

/-- Two descriptors are equal up to a renaming of the group aliases and the order of the
peers within a group: same chaincode, layout lists equal entry by entry, same endorsers. -/
def descriptorsAgree (rename : String → String) (first second : EndorsementDescriptor) :
    Prop :=
  first.Chaincode = second.Chaincode ∧
  List.Forall₂ (layoutsAgree rename) first.Layouts second.Layouts ∧
  endorsersAgree rename first.EndorsersByGroups second.EndorsersByGroups

/-- Two outcomes of the analyzer agree: both panic, or both return the same error and no
descriptor, or both return no error and descriptors that are equal up to a bijective
renaming of the group aliases. -/
def outcomesAgree (first second : Option (Option EndorsementDescriptor × Option String)) :
    Prop :=
  match first, second with
  | none, none => True
  | some (none, err), some (none, other) => err = other
  | some (some descriptor, err), some (some other, otherErr) =>
    err = otherErr ∧
      ∃ rename : String → String, Function.Bijective rename ∧
        descriptorsAgree rename descriptor other
  | _, _ => False

/-- The order in which every `range` visits the entries last written first. -/
def IterationOrder.reversed : IterationOrder :=
  { totalPrincipals := fun m => m.reverse,
    pGrps := fun m => m.reverse,
    principalVertices := fun m => m.reverse,
    uniqueSet := fun _ m => m.reverse,
    layoutEntries := fun _ m => m.reverse,
    quantities := fun _ m => m.reverse,
    endorsers := fun m => m.reverse,
    neighbors := fun _ l => l.reverse,
    members := fun m => m.reverse,
    membersById := fun m => m.reverse }

/-- The peer record of a member in a call of the analyzer. -/
def recordOf (ea : endorsementAnalyzer) (chainID : String) (ccMD : ChaincodeMetadata)
    (member : NetworkMember) : Peer :=
  { Identity := identityByPKIID (identitiesOfMembersOf ea chainID ccMD) member.PKIid,
    StateInfo :=
      ((GoMap.lookup (Members.ByID (chanMembershipOf ea chainID ccMD)) member.PKIid).getD
        NetworkMember.zero).Envelope,
    MembershipInfo := member.Envelope }

/-- The principal sets of a call for which enough members satisfy every principal. -/
def feasibleSetsOf (ea : endorsementAnalyzer) (chainID : String) (ccMD : ChaincodeMetadata)
    (pol : InquireablePolicy) : List PrincipalSet :=
  (principalsSetsOf ea chainID ccMD pol).filter
    (setFeasible (satisfiesPrincipal ea chainID (identitiesOfMembersOf ea chainID ccMD))
      (aliveMembershipOf ea chainID ccMD))

/-- The endorsers map lists, under the alias of every principal of a feasible set, the
records of the members that satisfy the principal (in some order), and has no other key. -/
def endorsersFor (ea : endorsementAnalyzer) (chainID : String) (ccMD : ChaincodeMetadata)
    (pol : InquireablePolicy) (mapper : principalGroupMapper)
    (endorsers : GoMap String Peers) : Prop :=
  (∀ principal : MSPPrincipal,
    (∃ ps ∈ feasibleSetsOf ea chainID ccMD pol, principal ∈ ps) →
    ∃ peers : Peers, GoMap.lookup endorsers (aliasIn mapper principal) = some peers ∧
      peers.Peers.Perm
        ((neighborsOf (satisfiesPrincipal ea chainID (identitiesOfMembersOf ea chainID ccMD))
          (aliveMembershipOf ea chainID ccMD) principal).map (recordOf ea chainID ccMD))) ∧
  ∀ grp : String,
    (∀ principal : MSPPrincipal,
      (∃ ps ∈ feasibleSetsOf ea chainID ccMD pol, principal ∈ ps) →
      aliasIn mapper principal ≠ grp) →
    GoMap.lookup endorsers grp = none

end Endorsement

/-! # The expiry schedule of private data

A shallow embedding of
`core/ledger/kvledger/txmgmt/pvtstatepurgemgmt/expiry_schedule_builder.go`.
A `uint64` is a natural number below `2 ^ 64`; `math.MaxUint64` is `2 ^ 64 - 1`. -/

namespace Pvtstatepurgemgmt

open Endorsement

/-- Modelled from the spec: `version.Height` is declared outside the sources at hand and the
spec leaves the ledger to a collaborator; it is the block number and the transaction number
of a version, of which the builder reads the block number. -/
structure Height where
  BlockNum : Nat
  TxNum : Nat
deriving DecidableEq, Repr

/-- Modelled from the spec: `statedb.VersionedValue` is declared outside the sources at hand;
it is given the two fields that the builder reads. `Value` is a byte slice, nil for a
delete; `Version` is a pointer. -/
structure VersionedValue where
  Value : Option String
  Version : Option Height
deriving DecidableEq, Repr

/-- Modelled from the spec: the interface `pvtdatapolicy.BTLPolicy` is declared outside the
sources at hand; the builder calls its method `GetExpiringBlock(ns, coll, committingBlk)`,
which is taken as a parameter. -/
structure BTLPolicy where
  GetExpiringBlock : String → String → Nat → Nat

/-- Modelled from the spec: the struct `expiryInfoKey` is declared outside the sources at
hand; the builder fills its two fields. -/
structure expiryInfoKey where
  committingBlk : Nat
  expiryBlk : Nat
deriving DecidableEq, Repr

/-- Modelled from the spec: the type `PvtdataKeys` and its methods are declared outside the
sources at hand; they are taken as parameters: the type `ρ` of the values, the value of
`newPvtdataKeys()` and the value after `pvtdataKeys.add(ns, coll, key, keyHash)`. -/
structure PvtdataKeysOps (ρ : Type) where
  newPvtdataKeys : ρ
  add : ρ → String → String → String → String → ρ

/-- Modelled from the spec: the struct `expiryInfo` is declared outside the sources at hand;
`getExpiryInfo` fills its two fields. -/
structure expiryInfo (ρ : Type) where
  expiryInfoKey : Pvtstatepurgemgmt.expiryInfoKey
  pvtdataKeys : ρ
deriving DecidableEq, Repr

/-- Modelled from the spec: `privacyenabledstate.PvtdataCompositeKey` is declared outside the
sources at hand; the builder reads its three fields. -/
structure PvtdataCompositeKey where
  Namespace : String
  CollectionName : String
  Key : String
deriving DecidableEq, Repr

/-- Modelled from the spec: `privacyenabledstate.HashedCompositeKey` is declared outside the
sources at hand; the builder fills and reads its three fields. -/
structure HashedCompositeKey where
  Namespace : String
  CollectionName : String
  KeyHash : String
deriving DecidableEq, Repr

/-- The struct `expiryScheduleBuilder`. The map holds pointers to `PvtdataKeys`; an update
through the pointer is a write of the updated value at the key. -/
structure expiryScheduleBuilder (ρ : Type) where
  btlPolicy : BTLPolicy
  scheduleEntries : GoMap expiryInfoKey ρ

/-- The function `newExpiryScheduleBuilder`. -/
def newExpiryScheduleBuilder {ρ : Type} (btlPolicy : BTLPolicy) : expiryScheduleBuilder ρ :=
  { btlPolicy := btlPolicy, scheduleEntries := [] }

/-- The function `isDelete`. -/
def isDelete (versionedValue : VersionedValue) : Bool :=
  versionedValue.Value.isNone

/-- The function `neverExpires`. -/
def neverExpires (expiryBlk : Nat) : Bool :=
  expiryBlk == 2 ^ 64 - 1

/-- The method `expiryScheduleBuilder.add`: the builder after the call; `none` is the nil
dereference at a nil `versionedValue` or a nil `Version`. -/
def expiryScheduleBuilder.add {ρ : Type} (ops : PvtdataKeysOps ρ)
    (builder : expiryScheduleBuilder ρ) (ns coll key keyHash : String)
    (versionedValue : Option VersionedValue) : Option (expiryScheduleBuilder ρ) :=
  match versionedValue with
  | none => none
  | some versionedValue =>
    match versionedValue.Version with
    | none => none
    | some version =>
      let committingBlk := version.BlockNum
      let expiryBlk := builder.btlPolicy.GetExpiringBlock ns coll committingBlk
      if isDelete versionedValue || neverExpires expiryBlk then some builder
      else
        let expinfoKey : expiryInfoKey :=
          { committingBlk := committingBlk, expiryBlk := expiryBlk }
        match GoMap.lookup builder.scheduleEntries expinfoKey with
        | some pvtdataKeys =>
          some { builder with
            scheduleEntries := GoMap.insert builder.scheduleEntries expinfoKey
              (ops.add pvtdataKeys ns coll key keyHash) }
        | none =>
          let pvtdataKeys := ops.newPvtdataKeys
          let scheduleEntries := GoMap.insert builder.scheduleEntries expinfoKey pvtdataKeys
          some { builder with
            scheduleEntries := GoMap.insert scheduleEntries expinfoKey
              (ops.add pvtdataKeys ns coll key keyHash) }

/-- The method `expiryScheduleBuilder.getExpiryInfo`. -/
def expiryScheduleBuilder.getExpiryInfo {ρ : Type} (builder : expiryScheduleBuilder ρ) :
    List (expiryInfo ρ) :=
  builder.scheduleEntries.foldl (fun listExpinfo entry =>
    listExpinfo ++ [{ expiryInfoKey := entry.1, pvtdataKeys := entry.2 }]) []

/-- First loop of `buildExpirySchedule`, over the private data updates: the builder and the
map `hashedUpdateKeys` after the loop. -/
def addPvtUpdates {ρ : Type} (ops : PvtdataKeysOps ρ) (ComputeStringHash : String → String) :
    List (PvtdataCompositeKey × Option VersionedValue) → expiryScheduleBuilder ρ →
      GoMap HashedCompositeKey (Option VersionedValue) →
      Option (expiryScheduleBuilder ρ × GoMap HashedCompositeKey (Option VersionedValue))
  | [], builder, hashedUpdateKeys => some (builder, hashedUpdateKeys)
  | (pvtUpdateKey, vv) :: rest, builder, hashedUpdateKeys =>
    let keyHash := ComputeStringHash pvtUpdateKey.Key
    match builder.add ops pvtUpdateKey.Namespace pvtUpdateKey.CollectionName pvtUpdateKey.Key
        keyHash vv with
    | none => none
    | some builder =>
      addPvtUpdates ops ComputeStringHash rest builder
        (GoMap.delete hashedUpdateKeys
          { Namespace := pvtUpdateKey.Namespace,
            CollectionName := pvtUpdateKey.CollectionName,
            KeyHash := keyHash })

/-- Second loop of `buildExpirySchedule`, over the key hashes that are left. -/
def addHashedUpdates {ρ : Type} (ops : PvtdataKeysOps ρ) :
    List (HashedCompositeKey × Option VersionedValue) → expiryScheduleBuilder ρ →
      Option (expiryScheduleBuilder ρ)
  | [], builder => some builder
  | (hashedUpdateKey, vv) :: rest, builder =>
    match builder.add ops hashedUpdateKey.Namespace hashedUpdateKey.CollectionName ""
        hashedUpdateKey.KeyHash vv with
    | none => none
    | some builder => addHashedUpdates ops rest builder

/-- The function `buildExpirySchedule`. The two batches are given by their composite-key maps
(the values of `ToCompositeKeyMap()`), and `util.ComputeStringHash` is a parameter; `none`
is a nil dereference in `add`. -/
def buildExpirySchedule {ρ : Type} (ops : PvtdataKeysOps ρ)
    (ComputeStringHash : String → String) (btlPolicy : BTLPolicy)
    (pvtUpdates : GoMap PvtdataCompositeKey (Option VersionedValue))
    (hashedUpdates : GoMap HashedCompositeKey (Option VersionedValue)) :
    Option (List (expiryInfo ρ)) :=
  let hashedUpdateKeys := hashedUpdates
  match addPvtUpdates ops ComputeStringHash pvtUpdates (newExpiryScheduleBuilder btlPolicy)
      hashedUpdateKeys with
  | none => none
  | some (expiryScheduleBuilder, hashedUpdateKeys) =>
    match addHashedUpdates ops hashedUpdateKeys expiryScheduleBuilder with
    | none => none
    | some expiryScheduleBuilder => some expiryScheduleBuilder.getExpiryInfo

/-! ## Auxiliary definitions used by the statements -/

/-- The arguments of one call of `expiryScheduleBuilder.add`. -/
structure addCall where
  ns : String
  coll : String
  key : String
  keyHash : String
  versionedValue : Option VersionedValue
deriving DecidableEq, Repr

/-- The builder after a sequence of `add` calls, in order; `none` as soon as one panics. -/
def addAll {ρ : Type} (ops : PvtdataKeysOps ρ) :
    List addCall → expiryScheduleBuilder ρ → Option (expiryScheduleBuilder ρ)
  | [], builder => some builder
  | call :: rest, builder =>
    match builder.add ops call.ns call.coll call.key call.keyHash call.versionedValue with
    | none => none
    | some builder => addAll ops rest builder

/-- The key that the first loop of `buildExpirySchedule` deletes from `hashedUpdateKeys` for
a private update key. -/
def hashedKeyOf (ComputeStringHash : String → String) (pvtUpdateKey : PvtdataCompositeKey) :
    HashedCompositeKey :=
  { Namespace := pvtUpdateKey.Namespace,
    CollectionName := pvtUpdateKey.CollectionName,
    KeyHash := ComputeStringHash pvtUpdateKey.Key }

/-- The `add` calls of the first loop of `buildExpirySchedule`, in order. -/
def pvtCalls (ComputeStringHash : String → String)
    (pvtUpdates : GoMap PvtdataCompositeKey (Option VersionedValue)) : List addCall :=
  pvtUpdates.map (fun entry =>
    { ns := entry.1.Namespace, coll := entry.1.CollectionName, key := entry.1.Key,
      keyHash := ComputeStringHash entry.1.Key, versionedValue := entry.2 })

/-- The map `hashedUpdateKeys` after the first loop of `buildExpirySchedule`. -/
def leftoverKeys (ComputeStringHash : String → String)
    (pvtUpdates : GoMap PvtdataCompositeKey (Option VersionedValue))
    (hashedUpdates : GoMap HashedCompositeKey (Option VersionedValue)) :
    GoMap HashedCompositeKey (Option VersionedValue) :=
  pvtUpdates.foldl (fun hashedUpdateKeys entry =>
    GoMap.delete hashedUpdateKeys (hashedKeyOf ComputeStringHash entry.1)) hashedUpdates

/-- The `add` calls of the second loop of `buildExpirySchedule`, in order. -/
def hashedCalls (ComputeStringHash : String → String)
    (pvtUpdates : GoMap PvtdataCompositeKey (Option VersionedValue))
    (hashedUpdates : GoMap HashedCompositeKey (Option VersionedValue)) : List addCall :=
  (leftoverKeys ComputeStringHash pvtUpdates hashedUpdates).map (fun entry =>
    { ns := entry.1.Namespace, coll := entry.1.CollectionName, key := "",
      keyHash := entry.1.KeyHash, versionedValue := entry.2 })

/-- The key of `scheduleEntries` that an `add` call writes; `none` for a call that writes
nothing (a delete, a value that never expires, a nil pointer). -/
def scheduledKey (btlPolicy : BTLPolicy) (call : addCall) : Option expiryInfoKey :=
  match call.versionedValue with
  | none => none
  | some versionedValue =>
    match versionedValue.Version with
    | none => none
    | some version =>
      if isDelete versionedValue ||
          neverExpires (btlPolicy.GetExpiringBlock call.ns call.coll version.BlockNum) then none
      else
        some { committingBlk := version.BlockNum,
               expiryBlk := btlPolicy.GetExpiringBlock call.ns call.coll version.BlockNum }

/-! ## Sample inputs -/

/-- Sample entry of a `PvtdataKeys`: namespace, collection, key and key hash. -/
structure sampleEntry where
  ns : String
  coll : String
  key : String
  keyHash : String
deriving DecidableEq, Repr

/-- Sample `PvtdataKeys`: the list of the entries added, in order. -/
def sampleOps : PvtdataKeysOps (List sampleEntry) :=
  { newPvtdataKeys := [],
    add := fun pvtdataKeys ns coll key keyHash => pvtdataKeys ++ [⟨ns, coll, key, keyHash⟩] }

/-- Sample hash of a key. -/
def sampleHash (key : String) : String := "hash-" ++ key

/-- Sample policy: collection `forever` never expires, any other lives ten blocks. -/
def samplePolicy : BTLPolicy :=
  { GetExpiringBlock := fun _ coll committingBlk =>
      if coll = "forever" then 2 ^ 64 - 1 else committingBlk + 11 }

/-- Sample versioned value written at the given block. -/
def sampleValue (blockNum : Nat) : Option VersionedValue :=
  some { Value := some "v", Version := some { BlockNum := blockNum, TxNum := 0 } }

/-- Sample private updates: keys `k1` and `k2` of collection `c1`. -/
def samplePvtUpdates : GoMap PvtdataCompositeKey (Option VersionedValue) :=
  [({ Namespace := "ns", CollectionName := "c1", Key := "k1" }, sampleValue 5),
   ({ Namespace := "ns", CollectionName := "c1", Key := "k2" }, sampleValue 5)]

/-- Sample hashed updates: the hashes of `k1` and of `k3` (not among the private updates). -/
def sampleHashedUpdates : GoMap HashedCompositeKey (Option VersionedValue) :=
  [({ Namespace := "ns", CollectionName := "c1", KeyHash := "hash-k1" }, sampleValue 5),
   ({ Namespace := "ns", CollectionName := "c1", KeyHash := "hash-k3" }, sampleValue 5)]

end Pvtstatepurgemgmt

/-! # Issuing an idemix signer configuration

A shallow embedding of `GenerateSignerConfig` of
`common/tools/idemixgen/idemixca/idemixca.go`. The functions of the idemix library, of the
curve library and of the serialization are parameters; a pointer is an `Option`, a pair
(value, error) is a pair of `Option`s, and the state of a random number generator is threaded
through the calls that draw from it. -/

namespace Idemixca

/-- Modelled from the spec: `idemix.IssuerKey` is declared outside the sources at hand and the
spec leaves credential issuance to a collaborator; kept are the secret key bytes and the
public key, both opaque. -/
structure IssuerKey where
  ISk : String
  IPk : String
deriving DecidableEq, Repr

/-- The message `IdemixMSPSignerConfig` with the five fields that `GenerateSignerConfig`
fills, in order. -/
structure IdemixMSPSignerConfig where
  Cred : Option String
  Sk : String
  OrganizationalUnitIdentifier : String
  IsAdmin : Bool
  EnrollmentId : String
deriving DecidableEq, Repr

/-- Modelled from the spec: the functions that `GenerateSignerConfig` calls are declared
outside the sources at hand and are taken as parameters. A big number is a `Nat`, a
generator is the `Nat` of its state, behind a pointer; a function that draws from the
generator returns the generator after the draw. `GetRand` reads the entropy of the system,
which is its argument here. -/
structure Library where
  HashModOrder : String → Nat
  NewBIGint : Int → Nat
  GetRand : Nat → Option Nat × Option String
  RandModOrder : Option Nat → Nat × Option Nat
  NewCredRequest : Nat → Nat → String → Option Nat → String × Option Nat
  NewCredential : IssuerKey → String → List Nat → Option Nat →
    (Option String × Option String) × Option Nat
  MarshalCredential : Option String → Option String × Option String
  BigToBytes : Nat → String
  MarshalSigner : IdemixMSPSignerConfig → Option String × Option String

/-- A call of `GenerateSignerConfig` that draws randomness or issues a credential. -/
inductive Effect where
  | GetRand
  | RandModOrder
  | NewCredRequest
  | NewCredential
deriving DecidableEq, Repr

/-- A run of `GenerateSignerConfig`: the calls that drew randomness or issued a credential,
in order, and the pair (bytes, error) returned; `none` is a nil dereference. -/
structure Run where
  effects : List Effect
  result : Option (Option String × Option String)
deriving DecidableEq, Repr

/-- The constant `m.MSPRole_MEMBER`. -/
def MSPRole_MEMBER : Int := 0

/-- The constant `m.MSPRole_ADMIN`. -/
def MSPRole_ADMIN : Int := 1

/-- The function `GenerateSignerConfig`. The slice `attrs` is filled at the indices
`msp.AttributeIndexOU`, `AttributeIndexRole`, `AttributeIndexEnrollmentId` and
`AttributeIndexRevocationHandle`, which are 0 to 3. -/
def GenerateSignerConfig (lib : Library) (entropy : Nat) (isAdmin : Bool)
    (ouString enrollmentId : String) (revocationHandle : Int) (key : Option IssuerKey) : Run :=
  if ouString = "" then
    { effects := [], result := some (none, some "the OU attribute value is empty") }
  else if enrollmentId = "" then
    { effects := [], result := some (none, some "the enrollment id value is empty") }
  else
    let role := if isAdmin then MSPRole_ADMIN else MSPRole_MEMBER
    let attrs : List Nat :=
      [lib.HashModOrder ouString, lib.NewBIGint role, lib.HashModOrder enrollmentId,
       lib.NewBIGint revocationHandle]
    match lib.GetRand entropy with
    | (_, some err) =>
      { effects := [Effect.GetRand],
        result := some (none, some ("Error getting PRNG: " ++ err)) }
    | (rng, none) =>
      let sk := lib.RandModOrder rng
      let ni := lib.RandModOrder sk.2
      match key with
      | none =>
        { effects := [Effect.GetRand, Effect.RandModOrder, Effect.RandModOrder],
          result := none }
      | some key =>
        let msg := lib.NewCredRequest sk.1 ni.1 key.IPk ni.2
        let cred := lib.NewCredential key msg.1 attrs msg.2
        let drawn := [Effect.GetRand, Effect.RandModOrder, Effect.RandModOrder,
          Effect.NewCredRequest, Effect.NewCredential]
        match cred.1 with
        | (_, some err) =>
          { effects := drawn,
            result := some (none, some ("failed to generate a credential: " ++ err)) }
        | (cred, none) =>
          match lib.MarshalCredential cred with
          | (_, some err) =>
            { effects := drawn,
              result := some (none, some ("failed to marshal credential: " ++ err)) }
          | (credBytes, none) =>
            let signer : IdemixMSPSignerConfig :=
              { Cred := credBytes,
                Sk := lib.BigToBytes sk.1,
                OrganizationalUnitIdentifier := ouString,
                IsAdmin := isAdmin,
                EnrollmentId := enrollmentId }
            { effects := drawn, result := some (lib.MarshalSigner signer) }

/-! ## Sample inputs -/

/-- Sample library: hashes are lengths, the generator counts its draws, a credential is the
message it answers, serialization is the identity on the credential. -/
def sampleLibrary : Library :=
  { HashModOrder := fun s => s.length,
    NewBIGint := fun i => i.toNat,
    GetRand := fun entropy => (some entropy, none),
    RandModOrder := fun rng => (rng.getD 0, rng.map (fun state => state + 1)),
    NewCredRequest := fun _ _ ipk rng => ("request-" ++ ipk, rng),
    NewCredential := fun _ msg _ rng => ((some ("credential-" ++ msg), none), rng),
    MarshalCredential := fun cred => (cred, none),
    BigToBytes := fun _ => "sk",
    MarshalSigner := fun signer => (signer.Cred, none) }

end Idemixca

namespace Endorsement

/-! # Theorems -/

/-! ## Go maps -/

namespace GoMap

theorem mem_keys_of_mem {κ ν : Type} (m : GoMap κ ν) (k : κ) (v : ν) (h : (k, v) ∈ m) :
    k ∈ keys m :=
  List.mem_map.mpr ⟨(k, v), h, rfl⟩

variable {κ ν : Type} [DecidableEq κ]

theorem lookup_insert_self (m : GoMap κ ν) (k : κ) (v : ν) :
    lookup (insert m k v) k = some v := by
  induction m with
  | nil => simp [insert, lookup]
  | cons e rest ih =>
    obtain ⟨k', v'⟩ := e
    by_cases h : k' = k
    · simp [insert, lookup, h]
    · simp [insert, lookup, h, ih]

theorem lookup_insert_ne (m : GoMap κ ν) (k k' : κ) (v : ν) (hne : k' ≠ k) :
    lookup (insert m k v) k' = lookup m k' := by
  induction m with
  | nil => simp [insert, lookup, Ne.symm hne]
  | cons e rest ih =>
    obtain ⟨k1, v1⟩ := e
    by_cases h : k1 = k
    · subst h
      simp [insert, lookup, Ne.symm hne]
    · by_cases h2 : k1 = k'
      · subst h2
        simp [insert, lookup, h]
      · simp [insert, lookup, h, h2, ih]

theorem lookup_eq_none_iff (m : GoMap κ ν) (k : κ) :
    lookup m k = none ↔ k ∉ keys m := by
  induction m with
  | nil => simp [lookup, keys]
  | cons e rest ih =>
    obtain ⟨k1, v1⟩ := e
    by_cases h : k1 = k
    · simp [lookup, keys, h]
    · have h2 : ¬ k = k1 := fun c => h c.symm
      simp only [lookup, h, if_false, ih, keys, List.map_cons, List.mem_cons, h2, false_or]

theorem mem_of_lookup (m : GoMap κ ν) (k : κ) (v : ν) (h : lookup m k = some v) :
    (k, v) ∈ m := by
  induction m with
  | nil => simp [lookup] at h
  | cons e rest ih =>
    obtain ⟨k1, v1⟩ := e
    by_cases h1 : k1 = k
    · simp [lookup, h1] at h
      simp [h1, h]
    · simp [lookup, h1] at h
      exact List.mem_cons_of_mem _ (ih h)

theorem lookup_of_mem (m : GoMap κ ν) (k : κ) (v : ν) (hnd : (keys m).Nodup)
    (h : (k, v) ∈ m) : lookup m k = some v := by
  induction m with
  | nil => simp at h
  | cons e rest ih =>
    obtain ⟨k1, v1⟩ := e
    simp only [keys, List.map_cons, List.nodup_cons] at hnd
    rcases List.mem_cons.mp h with heq | hmem
    · injection heq with h1 h2
      simp [lookup, h1, h2]
    · have hk : k ∈ keys rest := mem_keys_of_mem rest k v hmem
      have hne : k1 ≠ k := fun c => hnd.1 (c ▸ hk)
      simp only [lookup, hne, if_false]
      exact ih hnd.2 hmem

theorem contains_iff (m : GoMap κ ν) (k : κ) : contains m k = true ↔ k ∈ keys m := by
  unfold contains
  cases hl : lookup m k with
  | none => simpa using (lookup_eq_none_iff m k).mp hl
  | some v => simpa using mem_keys_of_mem m k v (mem_of_lookup m k v hl)

theorem insert_of_lookup_none (m : GoMap κ ν) (k : κ) (v : ν) (h : lookup m k = none) :
    insert m k v = m ++ [(k, v)] := by
  induction m with
  | nil => rfl
  | cons e rest ih =>
    obtain ⟨k1, v1⟩ := e
    by_cases h1 : k1 = k
    · simp [lookup, h1] at h
    · simp only [lookup, h1, if_false] at h
      simp [insert, h1, ih h]

theorem keys_insert_of_mem (m : GoMap κ ν) (k : κ) (v : ν) (h : k ∈ keys m) :
    keys (insert m k v) = keys m := by
  induction m with
  | nil => simp [keys] at h
  | cons e rest ih =>
    obtain ⟨k1, v1⟩ := e
    by_cases h1 : k1 = k
    · simp [insert, keys, h1]
    · have h2 : k ∈ keys rest := by
        simp only [keys, List.map_cons, List.mem_cons] at h
        rcases h with h | h
        · exact absurd h.symm h1
        · exact h
      have := ih h2
      simp only [keys] at this
      simp [insert, keys, h1, this]

theorem mem_keys_insert (m : GoMap κ ν) (k k' : κ) (v : ν) :
    k' ∈ keys (insert m k v) ↔ k' = k ∨ k' ∈ keys m := by
  by_cases h : k ∈ keys m
  · rw [keys_insert_of_mem m k v h]
    constructor
    · exact Or.inr
    · rintro (h1 | h1)
      · exact h1 ▸ h
      · exact h1
  · rw [insert_of_lookup_none m k v ((lookup_eq_none_iff m k).mpr h)]
    simp [keys, or_comm]

theorem nodup_keys_insert (m : GoMap κ ν) (k : κ) (v : ν) (hnd : (keys m).Nodup) :
    (keys (insert m k v)).Nodup := by
  by_cases h : k ∈ keys m
  · rw [keys_insert_of_mem m k v h]
    exact hnd
  · rw [insert_of_lookup_none m k v ((lookup_eq_none_iff m k).mpr h)]
    simp only [keys, List.map_append, List.map_cons, List.map_nil]
    refine List.Nodup.append hnd (List.nodup_singleton k) ?_
    intro a ha hb
    simp only [List.mem_singleton] at hb
    exact h (hb ▸ ha)

theorem mem_insert (m : GoMap κ ν) (k : κ) (v : ν) (e : κ × ν) (h : e ∈ insert m k v) :
    e = (k, v) ∨ e ∈ m := by
  induction m with
  | nil => simpa [insert] using h
  | cons e1 rest ih =>
    obtain ⟨k1, v1⟩ := e1
    by_cases h1 : k1 = k
    · simp only [insert, h1, if_true, List.mem_cons] at h
      rcases h with h | h
      · exact Or.inl h
      · exact Or.inr (List.mem_cons_of_mem _ h)
    · simp only [insert, h1, if_false, List.mem_cons] at h
      rcases h with h | h
      · exact Or.inr (h ▸ List.mem_cons_self _ _)
      · rcases ih h with h2 | h2
        · exact Or.inl h2
        · exact Or.inr (List.mem_cons_of_mem _ h2)

end GoMap

/-! ## Group names -/

theorem digitChar_value (d : Nat) (h : d < 10) : (Nat.digitChar d).toNat - 48 = d := by
  interval_cases d <;> rfl

theorem digitsValue_toDigitsCore (fuel : Nat) : ∀ (n : Nat) (ds : List Char), n < fuel →
    digitsValue 0 (Nat.toDigitsCore 10 fuel n ds) = digitsValue n ds := by
  induction fuel with
  | zero => intro n ds h; omega
  | succ fuel ih =>
    intro n ds h
    have hd : (Nat.digitChar (n % 10)).toNat - 48 = n % 10 :=
      digitChar_value (n % 10) (Nat.mod_lt n (by decide))
    by_cases h0 : n / 10 = 0
    · simp only [Nat.toDigitsCore, h0, if_true]
      have hn : n % 10 = n := by omega
      rw [hn] at hd
      simp [digitsValue, hd, hn]
    · simp only [Nat.toDigitsCore, h0, if_false]
      rw [ih (n / 10) _ (by omega)]
      simp only [digitsValue, List.foldl_cons, hd]
      congr 1
      omega

theorem groupName_injective (a b : Nat) (h : groupName a = groupName b) : a = b := by
  have h1 : (groupName a).data = (groupName b).data := by rw [h]
  simp only [groupName, String.data_append, toString, Nat.repr, List.asString] at h1
  have h2 : Nat.toDigits 10 a = Nat.toDigits 10 b := by simpa using h1
  have ha := digitsValue_toDigitsCore (a + 1) a [] (by omega)
  have hb := digitsValue_toDigitsCore (b + 1) b [] (by omega)
  unfold Nat.toDigits at h2
  rw [h2, hb] at ha
  simpa [digitsValue] using ha.symm

/-! ## The principal-group mapper -/

theorem group_of_some (mapper : principalGroupMapper) (key : principalKey) (grp : String)
    (h : GoMap.lookup mapper key = some grp) : group mapper key = (grp, mapper) := by
  simp [group, h]

theorem group_of_none (mapper : principalGroupMapper) (key : principalKey)
    (h : GoMap.lookup mapper key = none) :
    group mapper key =
      (groupName mapper.length, mapper ++ [(key, groupName mapper.length)]) := by
  simp [group, h, GoMap.insert_of_lookup_none mapper key _ h]

theorem group_lookup_self (mapper : principalGroupMapper) (key : principalKey) :
    GoMap.lookup (group mapper key).2 key = some (group mapper key).1 := by
  cases h : GoMap.lookup mapper key with
  | none => simp [group, h, GoMap.lookup_insert_self]
  | some grp => simp [group, h]

theorem group_preserves (mapper : principalGroupMapper) (key other : principalKey)
    (grp : String) (h : GoMap.lookup mapper key = some grp) :
    GoMap.lookup (group mapper other).2 key = some grp := by
  cases ho : GoMap.lookup mapper other with
  | some g => simp [group, ho, h]
  | none =>
    have hne : key ≠ other := by
      intro c
      rw [c, ho] at h
      cases h
    simp [group, ho, GoMap.lookup_insert_ne mapper other key _ hne, h]

theorem groupAll_preserves (later : List principalKey) :
    ∀ (mapper : principalGroupMapper) (key : principalKey) (grp : String),
      GoMap.lookup mapper key = some grp →
      GoMap.lookup (groupAll later mapper) key = some grp := by
  induction later with
  | nil => intro mapper key grp h; exact h
  | cons k rest ih =>
    intro mapper key grp h
    exact ih (group mapper k).2 key grp (group_preserves mapper key k grp h)

theorem mapperWF_nil : mapperWF [] := by
  simp [mapperWF, GoMap.keys, GoMap.values]

theorem mapperWF_group (mapper : principalGroupMapper) (key : principalKey)
    (h : mapperWF mapper) : mapperWF (group mapper key).2 := by
  cases hl : GoMap.lookup mapper key with
  | some grp => rw [group_of_some mapper key grp hl]; exact h
  | none =>
    rw [group_of_none mapper key hl]
    have hk : key ∉ GoMap.keys mapper := (GoMap.lookup_eq_none_iff mapper key).mp hl
    refine ⟨?_, ?_⟩
    · simp only [GoMap.keys, List.map_append, List.map_cons, List.map_nil]
      refine List.Nodup.append h.1 (List.nodup_singleton key) ?_
      intro a ha hb
      simp only [List.mem_singleton] at hb
      exact hk (hb ▸ ha)
    · have hv := h.2
      simp only [GoMap.values] at hv
      simp [GoMap.values, hv, List.range_succ]

theorem Reachable.wf (mapper : principalGroupMapper) (h : Reachable mapper) :
    mapperWF mapper := by
  induction h with
  | empty => exact mapperWF_nil
  | step m k _ ih => exact mapperWF_group m k ih

theorem groupAll_reachable (later : List principalKey) :
    ∀ mapper : principalGroupMapper, Reachable mapper → Reachable (groupAll later mapper) := by
  induction later with
  | nil => intro mapper h; exact h
  | cons k rest ih => intro mapper h; exact ih _ (Reachable.step mapper k h)

theorem mapperWF_alias_at (mapper : principalGroupMapper) (h : mapperWF mapper)
    (key : principalKey) (grp : String) (hm : (key, grp) ∈ mapper) :
    ∃ i, i < mapper.length ∧ grp = groupName i ∧ mapper.get? i = some (key, grp) := by
  obtain ⟨i, hi, hget⟩ := List.mem_iff_getElem.mp hm
  refine ⟨i, hi, ?_, ?_⟩
  · have hv := congrArg (fun l => l.get? i) h.2
    simp only [GoMap.values, List.get?_eq_getElem?, List.getElem?_map,
      List.getElem?_eq_getElem hi, hget, Option.map_some,
      List.getElem?_range hi] at hv
    simpa using hv
  · rw [List.get?_eq_getElem?, List.getElem?_eq_getElem hi, hget]

theorem mapperWF_injective (mapper : principalGroupMapper) (h : mapperWF mapper)
    (k1 k2 : principalKey) (grp : String)
    (h1 : GoMap.lookup mapper k1 = some grp) (h2 : GoMap.lookup mapper k2 = some grp) :
    k1 = k2 := by
  obtain ⟨i, _, hgi, hi⟩ := mapperWF_alias_at mapper h k1 grp (GoMap.mem_of_lookup _ _ _ h1)
  obtain ⟨j, _, hgj, hj⟩ := mapperWF_alias_at mapper h k2 grp (GoMap.mem_of_lookup _ _ _ h2)
  have hij : i = j := groupName_injective i j (hgi ▸ hgj)
  subst hij
  rw [hi] at hj
  injection hj with hj
  injection hj

/-- C10: on a key the mapper lacks, `group` returns `G<n>` for the `n` entries the mapper
has, and the mapper afterwards is the old one with the single new entry key -> `G<n>` (so
one entry more); on a key the mapper holds, `group` returns the stored alias and leaves the
mapper as it is. In both cases every later `group` call with that key, after any other
`group` calls, returns the same alias. -/
theorem group_contract (mapper : principalGroupMapper) (key : principalKey) :
    (GoMap.lookup mapper key = none →
      (group mapper key).1 = "G" ++ toString mapper.length ∧
      (group mapper key).2 = mapper ++ [(key, "G" ++ toString mapper.length)] ∧
      (group mapper key).2.length = mapper.length + 1 ∧
      ∀ later : List principalKey,
        (group (groupAll later (group mapper key).2) key).1 = "G" ++ toString mapper.length) ∧
    (∀ grp : String, GoMap.lookup mapper key = some grp →
      (group mapper key).1 = grp ∧
      (group mapper key).2 = mapper ∧
      ∀ later : List principalKey,
        (group (groupAll later (group mapper key).2) key).1 = grp) := by
  constructor
  · intro h
    have hg := group_of_none mapper key h
    refine ⟨by rw [hg]; rfl, by rw [hg]; rfl, by rw [hg]; simp, ?_⟩
    intro later
    have hs := group_lookup_self mapper key
    have hl := groupAll_preserves later _ key _ hs
    rw [group_of_some _ key _ hl, hg]
    rfl
  · intro grp h
    have hg := group_of_some mapper key grp h
    refine ⟨by rw [hg], by rw [hg], ?_⟩
    intro later
    rw [hg]
    have hl := groupAll_preserves later mapper key grp h
    rw [group_of_some _ key _ hl]

/-- Witness of C10: a fresh key on a mapper of one entry, and the key the mapper holds. -/
theorem group_contract_witness :
    (GoMap.lookup ([(⟨0, "orgA"⟩, "G0")] : principalGroupMapper) ⟨0, "orgB"⟩ = none ∧
      (group [(⟨0, "orgA"⟩, "G0")] ⟨0, "orgB"⟩).1 = "G1") ∧
    (GoMap.lookup ([(⟨0, "orgA"⟩, "G0")] : principalGroupMapper) ⟨0, "orgA"⟩ = some "G0" ∧
      (group [(⟨0, "orgA"⟩, "G0")] ⟨0, "orgA"⟩).2 = [(⟨0, "orgA"⟩, "G0")]) :=
  ⟨⟨by decide, ((group_contract [(⟨0, "orgA"⟩, "G0")] ⟨0, "orgB"⟩).1 (by decide)).1⟩,
   ⟨by decide, ((group_contract [(⟨0, "orgA"⟩, "G0")] ⟨0, "orgA"⟩).2 "G0" (by decide)).2.1⟩⟩

/-! ## The graph check -/

/-- C8: when every group of the layout has a principal vertex in the graph,
`isLayoutSatisfied` returns a Boolean, and it is `true` if and only if for every
(group, plurality) entry the principal vertex of the group has at least `plurality`
neighbours; on the empty layout it returns `true`. -/
theorem isLayoutSatisfied_iff (layout : GoMap String Nat) (satGraph : principalPeerGraph)
    (h : ∀ grp ∈ GoMap.keys layout, GoMap.contains satGraph.principalVertices grp = true) :
    (∃ b : Bool, isLayoutSatisfied layout satGraph = some b ∧
      (b = true ↔ ∀ grp plurality, (grp, plurality) ∈ layout →
        ∃ vertex, GoMap.lookup satGraph.principalVertices grp = some vertex ∧
          plurality ≤ vertex.Neighbors.length)) ∧
    isLayoutSatisfied [] satGraph = some true := by
  refine ⟨?_, rfl⟩
  induction layout with
  | nil => exact ⟨true, rfl, by simp⟩
  | cons e rest ih =>
    obtain ⟨grp, plurality⟩ := e
    have hrest : ∀ g ∈ GoMap.keys rest, GoMap.contains satGraph.principalVertices g = true :=
      fun g hg => h g (List.mem_cons_of_mem _ hg)
    obtain ⟨b, hb, hiff⟩ := ih hrest
    have hc := h grp (List.mem_cons_self _ _)
    unfold GoMap.contains at hc
    cases hl : GoMap.lookup satGraph.principalVertices grp with
    | none => simp [hl] at hc
    | some vertex =>
      by_cases hlt : vertex.Neighbors.length < plurality
      · refine ⟨false, by simp [isLayoutSatisfied, hl, hlt], ?_⟩
        constructor
        · intro c; cases c
        · intro hall
          obtain ⟨v, hv, hle⟩ := hall grp plurality (List.mem_cons_self _ _)
          rw [hl] at hv
          injection hv with hv
          subst hv
          omega
      · refine ⟨b, by simp [isLayoutSatisfied, hl, hlt, hb], ?_⟩
        rw [hiff]
        constructor
        · intro hall g q hmem
          rcases List.mem_cons.mp hmem with heq | hmem
          · injection heq with h1 h2
            subst h1 h2
            exact ⟨vertex, hl, by omega⟩
          · exact hall g q hmem
        · intro hall g q hmem
          exact hall g q (List.mem_cons_of_mem _ hmem)


/-- Witness of C8: the layout G0 -> 2 on the sample graph, where G0 has two neighbours. -/
theorem isLayoutSatisfied_iff_witness :
    (∀ grp ∈ GoMap.keys ([("G0", 2)] : GoMap String Nat),
      GoMap.contains sampleGraph.principalVertices grp = true) ∧
    isLayoutSatisfied [("G0", 2)] sampleGraph = some true :=
  have hyp : ∀ grp ∈ GoMap.keys ([("G0", 2)] : GoMap String Nat),
      GoMap.contains sampleGraph.principalVertices grp = true := by
    intro grp hg
    simp only [GoMap.keys, List.map_cons, List.map_nil, List.mem_singleton] at hg
    subst hg
    decide
  ⟨hyp, by
    obtain ⟨b, hb, hiff⟩ := (isLayoutSatisfied_iff [("G0", 2)] sampleGraph hyp).1
    rw [hb]
    have : b = true := by
      rw [hiff]
      intro grp plurality hmem
      simp only [List.mem_singleton, Prod.mk.injEq] at hmem
      obtain ⟨h1, h2⟩ := hmem
      subst h1 h2
      exact ⟨_, rfl, by decide⟩
    rw [this]⟩

/-! ## Folds that fill a map -/

theorem GoMap.mem_keys_foldl {κ ν α : Type} (f : GoMap κ ν → α → GoMap κ ν)
    (P : α → κ → Prop)
    (hf : ∀ (m : GoMap κ ν) (e : α) (k : κ), k ∈ GoMap.keys (f m e) ↔ k ∈ GoMap.keys m ∨ P e k)
    (l : List α) : ∀ (acc : GoMap κ ν) (k : κ),
      k ∈ GoMap.keys (l.foldl f acc) ↔ k ∈ GoMap.keys acc ∨ ∃ e ∈ l, P e k := by
  induction l with
  | nil => intro acc k; simp
  | cons a rest ih =>
    intro acc k
    rw [List.foldl_cons, ih (f acc a) k, hf acc a k]
    constructor
    · rintro ((h | h) | ⟨e, he, hp⟩)
      · exact Or.inl h
      · exact Or.inr ⟨a, List.mem_cons_self _ _, h⟩
      · exact Or.inr ⟨e, List.mem_cons_of_mem _ he, hp⟩
    · rintro (h | ⟨e, he, hp⟩)
      · exact Or.inl (Or.inl h)
      · rcases List.mem_cons.mp he with heq | hmem
        · exact Or.inl (Or.inr (heq ▸ hp))
        · exact Or.inr ⟨e, hmem, hp⟩

theorem GoMap.nodup_keys_foldl {κ ν α : Type} (f : GoMap κ ν → α → GoMap κ ν)
    (hf : ∀ (m : GoMap κ ν) (e : α), (GoMap.keys m).Nodup → (GoMap.keys (f m e)).Nodup)
    (l : List α) : ∀ acc : GoMap κ ν, (GoMap.keys acc).Nodup →
      (GoMap.keys (l.foldl f acc)).Nodup := by
  induction l with
  | nil => intro acc h; exact h
  | cons a rest ih => intro acc h; exact ih (f acc a) (hf acc a h)

/-! ## The groups of the layouts -/

theorem groupsSet_contains (l : List Layout) (grp : String) :
    GoMap.contains (groupsSet l) grp = true ↔
      ∃ layout ∈ l, grp ∈ GoMap.keys layout.QuantitiesByGroup := by
  rw [GoMap.contains_iff]
  unfold groupsSet
  rw [GoMap.mem_keys_foldl _ (fun layout g => g ∈ GoMap.keys layout.QuantitiesByGroup)]
  · simp [GoMap.keys]
  · intro m layout k
    rw [GoMap.mem_keys_foldl _ (fun (e : String × Nat) g => g = e.1)]
    · simp only [GoMap.keys, List.mem_map]
      constructor
      · rintro (h | ⟨e, he, rfl⟩)
        · exact Or.inl h
        · exact Or.inr ⟨e, he, rfl⟩
      · rintro (h | ⟨e, he, rfl⟩)
        · exact Or.inl h
        · exact Or.inr ⟨e, he, rfl⟩
    · intro m e k
      rw [GoMap.mem_keys_insert]
      exact or_comm

/-! ## The endorsers of the groups -/

theorem endorsersByGroup_keys (criteria : peerMembershipCriteria) (grp : String) :
    grp ∈ GoMap.keys (endorsersByGroup criteria) ↔
      grp ∈ GoMap.keys criteria.satGraph.principalVertices ∧
        GoMap.contains (groupsSet criteria.possibleLayouts) grp = true := by
  unfold endorsersByGroup
  rw [GoMap.mem_keys_foldl _ (fun (e : String × PrincipalVertex) g =>
    g = e.1 ∧ GoMap.contains (groupsSet criteria.possibleLayouts) g = true)]
  · simp only [GoMap.keys, List.mem_map, List.map_nil, List.not_mem_nil, false_or]
    constructor
    · rintro ⟨e, he, rfl, hc⟩
      exact ⟨⟨e, he, rfl⟩, hc⟩
    · rintro ⟨⟨e, he, rfl⟩, hc⟩
      exact ⟨e, he, rfl, hc⟩
  · intro m e k
    by_cases hc : GoMap.contains (groupsSet criteria.possibleLayouts) e.1 = true
    · simp only [hc, if_true]
      rw [GoMap.mem_keys_insert]
      constructor
      · rintro (h | h)
        · exact Or.inr ⟨h, h ▸ hc⟩
        · exact Or.inl h
      · rintro (h | ⟨h, _⟩)
        · exact Or.inr h
        · exact Or.inl h
    · simp only [hc]
      constructor
      · exact Or.inl
      · rintro (h | ⟨h, h2⟩)
        · exact h
        · exact absurd (h ▸ h2) hc

/-- C3: a group alias is a key of the map returned by `endorsersByGroup` exactly when it
has a principal vertex in the graph and is a key of `QuantitiesByGroup` in at least one of
the possible layouts; hence every key occurs in some layout, and a principal vertex whose
group occurs in no layout contributes no key. -/
theorem endorsersByGroup_keys_in_layouts (criteria : peerMembershipCriteria) (grp : String) :
    (grp ∈ GoMap.keys (endorsersByGroup criteria) ↔
      grp ∈ GoMap.keys criteria.satGraph.principalVertices ∧
        ∃ layout ∈ criteria.possibleLayouts, grp ∈ GoMap.keys layout.QuantitiesByGroup) ∧
    ((∀ layout ∈ criteria.possibleLayouts, grp ∉ GoMap.keys layout.QuantitiesByGroup) →
      GoMap.lookup (endorsersByGroup criteria) grp = none) := by
  have hk := endorsersByGroup_keys criteria grp
  rw [groupsSet_contains] at hk
  refine ⟨hk, ?_⟩
  intro hno
  rw [GoMap.lookup_eq_none_iff, hk]
  rintro ⟨_, layout, hl, hg⟩
  exact hno layout hl hg


/-- Witness of C3: the sample graph has the principal vertex G0, and with no layout at all
the group G0 gets no key. -/
theorem endorsersByGroup_keys_in_layouts_witness :
    (∀ layout ∈ ([] : List Layout), "G0" ∉ GoMap.keys layout.QuantitiesByGroup) ∧
    GoMap.lookup (endorsersByGroup
      { satGraph := sampleGraph, idOfMembers := [], chanMemberById := [],
        possibleLayouts := [] }) "G0" = none :=
  ⟨by simp, (endorsersByGroup_keys_in_layouts
      { satGraph := sampleGraph, idOfMembers := [], chanMemberById := [],
        possibleLayouts := [] } "G0").2 (by simp)⟩

/-! ## The satisfaction graph -/

theorem GoMap.mem_foldl {κ ν α : Type} (f : GoMap κ ν → α → GoMap κ ν)
    (Q : α → κ × ν → Prop)
    (hf : ∀ (m : GoMap κ ν) (x : α) (e : κ × ν), e ∈ f m x → e ∈ m ∨ Q x e)
    (l : List α) : ∀ (acc : GoMap κ ν) (e : κ × ν),
      e ∈ l.foldl f acc → e ∈ acc ∨ ∃ x ∈ l, Q x e := by
  induction l with
  | nil => intro acc e h; exact Or.inl h
  | cons a rest ih =>
    intro acc e h
    rcases ih (f acc a) e h with h1 | ⟨x, hx, hq⟩
    · rcases hf acc a e h1 with h2 | h2
      · exact Or.inl h2
      · exact Or.inr ⟨a, List.mem_cons_self _ _, h2⟩
    · exact Or.inr ⟨x, List.mem_cons_of_mem _ hx, hq⟩

theorem connectPeers_core (sat : peerPrincipalEvaluator) (peers : List PeerVertex) :
    ∀ pv : PrincipalVertex,
      (connectPeers sat peers pv).2.map vertexCore = peers.map vertexCore ∧
      vertexCore (connectPeers sat peers pv).1 = vertexCore pv := by
  induction peers with
  | nil => intro pv; simp [connectPeers]
  | cons p rest ih =>
    intro pv
    cases hs : sat p.Data pv.Data with
    | true =>
      simp only [connectPeers, hs, if_true, List.map_cons]
      obtain ⟨h1, h2⟩ := ih (p.AddNeighbor pv).2
      exact ⟨by rw [h1]; rfl, by rw [h2]; rfl⟩
    | false =>
      simp only [connectPeers, hs, List.map_cons, Bool.false_eq_true, if_false]
      obtain ⟨h1, h2⟩ := ih pv
      exact ⟨by rw [h1], h2⟩

theorem connectPeers_congr (sat : peerPrincipalEvaluator) (peers : List PeerVertex) :
    ∀ (others : List PeerVertex) (pv : PrincipalVertex),
      peers.map vertexCore = others.map vertexCore →
      (connectPeers sat peers pv).1 = (connectPeers sat others pv).1 := by
  induction peers with
  | nil =>
    intro others pv h
    cases others with
    | nil => rfl
    | cons o os => simp at h
  | cons p rest ih =>
    intro others pv h
    cases others with
    | nil => simp at h
    | cons o os =>
      simp only [List.map_cons, List.cons.injEq] at h
      obtain ⟨hc, hrest⟩ := h
      have hd : p.Data = o.Data := congrArg Prod.snd hc
      have hi : p.Id = o.Id := congrArg Prod.fst hc
      cases hs : sat o.Data pv.Data with
      | true =>
        have hs2 : sat p.Data pv.Data = true := hd ▸ hs
        simp only [connectPeers, hs, hs2, if_true]
        have : (p.AddNeighbor pv).2 = (o.AddNeighbor pv).2 := by
          simp [Vertex.AddNeighbor, hd, hi]
        rw [this]
        exact ih os _ hrest
      | false =>
        have hs2 : sat p.Data pv.Data = false := hd ▸ hs
        simp only [connectPeers, hs, hs2, Bool.false_eq_true, if_false]
        exact ih os _ hrest

theorem connectPrincipals_fst (sat : peerPrincipalEvaluator)
    (prins : GoMap String PrincipalVertex) :
    ∀ peers : List PeerVertex,
      (connectPrincipals sat prins peers).1 =
        prins.map (fun e => (e.1, (connectPeers sat peers e.2).1)) := by
  induction prins with
  | nil => intro peers; rfl
  | cons e rest ih =>
    intro peers
    obtain ⟨grp, pv⟩ := e
    simp only [connectPrincipals, List.map_cons, List.cons.injEq, true_and]
    rw [ih]
    apply List.map_congr_left
    intro e _
    have hcore := (connectPeers_core sat peers pv).1
    rw [connectPeers_congr sat _ peers e.2 hcore]

theorem connectPeers_neighbors (sat : peerPrincipalEvaluator) (peers : List PeerVertex) :
    ∀ (pv : PrincipalVertex) (e : String × NetworkMember),
      e ∈ (connectPeers sat peers pv).1.neighbors →
      e ∈ pv.neighbors ∨
        ∃ p ∈ peers, e = (p.Id, p.Data) ∧ sat p.Data pv.Data = true := by
  induction peers with
  | nil => intro pv e h; exact Or.inl h
  | cons p rest ih =>
    intro pv e h
    cases hs : sat p.Data pv.Data with
    | true =>
      simp only [connectPeers, hs, if_true] at h
      rcases ih _ e h with h1 | ⟨q, hq, he, hsat⟩
      · simp only [Vertex.AddNeighbor] at h1
        rcases GoMap.mem_insert _ _ _ _ h1 with h2 | h2
        · exact Or.inr ⟨p, List.mem_cons_self _ _, h2, hs⟩
        · exact Or.inl h2
      · exact Or.inr ⟨q, List.mem_cons_of_mem _ hq, he, hsat⟩
    | false =>
      simp only [connectPeers, hs, Bool.false_eq_true, if_false] at h
      rcases ih _ e h with h1 | ⟨q, hq, he, hsat⟩
      · exact Or.inl h1
      · exact Or.inr ⟨q, List.mem_cons_of_mem _ hq, he, hsat⟩

theorem principalsToPeersGraph_vertices (data : principalAndPeerData)
    (sat : peerPrincipalEvaluator) :
    (principalsToPeersGraph data sat).principalVertices =
      (data.pGrps.foldl (fun acc entry =>
        GoMap.insert acc entry.2 (NewVertex entry.2 entry.1.toPrincipal))
          ([] : GoMap String PrincipalVertex)).map
        (fun e => (e.1, (connectPeers sat
          (data.members.map (fun member => NewVertex member.PKIid member)) e.2).1)) := by
  simp only [principalsToPeersGraph]
  rw [connectPrincipals_fst]

theorem principalsToPeersGraph_nodup (data : principalAndPeerData)
    (sat : peerPrincipalEvaluator) :
    (GoMap.keys (principalsToPeersGraph data sat).principalVertices).Nodup := by
  rw [principalsToPeersGraph_vertices]
  simp only [GoMap.keys, List.map_map]
  have : (Prod.fst ∘ fun (e : String × PrincipalVertex) => (e.1, (connectPeers sat
      (data.members.map (fun member => NewVertex member.PKIid member)) e.2).1)) = Prod.fst := by
    funext e; rfl
  rw [this]
  exact GoMap.nodup_keys_foldl _ (fun m e h => GoMap.nodup_keys_insert m _ _ h) _ [] List.nodup_nil

theorem principalsToPeersGraph_keys (data : principalAndPeerData)
    (sat : peerPrincipalEvaluator) (grp : String) :
    grp ∈ GoMap.keys (principalsToPeersGraph data sat).principalVertices ↔
      ∃ key, (key, grp) ∈ data.pGrps := by
  rw [principalsToPeersGraph_vertices]
  simp only [GoMap.keys, List.map_map]
  have : (Prod.fst ∘ fun (e : String × PrincipalVertex) => (e.1, (connectPeers sat
      (data.members.map (fun member => NewVertex member.PKIid member)) e.2).1)) = Prod.fst := by
    funext e; rfl
  rw [this]
  have h := GoMap.mem_keys_foldl
    (fun (acc : GoMap String PrincipalVertex) (entry : principalKey × String) =>
      GoMap.insert acc entry.2 (NewVertex entry.2 entry.1.toPrincipal))
    (fun entry g => g = entry.2)
    (fun m e k => by rw [GoMap.mem_keys_insert]; exact or_comm) data.pGrps [] grp
  simp only [GoMap.keys] at h
  rw [h]
  simp only [List.map_nil, List.not_mem_nil, false_or]
  constructor
  · rintro ⟨e, he, rfl⟩
    exact ⟨e.1, he⟩
  · rintro ⟨key, hk⟩
    exact ⟨(key, grp), hk, rfl⟩

theorem principalsToPeersGraph_neighbors (data : principalAndPeerData)
    (sat : peerPrincipalEvaluator) (grp : String) (vertex : PrincipalVertex)
    (hv : (grp, vertex) ∈ (principalsToPeersGraph data sat).principalVertices) :
    (∃ key, (key, grp) ∈ data.pGrps ∧ vertex.Data = key.toPrincipal) ∧
    ∀ member ∈ vertex.Neighbors,
      member ∈ data.members ∧ sat member vertex.Data = true := by
  rw [principalsToPeersGraph_vertices] at hv
  obtain ⟨e0, he0, heq⟩ := List.mem_map.mp hv
  have hinit := GoMap.mem_foldl
    (fun (acc : GoMap String PrincipalVertex) (entry : principalKey × String) =>
      GoMap.insert acc entry.2 (NewVertex entry.2 entry.1.toPrincipal))
    (fun entry e => e = (entry.2, NewVertex entry.2 entry.1.toPrincipal))
    (fun m x e h => (GoMap.mem_insert m _ _ e h).symm) data.pGrps [] e0 he0
  rcases hinit with hnil | ⟨x, hx, hxe⟩
  · simp at hnil
  · subst hxe
    simp only [Prod.mk.injEq] at heq
    obtain ⟨hg, hvert⟩ := heq
    subst hg
    have hcore := (connectPeers_core sat
      (data.members.map (fun member => NewVertex member.PKIid member))
      (NewVertex x.2 x.1.toPrincipal)).2
    rw [hvert] at hcore
    have hdata : vertex.Data = x.1.toPrincipal := congrArg Prod.snd hcore
    refine ⟨⟨x.1, hx, hdata⟩, ?_⟩
    intro member hm
    simp only [Vertex.Neighbors, GoMap.values, List.mem_map] at hm
    obtain ⟨en, hen, hsnd⟩ := hm
    rw [← hvert] at hen
    rcases connectPeers_neighbors sat _ _ en hen with hnil | ⟨p, hp, hpe, hsat⟩
    · simp [NewVertex] at hnil
    · obtain ⟨mem, hmem, hpm⟩ := List.mem_map.mp hp
      subst hpm
      subst hpe
      simp only [NewVertex] at hsnd hsat
      subst hsnd
      rw [hdata]
      exact ⟨hmem, hsat⟩

/-! ## Lookups in the endorsers map -/

theorem GoMap.lookup_foldl_skip {κ ν β : Type} [DecidableEq κ] (c : κ → Bool) (F : β → ν)
    (l : GoMap κ β) : ∀ (acc : GoMap κ ν) (k : κ), k ∉ GoMap.keys l →
      GoMap.lookup (l.foldl (fun res e =>
        if c e.1 then GoMap.insert res e.1 (F e.2) else res) acc) k = GoMap.lookup acc k := by
  induction l with
  | nil => intro acc k _; rfl
  | cons e rest ih =>
    intro acc k hk
    simp only [GoMap.keys, List.map_cons, List.mem_cons, not_or] at hk
    rw [List.foldl_cons, ih _ k hk.2]
    by_cases hc : c e.1 = true
    · simp only [hc, if_true]
      exact GoMap.lookup_insert_ne acc e.1 k _ hk.1
    · simp [hc]

theorem GoMap.lookup_foldl_hit {κ ν β : Type} [DecidableEq κ] (c : κ → Bool) (F : β → ν)
    (l : GoMap κ β) : ∀ (acc : GoMap κ ν) (k : κ) (v : β), (GoMap.keys l).Nodup →
      GoMap.lookup l k = some v → c k = true →
      GoMap.lookup (l.foldl (fun res e =>
        if c e.1 then GoMap.insert res e.1 (F e.2) else res) acc) k = some (F v) := by
  induction l with
  | nil => intro acc k v _ h; simp [GoMap.lookup] at h
  | cons e rest ih =>
    intro acc k v hnd hl hc
    obtain ⟨k1, v1⟩ := e
    simp only [GoMap.keys, List.map_cons, List.nodup_cons] at hnd
    rw [List.foldl_cons]
    by_cases h1 : k1 = k
    · subst h1
      simp only [GoMap.lookup, if_true, Option.some.injEq] at hl
      subst hl
      rw [GoMap.lookup_foldl_skip c F rest _ k1 hnd.1]
      simp only [hc, if_true]
      exact GoMap.lookup_insert_self acc k1 _
    · simp only [GoMap.lookup, h1, if_false] at hl
      exact ih _ k v hnd.2 hl hc

theorem endorsersByGroup_lookup (criteria : peerMembershipCriteria) (grp : String)
    (vertex : PrincipalVertex)
    (hnd : (GoMap.keys criteria.satGraph.principalVertices).Nodup)
    (hv : GoMap.lookup criteria.satGraph.principalVertices grp = some vertex)
    (hin : GoMap.contains (groupsSet criteria.possibleLayouts) grp = true) :
    GoMap.lookup (endorsersByGroup criteria) grp =
      some { Peers := vertex.Neighbors.map (peerOf criteria) } := by
  unfold endorsersByGroup
  exact GoMap.lookup_foldl_hit (fun g => GoMap.contains (groupsSet criteria.possibleLayouts) g)
    (fun (v : PrincipalVertex) => ({ Peers := v.Neighbors.map (peerOf criteria) } : Peers))
    criteria.satGraph.principalVertices [] grp vertex hnd hv hin

/-! ## The histogram of a principal set -/

theorem UniqueSet_nodup (ps : PrincipalSet) : (GoMap.keys (UniqueSet ps)).Nodup :=
  GoMap.nodup_keys_foldl _ (fun m _ h => GoMap.nodup_keys_insert m _ _ h) ps [] List.nodup_nil

theorem histogram_lookup (ps : PrincipalSet) :
    ∀ (h : GoMap MSPPrincipal Nat) (p : MSPPrincipal),
      GoMap.lookup (ps.foldl (fun histogram principal =>
        GoMap.insert histogram principal
          ((GoMap.lookup histogram principal).getD 0 + 1)) h) p =
      if ps.count p = 0 then GoMap.lookup h p
      else some ((GoMap.lookup h p).getD 0 + ps.count p) := by
  induction ps with
  | nil => intro h p; simp
  | cons q rest ih =>
    intro h p
    rw [List.foldl_cons, ih]
    by_cases hq : q = p
    · subst hq
      rw [GoMap.lookup_insert_self]
      by_cases hc : List.count q rest = 0
      · simp [hc]
      · simp only [hc, if_false, List.count_cons_self, Option.getD_some]
        simp only [Nat.succ_ne_zero, if_false, Option.some.injEq]
        omega
    · have hne : p ≠ q := fun c => hq c.symm
      rw [GoMap.lookup_insert_ne _ _ _ _ hne, List.count_cons_of_ne hne]

theorem UniqueSet_lookup (ps : PrincipalSet) (p : MSPPrincipal) :
    GoMap.lookup (UniqueSet ps) p = if ps.count p = 0 then none else some (ps.count p) := by
  unfold UniqueSet
  rw [histogram_lookup]
  simp [GoMap.lookup]

theorem UniqueSet_mem (ps : PrincipalSet) (p : MSPPrincipal) (n : Nat) :
    (p, n) ∈ UniqueSet ps ↔ p ∈ ps ∧ n = ps.count p := by
  constructor
  · intro h
    have hl := GoMap.lookup_of_mem _ p n (UniqueSet_nodup ps) h
    rw [UniqueSet_lookup] at hl
    by_cases hc : ps.count p = 0
    · simp [hc] at hl
    · simp only [hc, if_false, Option.some.injEq] at hl
      exact ⟨List.count_pos_iff.mp (Nat.pos_of_ne_zero hc), hl.symm⟩
  · rintro ⟨hp, rfl⟩
    apply GoMap.mem_of_lookup
    rw [UniqueSet_lookup]
    have : ps.count p ≠ 0 := Nat.pos_iff_ne_zero.mp (List.count_pos_iff.mpr hp)
    simp [this]

theorem UniqueSet_length (ps : PrincipalSet) : (UniqueSet ps).length = ps.dedup.length := by
  have hperm : (GoMap.keys (UniqueSet ps)).Perm ps.dedup := by
    rw [List.perm_ext_iff_of_nodup (UniqueSet_nodup ps) (List.nodup_dedup ps)]
    intro p
    rw [List.mem_dedup]
    constructor
    · intro hp
      obtain ⟨e, he, rfl⟩ := List.mem_map.mp hp
      exact ((UniqueSet_mem ps e.1 e.2).mp he).1
    · intro hp
      exact GoMap.mem_keys_of_mem _ p _ ((UniqueSet_mem ps p _).mpr ⟨hp, rfl⟩)
  have := hperm.length_eq
  simpa [GoMap.keys] using this

/-! ## The layout of one principal set -/

theorem keyOf_injective (p q : MSPPrincipal) (h : keyOf p = keyOf q) : p = q := by
  cases p; cases q
  simp only [keyOf, principalKey.mk.injEq] at h
  simp [h.1, h.2]

theorem groupAll_append (ks ls : List principalKey) (mapper : principalGroupMapper) :
    groupAll (ks ++ ls) mapper = groupAll ls (groupAll ks mapper) := by
  simp [groupAll, List.foldl_append]

theorem groupAll_extends (ks : List principalKey) (mapper : principalGroupMapper) :
    mapperExtends mapper (groupAll ks mapper) :=
  fun key grp h => groupAll_preserves ks mapper key grp h

theorem groupAll_has (ks : List principalKey) :
    ∀ (mapper : principalGroupMapper) (key : principalKey), key ∈ ks →
      ∃ grp, GoMap.lookup (groupAll ks mapper) key = some grp := by
  induction ks with
  | nil => intro mapper key h; simp at h
  | cons k rest ih =>
    intro mapper key h
    rcases List.mem_cons.mp h with heq | hmem
    · subst heq
      exact ⟨_, groupAll_preserves rest _ key _ (group_lookup_self mapper key)⟩
    · exact ih _ key hmem

theorem fillLayout_snd (hist : GoMap MSPPrincipal Nat) :
    ∀ (layout : Layout) (pg : principalGroupMapper),
      (fillLayout hist layout pg).2 = groupAll (hist.map (fun e => keyOf e.1)) pg := by
  induction hist with
  | nil => intro layout pg; rfl
  | cons e rest ih =>
    intro layout pg
    obtain ⟨p, n⟩ := e
    simp only [fillLayout, List.map_cons]
    rw [ih]
    rfl

theorem fillLayout_fst (final : principalGroupMapper) (hist : GoMap MSPPrincipal Nat) :
    ∀ (layout : Layout) (pg : principalGroupMapper),
      mapperExtends (groupAll (hist.map (fun e => keyOf e.1)) pg) final →
      (fillLayout hist layout pg).1.QuantitiesByGroup =
        hist.foldl (fun q e => GoMap.insert q (aliasIn final e.1) (e.2 % 2 ^ 32))
          layout.QuantitiesByGroup := by
  induction hist with
  | nil => intro layout pg _; rfl
  | cons e rest ih =>
    intro layout pg hext
    obtain ⟨p, n⟩ := e
    simp only [fillLayout, List.foldl_cons]
    have hrest : mapperExtends
        (groupAll (rest.map (fun e => keyOf e.1)) (group pg (keyOf p)).2) final := hext
    have hfinal : GoMap.lookup final (keyOf p) = some (group pg (keyOf p)).1 :=
      hrest _ _ (groupAll_preserves _ (group pg (keyOf p)).2 _ _
        (group_lookup_self pg (keyOf p)))
    have halias : aliasIn final p = (group pg (keyOf p)).1 := by
      simp [aliasIn, hfinal]
    rw [halias]
    exact ih ⟨GoMap.insert layout.QuantitiesByGroup (group pg (keyOf p)).1 (n % 2 ^ 32)⟩
      (group pg (keyOf p)).2 hrest

theorem GoMap.foldl_insert_fresh {κ ν α : Type} [DecidableEq κ] (kf : α → κ) (vf : α → ν)
    (l : List α) : ∀ acc : GoMap κ ν, (l.map kf).Nodup →
      (∀ x ∈ l, kf x ∉ GoMap.keys acc) →
      l.foldl (fun q x => GoMap.insert q (kf x) (vf x)) acc =
        acc ++ l.map (fun x => (kf x, vf x)) := by
  induction l with
  | nil => intro acc _ _; simp
  | cons a rest ih =>
    intro acc hnd hfresh
    simp only [List.map_cons, List.nodup_cons] at hnd
    have ha : kf a ∉ GoMap.keys acc := hfresh a (List.mem_cons_self _ _)
    rw [List.foldl_cons, GoMap.insert_of_lookup_none acc _ _
      ((GoMap.lookup_eq_none_iff acc _).mpr ha)]
    rw [ih _ hnd.2]
    · simp
    · intro x hx
      simp only [GoMap.keys, List.map_append, List.map_cons, List.map_nil, List.mem_append,
        List.mem_singleton, not_or]
      refine ⟨hfresh x (List.mem_cons_of_mem _ hx), ?_⟩
      intro hc
      exact hnd.1 (hc ▸ List.mem_map_of_mem kf hx)

theorem mapperAfter_eq (ps : PrincipalSet) (pg : principalGroupMapper) :
    mapperAfter ps pg = groupAll (keysOfSet ps) pg :=
  fillLayout_snd _ _ _

theorem aliasIn_injective (final : principalGroupMapper) (hwf : mapperWF final)
    (p q : MSPPrincipal) (hp : (GoMap.lookup final (keyOf p)).isSome)
    (hq : (GoMap.lookup final (keyOf q)).isSome) (h : aliasIn final p = aliasIn final q) :
    p = q := by
  obtain ⟨g1, h1⟩ := Option.isSome_iff_exists.mp hp
  obtain ⟨g2, h2⟩ := Option.isSome_iff_exists.mp hq
  simp only [aliasIn, h1, h2, Option.getD_some] at h
  subst h
  exact keyOf_injective p q (mapperWF_injective final hwf _ _ g1 h1 h2)

theorem final_has_keys (ps : PrincipalSet) (pg final : principalGroupMapper)
    (hext : mapperExtends (mapperAfter ps pg) final) (e : MSPPrincipal × Nat)
    (he : e ∈ UniqueSet ps) : (GoMap.lookup final (keyOf e.1)).isSome := by
  rw [mapperAfter_eq] at hext
  obtain ⟨g, hg⟩ := groupAll_has (keysOfSet ps) pg (keyOf e.1)
    (List.mem_map.mpr ⟨e, he, rfl⟩)
  rw [hext _ _ hg]
  rfl

theorem aliases_nodup (ps : PrincipalSet) (pg final : principalGroupMapper)
    (hwf : mapperWF final) (hext : mapperExtends (mapperAfter ps pg) final) :
    ((UniqueSet ps).map (fun e => aliasIn final e.1)).Nodup := by
  have hnd : (UniqueSet ps).Nodup := List.Nodup.of_map _ (UniqueSet_nodup ps)
  refine List.Nodup.map_on ?_ hnd
  intro x hx y hy hxy
  have hk : x.1 = y.1 := aliasIn_injective final hwf x.1 y.1
    (final_has_keys ps pg final hext x hx) (final_has_keys ps pg final hext y hy) hxy
  have hlx := GoMap.lookup_of_mem _ x.1 x.2 (UniqueSet_nodup ps) hx
  have hly := GoMap.lookup_of_mem _ y.1 y.2 (UniqueSet_nodup ps) hy
  rw [hk, hly] at hlx
  injection hlx with hlx
  exact Prod.ext hk hlx.symm

theorem layoutOf_eq (ps : PrincipalSet) (pg final : principalGroupMapper)
    (hwf : mapperWF final) (hext : mapperExtends (mapperAfter ps pg) final) :
    (layoutOf ps pg).QuantitiesByGroup =
      (UniqueSet ps).map (fun e => (aliasIn final e.1, e.2 % 2 ^ 32)) := by
  have hext2 := hext
  rw [mapperAfter_eq] at hext2
  unfold layoutOf
  rw [fillLayout_fst final (UniqueSet ps) _ pg hext2]
  rw [GoMap.foldl_insert_fresh (fun (e : MSPPrincipal × Nat) => aliasIn final e.1)
    (fun e => e.2 % 2 ^ 32)]
  · simp
  · exact aliases_nodup ps pg final hwf hext
  · intro x _
    simp [GoMap.keys]

/-! ## The layouts of all principal sets -/

theorem mapperExtends_trans (a b c : principalGroupMapper) (hab : mapperExtends a b)
    (hbc : mapperExtends b c) : mapperExtends a c :=
  fun key grp h => hbc key grp (hab key grp h)

theorem mapperAfter_extends (ps : PrincipalSet) (pg : principalGroupMapper) :
    mapperExtends pg (mapperAfter ps pg) := by
  rw [mapperAfter_eq]
  exact groupAll_extends _ _

theorem mapperAfter_reachable (ps : PrincipalSet) (pg : principalGroupMapper)
    (h : Reachable pg) : Reachable (mapperAfter ps pg) := by
  rw [mapperAfter_eq]
  exact groupAll_reachable _ _ h

theorem mapperAfterAll_extends (sets : List PrincipalSet) :
    ∀ pg : principalGroupMapper, mapperExtends pg (mapperAfterAll sets pg) := by
  induction sets with
  | nil => intro pg key grp h; exact h
  | cons ps rest ih =>
    intro pg
    exact mapperExtends_trans _ _ _ (mapperAfter_extends ps pg) (ih _)

theorem mapperAfterAll_reachable (sets : List PrincipalSet) :
    ∀ pg : principalGroupMapper, Reachable pg → Reachable (mapperAfterAll sets pg) := by
  induction sets with
  | nil => intro pg h; exact h
  | cons ps rest ih => intro pg h; exact ih _ (mapperAfter_reachable ps pg h)

theorem layoutOf_records (ps : PrincipalSet) (pg final : principalGroupMapper)
    (hwf : mapperWF final) (hext : mapperExtends (mapperAfter ps pg) final) :
    recordsPluralities final ps (layoutOf ps pg) := by
  have hq := layoutOf_eq ps pg final hwf hext
  have halias : ∀ p ∈ ps, (group final (keyOf p)).1 = aliasIn final p := by
    intro p hp
    have hs := final_has_keys ps pg final hext (p, ps.count p)
      ((UniqueSet_mem ps p _).mpr ⟨hp, rfl⟩)
    obtain ⟨g, hg⟩ := Option.isSome_iff_exists.mp hs
    simp only at hg
    rw [group_of_some final _ g hg]
    simp [aliasIn, hg]
  refine ⟨?_, ?_, ?_⟩
  · intro p hp
    rw [halias p hp]
    apply GoMap.lookup_of_mem
    · rw [hq]
      simp only [GoMap.keys, List.map_map]
      exact aliases_nodup ps pg final hwf hext
    · rw [hq]
      exact List.mem_map.mpr ⟨(p, ps.count p), (UniqueSet_mem ps p _).mpr ⟨hp, rfl⟩, rfl⟩
  · rw [hq, List.length_map, UniqueSet_length]
  · intro grp quantity hmem
    rw [hq] at hmem
    obtain ⟨e, he, heq⟩ := List.mem_map.mp hmem
    obtain ⟨hp, hn⟩ := (UniqueSet_mem ps e.1 e.2).mp he
    simp only [Prod.mk.injEq] at heq
    exact ⟨e.1, hp, by rw [halias e.1 hp]; exact heq.1.symm, by rw [← hn]; exact heq.2.symm⟩

theorem candidateLayouts_records (satGraph : principalPeerGraph)
    (final : principalGroupMapper) (hwf : mapperWF final) (sets : List PrincipalSet) :
    ∀ pg : principalGroupMapper, mapperExtends (mapperAfterAll sets pg) final →
      ∃ retained : List PrincipalSet, retained.Sublist sets ∧
        List.Forall₂ (recordsPluralities final) retained
          ((candidateLayouts sets pg).filter (feasible satGraph)) := by
  induction sets with
  | nil => intro pg _; exact ⟨[], List.Sublist.slnil, List.Forall₂.nil⟩
  | cons ps rest ih =>
    intro pg hext
    have hext1 : mapperExtends (mapperAfter ps pg) final :=
      mapperExtends_trans _ _ _ (mapperAfterAll_extends rest _) hext
    obtain ⟨retained, hsub, hall⟩ := ih (mapperAfter ps pg) hext
    simp only [candidateLayouts, List.filter_cons]
    by_cases hf : feasible satGraph (layoutOf ps pg) = true
    · simp only [hf, if_true]
      exact ⟨ps :: retained, hsub.cons₂ ps,
        List.Forall₂.cons (layoutOf_records ps pg final hwf hext1) hall⟩
    · simp only [hf]
      exact ⟨retained, hsub.cons ps, hall⟩

theorem computeLayoutsLoop_some (satGraph : principalPeerGraph) (sets : List PrincipalSet) :
    ∀ (acc : List Layout) (pg : principalGroupMapper) (layouts : List Layout)
      (after : principalGroupMapper),
      computeLayoutsLoop satGraph sets acc pg = some (layouts, after) →
      layouts = acc ++ (candidateLayouts sets pg).filter (feasible satGraph) ∧
        after = mapperAfterAll sets pg := by
  induction sets with
  | nil =>
    intro acc pg layouts after h
    simp only [computeLayoutsLoop, Option.some.injEq, Prod.mk.injEq] at h
    simp [candidateLayouts, mapperAfterAll, h.1, h.2]
  | cons ps rest ih =>
    intro acc pg layouts after h
    simp only [computeLayoutsLoop] at h
    cases hs : isLayoutSatisfied
        (fillLayout (UniqueSet ps) { QuantitiesByGroup := [] } pg).1.QuantitiesByGroup
        satGraph with
    | none => simp [hs] at h
    | some b =>
      have hfe : feasible satGraph (layoutOf ps pg) = b := by
        simp only [feasible, layoutOf, hs]
        cases b <;> rfl
      cases b with
      | true =>
        simp only [hs] at h
        obtain ⟨h1, h2⟩ := ih _ _ _ _ h
        simp only [candidateLayouts, List.filter_cons, hfe, if_true, mapperAfterAll]
        exact ⟨by rw [h1]; simp [layoutOf, mapperAfter], h2⟩
      | false =>
        simp only [hs] at h
        obtain ⟨h1, h2⟩ := ih _ _ _ _ h
        simp only [candidateLayouts, List.filter_cons, hfe, mapperAfterAll]
        exact ⟨by rw [h1]; simp [mapperAfter], h2⟩

theorem computeLayoutsLoop_total (satGraph : principalPeerGraph) (sets : List PrincipalSet) :
    ∀ (acc : List Layout) (pg : principalGroupMapper),
      (∀ layout ∈ candidateLayouts sets pg,
        (isLayoutSatisfied layout.QuantitiesByGroup satGraph).isSome = true) →
      computeLayoutsLoop satGraph sets acc pg =
        some (acc ++ (candidateLayouts sets pg).filter (feasible satGraph),
          mapperAfterAll sets pg) := by
  induction sets with
  | nil => intro acc pg _; simp [computeLayoutsLoop, candidateLayouts, mapperAfterAll]
  | cons ps rest ih =>
    intro acc pg hall
    have hhead := hall (layoutOf ps pg) (List.mem_cons_self _ _)
    have hrest : ∀ layout ∈ candidateLayouts rest (mapperAfter ps pg),
        (isLayoutSatisfied layout.QuantitiesByGroup satGraph).isSome = true :=
      fun l hl => hall l (List.mem_cons_of_mem _ hl)
    obtain ⟨b, hb⟩ := Option.isSome_iff_exists.mp hhead
    have hfe : feasible satGraph (layoutOf ps pg) = b := by
      simp only [feasible, hb]
      cases b <;> rfl
    have hb2 : isLayoutSatisfied
        (fillLayout (UniqueSet ps) { QuantitiesByGroup := [] } pg).1.QuantitiesByGroup
        satGraph = some b := hb
    have ih1 := ih (acc ++ [layoutOf ps pg]) (mapperAfter ps pg) hrest
    have ih2 := ih acc (mapperAfter ps pg) hrest
    simp only [layoutOf, mapperAfter] at ih1 ih2
    cases b with
    | true =>
      simp only [computeLayoutsLoop, hb2, candidateLayouts, List.filter_cons, hfe, if_true,
        mapperAfterAll]
      rw [ih1]
      simp [layoutOf, mapperAfter]
    | false =>
      simp only [computeLayoutsLoop, hb2, candidateLayouts, List.filter_cons, hfe,
        mapperAfterAll]
      rw [ih2]
      simp [mapperAfter]

theorem candidateLayouts_at (sets : List PrincipalSet) :
    ∀ (pg : principalGroupMapper) (i : Nat),
      (candidateLayouts sets pg)[i]? =
        (sets[i]?).map (fun ps => layoutOf ps (mapperAfterAll (sets.take i) pg)) := by
  induction sets with
  | nil => intro pg i; simp [candidateLayouts]
  | cons ps rest ih =>
    intro pg i
    cases i with
    | zero => simp [candidateLayouts, mapperAfterAll]
    | succ j => simp [candidateLayouts, mapperAfterAll, ih]

theorem candidateLayouts_records_at (final : principalGroupMapper) (hwf : mapperWF final)
    (sets : List PrincipalSet) :
    ∀ (pg : principalGroupMapper) (i : Nat) (ps : PrincipalSet),
      mapperExtends (mapperAfterAll sets pg) final → sets[i]? = some ps →
      ∃ layout, (candidateLayouts sets pg)[i]? = some layout ∧
        recordsPluralities final ps layout := by
  induction sets with
  | nil => intro pg i ps _ h; simp at h
  | cons p rest ih =>
    intro pg i ps hext h
    cases i with
    | zero =>
      simp only [List.getElem?_cons_zero, Option.some.injEq] at h
      subst h
      exact ⟨layoutOf p pg, by simp [candidateLayouts],
        layoutOf_records p pg final hwf
          (mapperExtends_trans _ _ _ (mapperAfterAll_extends rest _) hext)⟩
    | succ j =>
      simp only [List.getElem?_cons_succ] at h
      obtain ⟨layout, hl, hr⟩ := ih (mapperAfter p pg) j ps hext h
      exact ⟨layout, by simpa [candidateLayouts] using hl, hr⟩

/-- C7: when `computeLayouts` runs on a mapper built by `group` calls and returns, the
returned layouts pair off, in order, with the retained principal sets (a sub-list of the
input), and every set, retained or not, has its layout among the candidates at its own
position. The layout of a set records, for every principal of the set, the plurality of
that principal converted to `uint32` under the alias that the mapper gives the principal;
it has as many entries as the set has distinct principals, and each entry is the one of a
principal of the set. A candidate that passes the graph check is returned. -/
theorem computeLayouts_records_pluralities (principalsSets : List PrincipalSet)
    (principalGroups : principalGroupMapper) (satGraph : principalPeerGraph)
    (layouts : List Layout) (after : principalGroupMapper)
    (hreach : Reachable principalGroups)
    (hrun : computeLayouts principalsSets principalGroups satGraph = some (layouts, after)) :
    (∃ retained : List PrincipalSet, retained.Sublist principalsSets ∧
      List.Forall₂ (recordsPluralities after) retained layouts) ∧
    ∀ (i : Nat) (principalSet : PrincipalSet), principalsSets[i]? = some principalSet →
      ∃ layout, (candidateLayouts principalsSets principalGroups)[i]? = some layout ∧
        recordsPluralities after principalSet layout ∧
        (feasible satGraph layout = true → layout ∈ layouts) := by
  obtain ⟨hl, ha⟩ := computeLayoutsLoop_some satGraph principalsSets [] principalGroups
    layouts after hrun
  simp only [List.nil_append] at hl
  have hwf : mapperWF after := by
    rw [ha]
    exact Reachable.wf _ (mapperAfterAll_reachable _ _ hreach)
  have hext : mapperExtends (mapperAfterAll principalsSets principalGroups) after := by
    rw [ha]
    exact fun _ _ h => h
  constructor
  · rw [hl]
    exact candidateLayouts_records satGraph after hwf principalsSets principalGroups hext
  · intro i ps hi
    obtain ⟨layout, hget, hrec⟩ :=
      candidateLayouts_records_at after hwf principalsSets principalGroups i ps hext hi
    refine ⟨layout, hget, hrec, ?_⟩
    intro hf
    rw [hl]
    exact List.mem_filter.mpr ⟨List.getElem?_mem hget, hf⟩


/-- Witness of C7: the set with orgA twice, on the empty mapper and the sample graph. -/
theorem computeLayouts_records_pluralities_witness :
    Reachable [] ∧
    computeLayouts [[sampleOrgA, sampleOrgA]] [] sampleGraph =
      some ([{ QuantitiesByGroup := [("G0", 2)] }], [(keyOf sampleOrgA, "G0")]) ∧
    ∃ retained : List PrincipalSet, retained.Sublist [[sampleOrgA, sampleOrgA]] ∧
      List.Forall₂ (recordsPluralities [(keyOf sampleOrgA, "G0")]) retained
        [{ QuantitiesByGroup := [("G0", 2)] }] :=
  ⟨Reachable.empty, by decide,
    (computeLayouts_records_pluralities [[sampleOrgA, sampleOrgA]] [] sampleGraph
      [{ QuantitiesByGroup := [("G0", 2)] }] [(keyOf sampleOrgA, "G0")]
      Reachable.empty (by decide)).1⟩

/-! ## The outcome of `computeLayouts` -/

theorem isLayoutSatisfied_isSome (layout : GoMap String Nat) (satGraph : principalPeerGraph)
    (h : ∀ grp ∈ GoMap.keys layout, GoMap.contains satGraph.principalVertices grp = true) :
    (isLayoutSatisfied layout satGraph).isSome = true := by
  induction layout with
  | nil => rfl
  | cons e rest ih =>
    obtain ⟨grp, plurality⟩ := e
    have hc := h grp (List.mem_cons_self _ _)
    unfold GoMap.contains at hc
    obtain ⟨vertex, hl⟩ := Option.isSome_iff_exists.mp hc
    simp only [isLayoutSatisfied, hl]
    by_cases hlt : vertex.Neighbors.length < plurality
    · simp [hlt]
    · simp only [hlt, if_false]
      exact ih (fun g hg => h g (List.mem_cons_of_mem _ hg))

theorem isLayoutSatisfied_true (layout : GoMap String Nat) (satGraph : principalPeerGraph)
    (h : isLayoutSatisfied layout satGraph = some true) :
    ∀ grp plurality, (grp, plurality) ∈ layout →
      ∃ vertex, GoMap.lookup satGraph.principalVertices grp = some vertex ∧
        plurality ≤ vertex.Neighbors.length := by
  induction layout with
  | nil => intro grp plurality hm; simp at hm
  | cons e rest ih =>
    obtain ⟨g, q⟩ := e
    intro grp plurality hm
    cases hl : GoMap.lookup satGraph.principalVertices g with
    | none => simp [isLayoutSatisfied, hl] at h
    | some vertex =>
      by_cases hlt : vertex.Neighbors.length < q
      · simp [isLayoutSatisfied, hl, hlt] at h
      · simp only [isLayoutSatisfied, hl, hlt, if_false] at h
        rcases List.mem_cons.mp hm with heq | hmem
        · injection heq with h1 h2
          subst h1 h2
          exact ⟨vertex, hl, by omega⟩
        · exact ih h grp plurality hmem

/-- C9: `computeLayouts` returns exactly the candidate layouts that pass the graph check,
in the order of the input principal sets: whenever it returns, its list is the filter of the
candidates (candidate `i` being the layout of set `i`), and it does return when every group
of every candidate has a principal vertex. The filter is a sub-list of the candidates and
keeps every feasible layout as often as it occurs among the candidates, so equal layouts of
different sets are not merged. On no principal sets the result is empty. -/
theorem computeLayouts_feasible_in_order (principalsSets : List PrincipalSet)
    (principalGroups : principalGroupMapper) (satGraph : principalPeerGraph) :
    (∀ (layouts : List Layout) (after : principalGroupMapper),
      computeLayouts principalsSets principalGroups satGraph = some (layouts, after) →
      layouts = (candidateLayouts principalsSets principalGroups).filter (feasible satGraph)) ∧
    ((∀ layout ∈ candidateLayouts principalsSets principalGroups,
        ∀ grp ∈ GoMap.keys layout.QuantitiesByGroup,
          GoMap.contains satGraph.principalVertices grp = true) →
      ∃ after, computeLayouts principalsSets principalGroups satGraph =
        some ((candidateLayouts principalsSets principalGroups).filter (feasible satGraph),
          after)) ∧
    ((candidateLayouts principalsSets principalGroups).filter (feasible satGraph)).Sublist
      (candidateLayouts principalsSets principalGroups) ∧
    (∀ layout : Layout, feasible satGraph layout = true →
      ((candidateLayouts principalsSets principalGroups).filter (feasible satGraph)).count
        layout = (candidateLayouts principalsSets principalGroups).count layout) ∧
    (∀ i : Nat, (candidateLayouts principalsSets principalGroups)[i]? =
      (principalsSets[i]?).map (fun principalSet =>
        layoutOf principalSet (mapperAfterAll (principalsSets.take i) principalGroups))) ∧
    computeLayouts [] principalGroups satGraph = some ([], principalGroups) := by
  refine ⟨?_, ?_, List.filter_sublist _, ?_, candidateLayouts_at _ _, rfl⟩
  · intro layouts after hrun
    have := (computeLayoutsLoop_some satGraph principalsSets [] principalGroups
      layouts after hrun).1
    simpa using this
  · intro hv
    refine ⟨mapperAfterAll principalsSets principalGroups, ?_⟩
    have := computeLayoutsLoop_total satGraph principalsSets [] principalGroups
      (fun layout hl => isLayoutSatisfied_isSome _ _ (hv layout hl))
    simpa [computeLayouts] using this
  · intro layout hf
    exact List.count_filter hf

/-- Witness of C9: the sets (orgA, orgB) and (orgB, orgA) on a graph where both groups have a
peer give the same quantities, and both are returned. -/
theorem computeLayouts_feasible_in_order_witness :
    computeLayouts [[sampleOrgA, sampleOrgB], [sampleOrgB, sampleOrgA], [sampleOrgA, sampleOrgA]]
        [(keyOf sampleOrgA, "G0"), (keyOf sampleOrgB, "G1")] sampleGraphTwo =
      some ([{ QuantitiesByGroup := [("G0", 1), ("G1", 1)] },
             { QuantitiesByGroup := [("G1", 1), ("G0", 1)] }],
            [(keyOf sampleOrgA, "G0"), (keyOf sampleOrgB, "G1")]) ∧
    [{ QuantitiesByGroup := [("G0", 1), ("G1", 1)] },
     { QuantitiesByGroup := [("G1", 1), ("G0", 1)] }] =
      (candidateLayouts
        [[sampleOrgA, sampleOrgB], [sampleOrgB, sampleOrgA], [sampleOrgA, sampleOrgA]]
        [(keyOf sampleOrgA, "G0"), (keyOf sampleOrgB, "G1")]).filter (feasible sampleGraphTwo) :=
  ⟨by decide,
    (computeLayouts_feasible_in_order
      [[sampleOrgA, sampleOrgB], [sampleOrgB, sampleOrgA], [sampleOrgA, sampleOrgA]]
      [(keyOf sampleOrgA, "G0"), (keyOf sampleOrgB, "G1")] sampleGraphTwo).1
      [{ QuantitiesByGroup := [("G0", 1), ("G1", 1)] },
       { QuantitiesByGroup := [("G1", 1), ("G0", 1)] }]
      [(keyOf sampleOrgA, "G0"), (keyOf sampleOrgB, "G1")] (by decide)⟩

/-! ## The mapper of the principal sets -/

theorem mapPrincipalsToGroups_eq (sets : List PrincipalSet) :
    ∃ keys : List principalKey,
      mapPrincipalsToGroups sets = groupAll keys [] ∧
      ∀ ps ∈ sets, ∀ p ∈ ps, keyOf p ∈ keys := by
  refine ⟨GoMap.keys (sets.foldl (fun total principalSet =>
      principalSet.foldl (fun total principal =>
        GoMap.insert total
          { principal := principal.Principal, cls := principal.PrincipalClassification } ())
        total) ([] : GoMap principalKey Unit)), ?_, ?_⟩
  · simp only [mapPrincipalsToGroups, groupAll, GoMap.keys, List.foldl_map]
  · intro ps hps p hp
    rw [GoMap.mem_keys_foldl _ (fun (principalSet : PrincipalSet) k =>
      ∃ q ∈ principalSet, k = keyOf q)]
    · exact Or.inr ⟨ps, hps, p, hp, rfl⟩
    · intro m principalSet k
      rw [GoMap.mem_keys_foldl _ (fun (q : MSPPrincipal) k => k = keyOf q)]
      intro m q k
      rw [GoMap.mem_keys_insert]
      exact or_comm

theorem mapPrincipalsToGroups_reachable (sets : List PrincipalSet) :
    Reachable (mapPrincipalsToGroups sets) := by
  obtain ⟨keys, hk, _⟩ := mapPrincipalsToGroups_eq sets
  rw [hk]
  exact groupAll_reachable keys [] Reachable.empty

theorem mapPrincipalsToGroups_has (sets : List PrincipalSet) (ps : PrincipalSet)
    (hps : ps ∈ sets) (p : MSPPrincipal) (hp : p ∈ ps) :
    ∃ grp, GoMap.lookup (mapPrincipalsToGroups sets) (keyOf p) = some grp := by
  obtain ⟨keys, hk, hmem⟩ := mapPrincipalsToGroups_eq sets
  rw [hk]
  exact groupAll_has keys [] (keyOf p) (hmem ps hps p hp)

theorem groupAll_of_present (ks : List principalKey) (mapper : principalGroupMapper)
    (h : ∀ k ∈ ks, ∃ grp, GoMap.lookup mapper k = some grp) : groupAll ks mapper = mapper := by
  induction ks with
  | nil => rfl
  | cons k rest ih =>
    obtain ⟨grp, hg⟩ := h k (List.mem_cons_self _ _)
    show groupAll rest (group mapper k).2 = mapper
    rw [group_of_some mapper k grp hg]
    exact ih (fun k2 hk2 => h k2 (List.mem_cons_of_mem _ hk2))

theorem mapperAfter_of_present (ps : PrincipalSet) (mapper : principalGroupMapper)
    (h : ∀ p ∈ ps, ∃ grp, GoMap.lookup mapper (keyOf p) = some grp) :
    mapperAfter ps mapper = mapper := by
  rw [mapperAfter_eq]
  apply groupAll_of_present
  intro k hk
  obtain ⟨e, he, rfl⟩ := List.mem_map.mp hk
  exact h e.1 ((UniqueSet_mem ps e.1 e.2).mp he).1

theorem candidateLayouts_of_present (sets : List PrincipalSet) (mapper : principalGroupMapper)
    (h : ∀ ps ∈ sets, ∀ p ∈ ps, ∃ grp, GoMap.lookup mapper (keyOf p) = some grp) :
    candidateLayouts sets mapper = sets.map (fun ps => layoutOf ps mapper) ∧
      mapperAfterAll sets mapper = mapper := by
  induction sets with
  | nil => exact ⟨rfl, rfl⟩
  | cons ps rest ih =>
    have hps := mapperAfter_of_present ps mapper (h ps (List.mem_cons_self _ _))
    obtain ⟨h1, h2⟩ := ih (fun q hq => h q (List.mem_cons_of_mem _ hq))
    simp only [candidateLayouts, mapperAfterAll, hps, List.map_cons]
    exact ⟨by rw [h1], h2⟩

theorem layoutOf_groups (ps : PrincipalSet) (mapper : principalGroupMapper)
    (hwf : mapperWF mapper)
    (h : ∀ p ∈ ps, ∃ grp, GoMap.lookup mapper (keyOf p) = some grp)
    (grp : String) (hg : grp ∈ GoMap.keys (layoutOf ps mapper).QuantitiesByGroup) :
    ∃ p ∈ ps, GoMap.lookup mapper (keyOf p) = some grp := by
  have hext : mapperExtends (mapperAfter ps mapper) mapper := by
    rw [mapperAfter_of_present ps mapper h]
    exact fun _ _ hh => hh
  rw [layoutOf_eq ps mapper mapper hwf hext] at hg
  simp only [GoMap.keys, List.map_map, List.mem_map, Function.comp] at hg
  obtain ⟨e, he, heq⟩ := hg
  have hp := ((UniqueSet_mem ps e.1 e.2).mp he).1
  obtain ⟨g, hgl⟩ := h e.1 hp
  refine ⟨e.1, hp, ?_⟩
  rw [hgl]
  simp only [aliasIn, hgl, Option.getD_some] at heq
  rw [heq]

/-! ## The analyzer -/

theorem satGraphOf_keys (ea : endorsementAnalyzer) (chainID : String)
    (ccMD : ChaincodeMetadata) (pol : InquireablePolicy) (grp : String) :
    grp ∈ GoMap.keys (satGraphOf ea chainID ccMD pol).principalVertices ↔
      ∃ key, (key, grp) ∈ mapPrincipalsToGroups (principalsSetsOf ea chainID ccMD pol) :=
  principalsToPeersGraph_keys _ _ grp

theorem computeLayouts_analyzer (ea : endorsementAnalyzer) (chainID : String)
    (ccMD : ChaincodeMetadata) (pol : InquireablePolicy) :
    computeLayouts (principalsSetsOf ea chainID ccMD pol)
        (mapPrincipalsToGroups (principalsSetsOf ea chainID ccMD pol))
        (satGraphOf ea chainID ccMD pol) =
      some (layoutsOf ea chainID ccMD pol,
        mapPrincipalsToGroups (principalsSetsOf ea chainID ccMD pol)) := by
  have hhas := mapPrincipalsToGroups_has (principalsSetsOf ea chainID ccMD pol)
  have hwf := Reachable.wf _ (mapPrincipalsToGroups_reachable (principalsSetsOf ea chainID ccMD pol))
  obtain ⟨hc, hm⟩ := candidateLayouts_of_present _ _ hhas
  have htotal := computeLayoutsLoop_total (satGraphOf ea chainID ccMD pol)
    (principalsSetsOf ea chainID ccMD pol) []
    (mapPrincipalsToGroups (principalsSetsOf ea chainID ccMD pol)) (by
      intro layout hl
      apply isLayoutSatisfied_isSome
      intro grp hg
      rw [hc] at hl
      obtain ⟨ps, hps, rfl⟩ := List.mem_map.mp hl
      obtain ⟨p, _, hp⟩ := layoutOf_groups ps _ hwf (hhas ps hps) grp hg
      rw [GoMap.contains_iff, satGraphOf_keys]
      exact ⟨keyOf p, GoMap.mem_of_lookup _ _ _ hp⟩)
  rw [hc, hm] at htotal
  simpa [computeLayouts, layoutsOf] using htotal

theorem PeersForEndorsement_eq (ea : endorsementAnalyzer) (chainID : String)
    (interest : ChaincodeInterest) (chaincode : ChaincodeCall) (rest : List ChaincodeCall)
    (ccMD : ChaincodeMetadata) (pol : InquireablePolicy)
    (hcc : interest.Chaincodes = chaincode :: rest)
    (hmd : ea.Metadata chainID chaincode.Name = some ccMD)
    (hpol : ea.PolicyByChaincode chainID chaincode.Name = some pol) :
    PeersForEndorsement ea chainID interest =
      if (layoutsOf ea chainID ccMD pol).length = 0 then
        some (none, some "cannot satisfy any principal combination")
      else some (some (descriptorOf ea chainID chaincode ccMD pol), none) := by
  simp only [PeersForEndorsement, hcc, hmd, hpol, computeLayouts_analyzer]
  rfl

theorem PeersForEndorsement_descriptor (ea : endorsementAnalyzer) (chainID : String)
    (interest : ChaincodeInterest) (descriptor : EndorsementDescriptor) (err : Option String)
    (h : PeersForEndorsement ea chainID interest = some (some descriptor, err)) :
    ∃ (chaincode : ChaincodeCall) (rest : List ChaincodeCall) (ccMD : ChaincodeMetadata)
      (pol : InquireablePolicy),
      interest.Chaincodes = chaincode :: rest ∧
      ea.Metadata chainID chaincode.Name = some ccMD ∧
      ea.PolicyByChaincode chainID chaincode.Name = some pol ∧
      layoutsOf ea chainID ccMD pol ≠ [] ∧
      err = none ∧
      descriptor = descriptorOf ea chainID chaincode ccMD pol := by
  cases hcc : interest.Chaincodes with
  | nil => simp [PeersForEndorsement, hcc] at h
  | cons chaincode rest =>
    cases hmd : ea.Metadata chainID chaincode.Name with
    | none => simp [PeersForEndorsement, hcc, hmd] at h
    | some ccMD =>
      cases hpol : ea.PolicyByChaincode chainID chaincode.Name with
      | none => simp [PeersForEndorsement, hcc, hmd, hpol] at h
      | some pol =>
        rw [PeersForEndorsement_eq ea chainID interest chaincode rest ccMD pol hcc hmd hpol] at h
        by_cases hl : (layoutsOf ea chainID ccMD pol).length = 0
        · simp [hl] at h
        · simp only [hl, if_false, Option.some.injEq, Prod.mk.injEq] at h
          refine ⟨chaincode, rest, ccMD, pol, rfl, hmd, hpol, ?_, h.2.symm, h.1.symm⟩
          intro hnil
          exact hl (by rw [hnil]; rfl)

/-- C1: when the interest names a chaincode whose metadata and policy both exist,
`computeLayouts` on the pre-filtered principal sets returns a list of layouts, and
`PeersForEndorsement` returns no descriptor together with the error
"cannot satisfy any principal combination" if and only if that list is empty; when the list
is not empty it returns a descriptor holding those layouts, and no error. -/
theorem PeersForEndorsement_cannot_satisfy_iff (ea : endorsementAnalyzer) (chainID : String)
    (interest : ChaincodeInterest) (chaincode : ChaincodeCall) (rest : List ChaincodeCall)
    (ccMD : ChaincodeMetadata) (pol : InquireablePolicy)
    (hcc : interest.Chaincodes = chaincode :: rest)
    (hmd : ea.Metadata chainID chaincode.Name = some ccMD)
    (hpol : ea.PolicyByChaincode chainID chaincode.Name = some pol) :
    ∃ (layouts : List Layout) (after : principalGroupMapper),
      computeLayouts (principalsSetsOf ea chainID ccMD pol)
        (mapPrincipalsToGroups (principalsSetsOf ea chainID ccMD pol))
        (satGraphOf ea chainID ccMD pol) = some (layouts, after) ∧
      (PeersForEndorsement ea chainID interest =
          some (none, some "cannot satisfy any principal combination") ↔ layouts = []) ∧
      (layouts ≠ [] →
        ∃ descriptor : EndorsementDescriptor,
          PeersForEndorsement ea chainID interest = some (some descriptor, none) ∧
          descriptor.Layouts = layouts) := by
  refine ⟨layoutsOf ea chainID ccMD pol, _, computeLayouts_analyzer ea chainID ccMD pol, ?_, ?_⟩
  · rw [PeersForEndorsement_eq ea chainID interest chaincode rest ccMD pol hcc hmd hpol]
    constructor
    · intro h
      by_cases hl : (layoutsOf ea chainID ccMD pol).length = 0
      · exact List.length_eq_zero.mp hl
      · simp [hl] at h
    · intro h
      simp [h]
  · intro hne
    rw [PeersForEndorsement_eq ea chainID interest chaincode rest ccMD pol hcc hmd hpol]
    have hl : ¬ (layoutsOf ea chainID ccMD pol).length = 0 :=
      fun c => hne (List.length_eq_zero.mp c)
    simp only [hl, if_false]
    exact ⟨_, rfl, rfl⟩

/-- Witness of C1: the sample analyzer with the policy two-of-orgB, which one orgB peer
cannot satisfy. -/
theorem PeersForEndorsement_cannot_satisfy_iff_witness :
    sampleInterest.Chaincodes = [{ Name := "cc", CollectionNames := [] }] ∧
    (sampleAnalyzer [[sampleOrgB, sampleOrgB]]).Metadata "ch" "cc" =
      some { Name := "cc", Version := "1" } ∧
    (sampleAnalyzer [[sampleOrgB, sampleOrgB]]).PolicyByChaincode "ch" "cc" =
      some { SatisfiedBy := [[sampleOrgB, sampleOrgB]] } ∧
    ∃ (layouts : List Layout) (after : principalGroupMapper),
      computeLayouts
        (principalsSetsOf (sampleAnalyzer [[sampleOrgB, sampleOrgB]]) "ch"
          { Name := "cc", Version := "1" } { SatisfiedBy := [[sampleOrgB, sampleOrgB]] })
        (mapPrincipalsToGroups
          (principalsSetsOf (sampleAnalyzer [[sampleOrgB, sampleOrgB]]) "ch"
            { Name := "cc", Version := "1" } { SatisfiedBy := [[sampleOrgB, sampleOrgB]] }))
        (satGraphOf (sampleAnalyzer [[sampleOrgB, sampleOrgB]]) "ch"
          { Name := "cc", Version := "1" } { SatisfiedBy := [[sampleOrgB, sampleOrgB]] }) =
        some (layouts, after) ∧
      (PeersForEndorsement (sampleAnalyzer [[sampleOrgB, sampleOrgB]]) "ch" sampleInterest =
          some (none, some "cannot satisfy any principal combination") ↔ layouts = []) ∧
      (layouts ≠ [] →
        ∃ descriptor : EndorsementDescriptor,
          PeersForEndorsement (sampleAnalyzer [[sampleOrgB, sampleOrgB]]) "ch"
            sampleInterest = some (some descriptor, none) ∧
          descriptor.Layouts = layouts) :=
  ⟨rfl, rfl, rfl,
    PeersForEndorsement_cannot_satisfy_iff (sampleAnalyzer [[sampleOrgB, sampleOrgB]]) "ch"
      sampleInterest { Name := "cc", CollectionNames := [] } []
      { Name := "cc", Version := "1" } { SatisfiedBy := [[sampleOrgB, sampleOrgB]] }
      rfl rfl rfl⟩

theorem descriptorOf_feasible (ea : endorsementAnalyzer) (chainID : String)
    (ccMD : ChaincodeMetadata) (pol : InquireablePolicy) (layout : Layout)
    (hl : layout ∈ layoutsOf ea chainID ccMD pol) :
    isLayoutSatisfied layout.QuantitiesByGroup (satGraphOf ea chainID ccMD pol) = some true := by
  have hf := (List.mem_filter.mp hl).2
  simpa [feasible] using hf

/-- C2: in every descriptor returned by `PeersForEndorsement`, for every layout and every
(group, plurality) entry of it, the map `EndorsersByGroups` has a peer list for the group
and that list holds at least `plurality` peers. -/
theorem PeersForEndorsement_enough_endorsers (ea : endorsementAnalyzer) (chainID : String)
    (interest : ChaincodeInterest) (descriptor : EndorsementDescriptor) (err : Option String)
    (h : PeersForEndorsement ea chainID interest = some (some descriptor, err)) :
    ∀ layout ∈ descriptor.Layouts, ∀ (grp : String) (plurality : Nat),
      (grp, plurality) ∈ layout.QuantitiesByGroup →
      ∃ peers : Peers, GoMap.lookup descriptor.EndorsersByGroups grp = some peers ∧
        plurality ≤ peers.Peers.length := by
  obtain ⟨chaincode, rest, ccMD, pol, _, _, _, _, _, hd⟩ :=
    PeersForEndorsement_descriptor ea chainID interest descriptor err h
  subst hd
  intro layout hl grp plurality hentry
  have hl2 : layout ∈ layoutsOf ea chainID ccMD pol := hl
  obtain ⟨vertex, hv, hle⟩ := isLayoutSatisfied_true _ _
    (descriptorOf_feasible ea chainID ccMD pol layout hl2) grp plurality hentry
  have hin : GoMap.contains (groupsSet (criteriaOf ea chainID ccMD pol).possibleLayouts) grp
      = true :=
    (groupsSet_contains _ grp).mpr ⟨layout, hl2, GoMap.mem_keys_of_mem _ grp plurality hentry⟩
  have hlook := endorsersByGroup_lookup (criteriaOf ea chainID ccMD pol) grp vertex
    (principalsToPeersGraph_nodup _ _) hv hin
  exact ⟨_, hlook, by simpa using hle⟩

/-- Witness of C2: the sample analyzer with the policy two-of-orgA returns a descriptor with
the layout G0 -> 2 and the two orgA peers under G0. -/
theorem PeersForEndorsement_enough_endorsers_witness :
    PeersForEndorsement (sampleAnalyzer [[sampleOrgA, sampleOrgA]]) "ch" sampleInterest =
      some (some sampleDescriptor, none) ∧
    ∀ layout ∈ sampleDescriptor.Layouts, ∀ (grp : String) (plurality : Nat),
      (grp, plurality) ∈ layout.QuantitiesByGroup →
      ∃ peers : Peers, GoMap.lookup sampleDescriptor.EndorsersByGroups grp = some peers ∧
        plurality ≤ peers.Peers.length :=
  ⟨by decide,
    PeersForEndorsement_enough_endorsers (sampleAnalyzer [[sampleOrgA, sampleOrgA]]) "ch"
      sampleInterest sampleDescriptor none (by decide)⟩

/-- C4: in every descriptor returned by `PeersForEndorsement`, every group alias that is a
key of `QuantitiesByGroup` in some returned layout is a key of `EndorsersByGroups`. -/
theorem PeersForEndorsement_layout_groups_have_endorsers (ea : endorsementAnalyzer)
    (chainID : String) (interest : ChaincodeInterest) (descriptor : EndorsementDescriptor)
    (err : Option String)
    (h : PeersForEndorsement ea chainID interest = some (some descriptor, err)) :
    ∀ layout ∈ descriptor.Layouts, ∀ grp ∈ GoMap.keys layout.QuantitiesByGroup,
      grp ∈ GoMap.keys descriptor.EndorsersByGroups := by
  obtain ⟨chaincode, rest, ccMD, pol, _, _, _, _, _, hd⟩ :=
    PeersForEndorsement_descriptor ea chainID interest descriptor err h
  subst hd
  intro layout hl grp hg
  have hl2 : layout ∈ layoutsOf ea chainID ccMD pol := hl
  obtain ⟨e, he, hfst⟩ := List.mem_map.mp hg
  obtain ⟨vertex, hv, _⟩ := isLayoutSatisfied_true _ _
    (descriptorOf_feasible ea chainID ccMD pol layout hl2) e.1 e.2 he
  show grp ∈ GoMap.keys (endorsersByGroup (criteriaOf ea chainID ccMD pol))
  rw [endorsersByGroup_keys, groupsSet_contains]
  refine ⟨?_, layout, hl2, hg⟩
  rw [← hfst]
  exact GoMap.mem_keys_of_mem _ _ _ (GoMap.mem_of_lookup _ _ _ hv)

/-- Witness of C4: the sample analyzer with the policy orgA-and-orgB, plus a two-of-orgB
alternative that the single orgB peer cannot satisfy. -/
theorem PeersForEndorsement_layout_groups_have_endorsers_witness :
    PeersForEndorsement
        (sampleAnalyzer [[sampleOrgA, sampleOrgB], [sampleOrgB, sampleOrgB]]) "ch"
        sampleInterest = some (some sampleDescriptorTwo, none) ∧
    ∀ layout ∈ sampleDescriptorTwo.Layouts, ∀ grp ∈ GoMap.keys layout.QuantitiesByGroup,
      grp ∈ GoMap.keys sampleDescriptorTwo.EndorsersByGroups :=
  ⟨by decide,
    PeersForEndorsement_layout_groups_have_endorsers
      (sampleAnalyzer [[sampleOrgA, sampleOrgB], [sampleOrgB, sampleOrgB]]) "ch"
      sampleInterest sampleDescriptorTwo none (by decide)⟩

/-! ## Membership and identity indexes -/

theorem Members.ByID_mem (members : Members) (e : String × NetworkMember)
    (h : e ∈ Members.ByID members) : e.2 ∈ members ∧ e.1 = e.2.PKIid := by
  have := GoMap.mem_foldl
    (fun (res : GoMap String NetworkMember) (peer : NetworkMember) =>
      GoMap.insert res peer.PKIid peer)
    (fun peer e => e = (peer.PKIid, peer))
    (fun m x e h => (GoMap.mem_insert m _ _ e h).symm) members [] e h
  rcases this with hnil | ⟨x, hx, rfl⟩
  · simp at hnil
  · exact ⟨hx, rfl⟩

theorem Members.ByID_keys (members : Members) (k : String) :
    k ∈ GoMap.keys (Members.ByID members) ↔ ∃ m ∈ members, m.PKIid = k := by
  unfold Members.ByID
  rw [GoMap.mem_keys_foldl _ (fun (peer : NetworkMember) k => peer.PKIid = k)]
  · simp [GoMap.keys]
  · intro m e k
    rw [GoMap.mem_keys_insert]
    constructor
    · rintro (h | h)
      · exact Or.inr h.symm
      · exact Or.inl h
    · rintro (h | h)
      · exact Or.inr h
      · exact Or.inl h.symm

theorem PeerIdentitySet.ByID_lookup (pis : PeerIdentitySet) (k : String)
    (identity : PeerIdentityInfo)
    (h : GoMap.lookup (PeerIdentitySet.ByID pis) k = some identity) :
    identity ∈ pis ∧ identity.PKIId = k := by
  have := GoMap.mem_foldl
    (fun (m : GoMap String PeerIdentityInfo) (id : PeerIdentityInfo) =>
      GoMap.insert m id.PKIId id)
    (fun id e => e = (id.PKIId, id))
    (fun m x e h => (GoMap.mem_insert m _ _ e h).symm) pis [] (k, identity)
    (GoMap.mem_of_lookup _ _ _ h)
  rcases this with hnil | ⟨x, hx, heq⟩
  · simp at hnil
  · injection heq with h1 h2
    subst h2
    exact ⟨hx, h1.symm⟩

theorem PeerIdentitySet.ByID_lookup_of_mem (pis : PeerIdentitySet)
    (hnd : (pis.map (fun id => id.PKIId)).Nodup) (identity : PeerIdentityInfo)
    (h : identity ∈ pis) :
    GoMap.lookup (PeerIdentitySet.ByID pis) identity.PKIId = some identity := by
  have heq : PeerIdentitySet.ByID pis = pis.map (fun id => (id.PKIId, id)) := by
    unfold PeerIdentitySet.ByID
    rw [GoMap.foldl_insert_fresh (fun (id : PeerIdentityInfo) => id.PKIId) (fun id => id)
      pis [] hnd (by intro x _; simp [GoMap.keys])]
    simp
  rw [heq]
  apply GoMap.lookup_of_mem
  · simpa [GoMap.keys, Function.comp] using hnd
  · exact List.mem_map.mpr ⟨identity, h, rfl⟩

theorem mspIDsOfMembers_contains (membersById : GoMap String NetworkMember)
    (identitiesByID : GoMap String PeerIdentityInfo) (org : String) :
    GoMap.contains (mspIDsOfMembers membersById identitiesByID) org = true ↔
      ∃ pkiID ∈ GoMap.keys membersById, ∃ identity,
        GoMap.lookup identitiesByID pkiID = some identity ∧ identity.Organization = org := by
  rw [GoMap.contains_iff]
  unfold mspIDsOfMembers
  rw [GoMap.mem_keys_foldl _ (fun (entry : String × NetworkMember) k =>
    ∃ identity, GoMap.lookup identitiesByID entry.1 = some identity ∧
      identity.Organization = k)]
  · simp only [GoMap.keys, List.map_nil, List.not_mem_nil, false_or, List.mem_map]
    constructor
    · rintro ⟨e, he, identity, hl, ho⟩
      exact ⟨e.1, ⟨e, he, rfl⟩, identity, hl, ho⟩
    · rintro ⟨pkiID, ⟨e, he, rfl⟩, identity, hl, ho⟩
      exact ⟨e, he, identity, hl, ho⟩
  · intro m e k
    cases hl : GoMap.lookup identitiesByID e.1 with
    | none => simp
    | some identity =>
      simp only [Option.some.injEq, exists_eq_left']
      rw [GoMap.mem_keys_insert]
      constructor
      · rintro (h | h)
        · exact Or.inr h.symm
        · exact Or.inl h
      · rintro (h | h)
        · exact Or.inr h
        · exact Or.inl h.symm

theorem peersWithChaincode_iff (ccMD : ChaincodeMetadata) (member : NetworkMember) :
    peersWithChaincode ccMD member = true ↔ advertises ccMD member := by
  unfold peersWithChaincode advertises
  cases hp : member.Properties with
  | none => simp
  | some properties => simp

/-! ## The pre-filter -/

theorem mspFilter_iff (ea : endorsementAnalyzer) (chainID : String)
    (ccMD : ChaincodeMetadata) (principal : MSPPrincipal) :
    mspFilter ea
      (mspIDsOfMembers (Members.ByID (aliveMembershipOf ea chainID ccMD))
        (PeerIdentitySet.ByID ea.IdentityInfo)) principal = true ↔
      passesMspTest ea chainID ccMD principal := by
  simp only [mspFilter, Bool.and_eq_true, decide_eq_true_eq, passesMspTest]
  rw [mspIDsOfMembers_contains]
  constructor
  · rintro ⟨hne, pkiID, hk, identity, hl, ho⟩
    obtain ⟨member, hm, hpk⟩ := (Members.ByID_keys _ _).mp hk
    exact ⟨hne, member, hm, identity, by rw [hpk]; exact hl, ho⟩
  · rintro ⟨hne, member, hm, identity, hl, ho⟩
    exact ⟨hne, member.PKIid, (Members.ByID_keys _ _).mpr ⟨member, hm, rfl⟩, identity, hl, ho⟩

theorem passes_orgOfAliveIdentity (ea : endorsementAnalyzer) (chainID : String)
    (ccMD : ChaincodeMetadata) (principal : MSPPrincipal)
    (h : passesMspTest ea chainID ccMD principal) :
    orgOfAliveIdentity ea chainID ccMD principal := by
  obtain ⟨hne, member, hm, identity, hl, ho⟩ := h
  obtain ⟨hmem, hid⟩ := PeerIdentitySet.ByID_lookup _ _ _ hl
  exact ⟨hne, identity, hmem, ho, member, hm, hid.symm⟩

theorem orgOfAliveIdentity_passes (ea : endorsementAnalyzer) (chainID : String)
    (ccMD : ChaincodeMetadata) (principal : MSPPrincipal)
    (hnd : (ea.IdentityInfo.map (fun id => id.PKIId)).Nodup)
    (h : orgOfAliveIdentity ea chainID ccMD principal) :
    passesMspTest ea chainID ccMD principal := by
  obtain ⟨hne, identity, hmem, ho, member, hm, hpk⟩ := h
  refine ⟨hne, member, hm, identity, ?_, ho⟩
  rw [hpk]
  exact PeerIdentitySet.ByID_lookup_of_mem _ hnd identity hmem

theorem principalsSetsOf_mem (ea : endorsementAnalyzer) (chainID : String)
    (ccMD : ChaincodeMetadata) (pol : InquireablePolicy) (ps : PrincipalSet) :
    ps ∈ principalsSetsOf ea chainID ccMD pol ↔
      ps ∈ pol.SatisfiedBy ∧ ∀ p ∈ ps, passesMspTest ea chainID ccMD p := by
  simp only [principalsSetsOf, ContainingOnly, List.mem_filter, List.all_eq_true]
  constructor
  · rintro ⟨h1, h2⟩
    exact ⟨h1, fun p hp => (mspFilter_iff ea chainID ccMD p).mp (h2 p hp)⟩
  · rintro ⟨h1, h2⟩
    exact ⟨h1, fun p hp => (mspFilter_iff ea chainID ccMD p).mpr (h2 p hp)⟩

/-- C5: in a descriptor returned by `PeersForEndorsement`, every group alias of every layout
is the alias of exactly one principal, that principal occurs in a surviving principal set,
and it passes the MSP test: its `MSPOfPrincipal` is not empty and is the organization of the
identity indexed by the PKI-ID of an alive channel member with the chaincode installed.
A principal set of the policy survives the pre-filter if and only if all of its principals
pass the test. A principal that passes has the organization of a record of the identity set
whose PKI-ID is the one of such a member, and the two readings coincide when the PKI-IDs of
the identity set are pairwise distinct. -/
theorem PeersForEndorsement_layout_groups_pass_msp_test (ea : endorsementAnalyzer)
    (chainID : String) (interest : ChaincodeInterest) (chaincode : ChaincodeCall)
    (rest : List ChaincodeCall) (ccMD : ChaincodeMetadata) (pol : InquireablePolicy)
    (descriptor : EndorsementDescriptor) (err : Option String)
    (hcc : interest.Chaincodes = chaincode :: rest)
    (hmd : ea.Metadata chainID chaincode.Name = some ccMD)
    (hpol : ea.PolicyByChaincode chainID chaincode.Name = some pol)
    (h : PeersForEndorsement ea chainID interest = some (some descriptor, err)) :
    (∀ layout ∈ descriptor.Layouts, ∀ grp ∈ GoMap.keys layout.QuantitiesByGroup,
      ∃ principal : MSPPrincipal,
        GoMap.lookup (mapPrincipalsToGroups (principalsSetsOf ea chainID ccMD pol))
          (keyOf principal) = some grp ∧
        (∃ ps ∈ principalsSetsOf ea chainID ccMD pol, principal ∈ ps) ∧
        passesMspTest ea chainID ccMD principal ∧
        ∀ other : MSPPrincipal,
          GoMap.lookup (mapPrincipalsToGroups (principalsSetsOf ea chainID ccMD pol))
            (keyOf other) = some grp → other = principal) ∧
    (∀ ps ∈ pol.SatisfiedBy,
      (ps ∈ principalsSetsOf ea chainID ccMD pol ↔
        ∀ p ∈ ps, passesMspTest ea chainID ccMD p)) ∧
    (∀ p : MSPPrincipal, passesMspTest ea chainID ccMD p →
      orgOfAliveIdentity ea chainID ccMD p) ∧
    ((ea.IdentityInfo.map (fun id => id.PKIId)).Nodup →
      ∀ p : MSPPrincipal, orgOfAliveIdentity ea chainID ccMD p →
        passesMspTest ea chainID ccMD p) := by
  have hwf := Reachable.wf _
    (mapPrincipalsToGroups_reachable (principalsSetsOf ea chainID ccMD pol))
  have hhas := mapPrincipalsToGroups_has (principalsSetsOf ea chainID ccMD pol)
  rw [PeersForEndorsement_eq ea chainID interest chaincode rest ccMD pol hcc hmd hpol] at h
  refine ⟨?_, ?_, fun p hp => passes_orgOfAliveIdentity ea chainID ccMD p hp,
    fun hnd p hp => orgOfAliveIdentity_passes ea chainID ccMD p hnd hp⟩
  · by_cases hl : (layoutsOf ea chainID ccMD pol).length = 0
    · simp [hl] at h
    · simp only [hl, if_false, Option.some.injEq, Prod.mk.injEq] at h
      obtain ⟨hd, _⟩ := h
      subst hd
      intro layout hlay grp hg
      have hlay2 : layout ∈ layoutsOf ea chainID ccMD pol := hlay
      obtain ⟨hcand, _⟩ := List.mem_filter.mp hlay2
      obtain ⟨ps, hps, rfl⟩ := List.mem_map.mp hcand
      obtain ⟨p, hp, hlook⟩ := layoutOf_groups ps _ hwf (hhas ps hps) grp hg
      refine ⟨p, hlook, ⟨ps, hps, hp⟩, ?_, ?_⟩
      · exact ((principalsSetsOf_mem ea chainID ccMD pol ps).mp hps).2 p hp
      · intro other ho
        exact keyOf_injective other p (mapperWF_injective _ hwf _ _ grp ho hlook)
  · intro ps hps
    rw [principalsSetsOf_mem]
    exact ⟨fun hh => hh.2, fun hall => ⟨hps, hall⟩⟩

/-- Witness of C5: the sample analyzer with the policy two-of-orgA; orgA is the organization
of the identity of the alive channel peer `p1`. -/
theorem PeersForEndorsement_layout_groups_pass_msp_test_witness :
    PeersForEndorsement (sampleAnalyzer [[sampleOrgA, sampleOrgA]]) "ch" sampleInterest =
      some (some sampleDescriptor, none) ∧
    ∀ ps ∈ ({ SatisfiedBy := [[sampleOrgA, sampleOrgA]] } : InquireablePolicy).SatisfiedBy,
      (ps ∈ principalsSetsOf (sampleAnalyzer [[sampleOrgA, sampleOrgA]]) "ch"
          { Name := "cc", Version := "1" } { SatisfiedBy := [[sampleOrgA, sampleOrgA]] } ↔
        ∀ p ∈ ps, passesMspTest (sampleAnalyzer [[sampleOrgA, sampleOrgA]]) "ch"
          { Name := "cc", Version := "1" } p) :=
  ⟨by decide,
    (PeersForEndorsement_layout_groups_pass_msp_test
      (sampleAnalyzer [[sampleOrgA, sampleOrgA]]) "ch" sampleInterest
      { Name := "cc", CollectionNames := [] } [] { Name := "cc", Version := "1" }
      { SatisfiedBy := [[sampleOrgA, sampleOrgA]] } sampleDescriptor none
      rfl rfl rfl (by decide)).2.1⟩

/-! ## The peers of the descriptor -/

theorem endorsersByGroup_mem (criteria : peerMembershipCriteria) (grp : String)
    (peers : Peers) (h : (grp, peers) ∈ endorsersByGroup criteria) :
    ∃ vertex, (grp, vertex) ∈ criteria.satGraph.principalVertices ∧
      peers = { Peers := vertex.Neighbors.map (peerOf criteria) } := by
  have := GoMap.mem_foldl
    (fun (res : GoMap String Peers) (entry : String × PrincipalVertex) =>
      if GoMap.contains (groupsSet criteria.possibleLayouts) entry.1 then
        GoMap.insert res entry.1
          ({ Peers := entry.2.Neighbors.map (peerOf criteria) } : Peers)
      else res)
    (fun entry e => e = (entry.1, ({ Peers := entry.2.Neighbors.map (peerOf criteria) } : Peers)))
    (fun m x e h => by
      by_cases hc : GoMap.contains (groupsSet criteria.possibleLayouts) x.1 = true
      · simp only [hc, if_true] at h
        exact (GoMap.mem_insert m _ _ e h).symm
      · simp only [hc] at h
        exact Or.inl h)
    criteria.satGraph.principalVertices [] (grp, peers) h
  rcases this with hnil | ⟨x, hx, heq⟩
  · simp at hnil
  · injection heq with h1 h2
    exact ⟨x.2, by rw [h1]; exact hx, h2⟩

theorem aliveMembershipOf_mem (ea : endorsementAnalyzer) (chainID : String)
    (ccMD : ChaincodeMetadata) (member : NetworkMember)
    (h : member ∈ aliveMembershipOf ea chainID ccMD) :
    member ∈ ea.Peers ∧
      ∃ entry, GoMap.lookup (Members.ByID (chanMembershipOf ea chainID ccMD)) member.PKIid =
          some entry ∧
        entry ∈ ea.PeersOfChannel chainID ∧ entry.PKIid = member.PKIid ∧
        advertises ccMD entry := by
  simp only [aliveMembershipOf, Members.Intersect, List.mem_filter] at h
  obtain ⟨hp, hc⟩ := h
  refine ⟨hp, ?_⟩
  unfold GoMap.contains at hc
  obtain ⟨entry, hl⟩ := Option.isSome_iff_exists.mp hc
  obtain ⟨hmem, hid⟩ := Members.ByID_mem _ _ (GoMap.mem_of_lookup _ _ _ hl)
  simp only [chanMembershipOf, Members.Filter, List.mem_filter] at hmem
  exact ⟨entry, hl, hmem.1, hid.symm, (peersWithChaincode_iff ccMD entry).mp hmem.2⟩

/-- C6: in a descriptor returned by `PeersForEndorsement`, every peer record of every
`EndorsersByGroups` list is the record of a member of `Peers()` whose PKI-ID is the one of an
entry of `PeersOfChannel(channel)`, and that entry advertises an installed chaincode with the
name and the version of the metadata: the record carries the envelope of the member as
membership info, the envelope of the entry as state info and the identity indexed by the
PKI-ID. -/
theorem PeersForEndorsement_peers_are_channel_members (ea : endorsementAnalyzer)
    (chainID : String) (interest : ChaincodeInterest) (chaincode : ChaincodeCall)
    (rest : List ChaincodeCall) (ccMD : ChaincodeMetadata)
    (descriptor : EndorsementDescriptor) (err : Option String)
    (hcc : interest.Chaincodes = chaincode :: rest)
    (hmd : ea.Metadata chainID chaincode.Name = some ccMD)
    (h : PeersForEndorsement ea chainID interest = some (some descriptor, err)) :
    ∀ (grp : String) (peers : Peers), (grp, peers) ∈ descriptor.EndorsersByGroups →
      ∀ peer ∈ peers.Peers,
        ∃ member ∈ ea.Peers, ∃ entry ∈ ea.PeersOfChannel chainID,
          entry.PKIid = member.PKIid ∧
          advertises ccMD entry ∧
          peer.MembershipInfo = member.Envelope ∧
          peer.StateInfo = entry.Envelope ∧
          peer.Identity =
            identityByPKIID (identitiesOfMembersOf ea chainID ccMD) member.PKIid := by
  obtain ⟨chaincode2, rest2, ccMD2, pol, hcc2, hmd2, _, _, _, hd⟩ :=
    PeersForEndorsement_descriptor ea chainID interest descriptor err h
  rw [hcc] at hcc2
  injection hcc2 with h1 _
  subst h1
  rw [hmd] at hmd2
  injection hmd2 with h2
  subst h2
  subst hd
  intro grp peers hmem peer hpeer
  obtain ⟨vertex, hv, hpeers⟩ := endorsersByGroup_mem _ grp peers hmem
  subst hpeers
  obtain ⟨member, hnb, hrec⟩ := List.mem_map.mp hpeer
  have hv2 : (grp, vertex) ∈ (principalsToPeersGraph
      { members := aliveMembershipOf ea chainID ccMD,
        pGrps := mapPrincipalsToGroups (principalsSetsOf ea chainID ccMD pol) }
      (satisfiesPrincipal ea chainID (identitiesOfMembersOf ea chainID ccMD))).principalVertices :=
    hv
  obtain ⟨_, hnbs⟩ := principalsToPeersGraph_neighbors _ _ grp vertex hv2
  obtain ⟨halive, _⟩ := hnbs member hnb
  obtain ⟨hp, entry, hl, hch, hid, hadv⟩ := aliveMembershipOf_mem ea chainID ccMD member halive
  refine ⟨member, hp, entry, hch, hid, hadv, ?_, ?_, ?_⟩
  · rw [← hrec]; rfl
  · rw [← hrec]
    simp [peerOf, criteriaOf, hl]
  · rw [← hrec]; rfl

/-- Witness of C6: the sample analyzer with the policy orgA-and-orgB. -/
theorem PeersForEndorsement_peers_are_channel_members_witness :
    sampleInterest.Chaincodes = [{ Name := "cc", CollectionNames := [] }] ∧
    (sampleAnalyzer [[sampleOrgA, sampleOrgB]]).Metadata "ch" "cc" =
      some { Name := "cc", Version := "1" } ∧
    PeersForEndorsement (sampleAnalyzer [[sampleOrgA, sampleOrgB]]) "ch" sampleInterest =
      some (some sampleDescriptorTwo, none) ∧
    ∀ (grp : String) (peers : Peers), (grp, peers) ∈ sampleDescriptorTwo.EndorsersByGroups →
      ∀ peer ∈ peers.Peers,
        ∃ member ∈ (sampleAnalyzer [[sampleOrgA, sampleOrgB]]).Peers,
          ∃ entry ∈ (sampleAnalyzer [[sampleOrgA, sampleOrgB]]).PeersOfChannel "ch",
            entry.PKIid = member.PKIid ∧
            advertises { Name := "cc", Version := "1" } entry ∧
            peer.MembershipInfo = member.Envelope ∧
            peer.StateInfo = entry.Envelope ∧
            peer.Identity =
              identityByPKIID (identitiesOfMembersOf (sampleAnalyzer [[sampleOrgA, sampleOrgB]])
                "ch" { Name := "cc", Version := "1" }) member.PKIid :=
  ⟨rfl, rfl, by decide,
    PeersForEndorsement_peers_are_channel_members (sampleAnalyzer [[sampleOrgA, sampleOrgB]])
      "ch" sampleInterest { Name := "cc", CollectionNames := [] } []
      { Name := "cc", Version := "1" } sampleDescriptorTwo none rfl rfl (by decide)⟩

/-! ## Injectivity of the mapper -/

/-- C11: in a mapper built from the empty mapper by `group` calls, every key has one entry,
two keys that differ in classification or in payload hold different aliases, and the
aliases in use are exactly `G0`, ..., `G(n-1)` for the `n` entries of the mapper, each of
them once. -/
theorem reachable_mapper_injective (mapper : principalGroupMapper) (h : Reachable mapper) :
    (GoMap.keys mapper).Nodup ∧
    (∀ (k1 k2 : principalKey) (g1 g2 : String),
      GoMap.lookup mapper k1 = some g1 → GoMap.lookup mapper k2 = some g2 →
      (k1.cls ≠ k2.cls ∨ k1.principal ≠ k2.principal) → g1 ≠ g2) ∧
    (∀ g : String, g ∈ GoMap.values mapper ↔
      ∃ i : Nat, i < mapper.length ∧ g = "G" ++ toString i) ∧
    (GoMap.values mapper).Nodup := by
  have hwf := Reachable.wf mapper h
  refine ⟨hwf.1, ?_, ?_, ?_⟩
  · intro k1 k2 g1 g2 h1 h2 hne heq
    subst heq
    have hk := mapperWF_injective mapper hwf k1 k2 g1 h1 h2
    subst hk
    rcases hne with hc | hc <;> exact hc rfl
  · intro g
    rw [hwf.2]
    simp only [List.mem_map, List.mem_range]
    constructor
    · rintro ⟨i, hi, rfl⟩
      exact ⟨i, hi, rfl⟩
    · rintro ⟨i, hi, rfl⟩
      exact ⟨i, hi, rfl⟩
  · rw [hwf.2]
    refine List.Nodup.map_on ?_ (List.nodup_range _)
    intro a _ b _ hab
    exact groupName_injective a b hab

/-- Witness of C11: the mapper after `group` on orgA and then on orgB. -/
theorem reachable_mapper_injective_witness :
    Reachable (group (group [] (keyOf sampleOrgA)).2 (keyOf sampleOrgB)).2 ∧
    ∀ g : String, g ∈ GoMap.values (group (group [] (keyOf sampleOrgA)).2 (keyOf sampleOrgB)).2 ↔
      ∃ i : Nat, i < (group (group [] (keyOf sampleOrgA)).2 (keyOf sampleOrgB)).2.length ∧
        g = "G" ++ toString i :=
  ⟨Reachable.step _ _ (Reachable.step _ _ Reachable.empty),
    (reachable_mapper_injective _
      (Reachable.step _ _ (Reachable.step _ _ Reachable.empty))).2.2.1⟩

/-! ## Edges of the satisfaction graph -/

theorem connectPeers_lookup_skip (sat : peerPrincipalEvaluator) (peers : List PeerVertex) :
    ∀ (pv : PrincipalVertex) (id : String), id ∉ peers.map (fun p => p.Id) →
      GoMap.lookup (connectPeers sat peers pv).1.neighbors id =
        GoMap.lookup pv.neighbors id := by
  induction peers with
  | nil => intro pv id _; rfl
  | cons p rest ih =>
    intro pv id hid
    simp only [List.map_cons, List.mem_cons, not_or] at hid
    cases hs : sat p.Data pv.Data with
    | true =>
      simp only [connectPeers, hs, if_true]
      rw [ih _ id hid.2]
      simp only [Vertex.AddNeighbor]
      exact GoMap.lookup_insert_ne _ _ _ _ hid.1
    | false =>
      simp only [connectPeers, hs, Bool.false_eq_true, if_false]
      exact ih _ id hid.2

theorem connectPeers_lookup (sat : peerPrincipalEvaluator) (peers : List PeerVertex) :
    ∀ (pv : PrincipalVertex) (p : PeerVertex), (peers.map (fun p => p.Id)).Nodup →
      p ∈ peers →
      GoMap.lookup (connectPeers sat peers pv).1.neighbors p.Id =
        if sat p.Data pv.Data = true then some p.Data else GoMap.lookup pv.neighbors p.Id := by
  induction peers with
  | nil => intro pv p _ hp; simp at hp
  | cons q rest ih =>
    intro pv p hnd hp
    simp only [List.map_cons, List.nodup_cons] at hnd
    rcases List.mem_cons.mp hp with heq | hmem
    · subst heq
      cases hs : sat p.Data pv.Data with
      | true =>
        simp only [connectPeers, hs, if_true]
        rw [connectPeers_lookup_skip sat rest _ p.Id hnd.1]
        simp only [Vertex.AddNeighbor]
        exact GoMap.lookup_insert_self _ _ _
      | false =>
        simp only [connectPeers, hs, Bool.false_eq_true, if_false]
        exact connectPeers_lookup_skip sat rest _ p.Id hnd.1
    · have hne : p.Id ≠ q.Id := by
        intro c
        exact hnd.1 (c ▸ List.mem_map_of_mem (fun p => p.Id) hmem)
      cases hs : sat q.Data pv.Data with
      | true =>
        simp only [connectPeers, hs, if_true]
        rw [ih _ p hnd.2 hmem]
        simp only [Vertex.AddNeighbor]
        rw [GoMap.lookup_insert_ne _ _ _ _ hne]
      | false =>
        simp only [connectPeers, hs, Bool.false_eq_true, if_false]
        exact ih _ p hnd.2 hmem

theorem principalsToPeersGraph_edge (data : principalAndPeerData)
    (sat : peerPrincipalEvaluator)
    (hnd : (data.members.map (fun m => m.PKIid)).Nodup)
    (grp : String) (vertex : PrincipalVertex)
    (hv : (grp, vertex) ∈ (principalsToPeersGraph data sat).principalVertices)
    (member : NetworkMember) (hm : member ∈ data.members) :
    GoMap.lookup vertex.neighbors member.PKIid =
      if sat member vertex.Data = true then some member else none := by
  rw [principalsToPeersGraph_vertices] at hv
  obtain ⟨e0, he0, heq⟩ := List.mem_map.mp hv
  have hinit := GoMap.mem_foldl
    (fun (acc : GoMap String PrincipalVertex) (entry : principalKey × String) =>
      GoMap.insert acc entry.2 (NewVertex entry.2 entry.1.toPrincipal))
    (fun entry e => e = (entry.2, NewVertex entry.2 entry.1.toPrincipal))
    (fun m x e h => (GoMap.mem_insert m _ _ e h).symm) data.pGrps [] e0 he0
  rcases hinit with hnil | ⟨x, _, hxe⟩
  · simp at hnil
  · subst hxe
    simp only [Prod.mk.injEq] at heq
    obtain ⟨_, hvert⟩ := heq
    have hcore := (connectPeers_core sat
      (data.members.map (fun member => NewVertex member.PKIid member))
      (NewVertex x.2 x.1.toPrincipal)).2
    rw [hvert] at hcore
    have hdata : vertex.Data = x.1.toPrincipal := congrArg Prod.snd hcore
    have hids : ((data.members.map (fun member =>
        (NewVertex member.PKIid member : PeerVertex))).map (fun p => p.Id)).Nodup := by
      simpa [List.map_map, Function.comp, NewVertex] using hnd
    have hlook := connectPeers_lookup sat _ (NewVertex x.2 x.1.toPrincipal)
      (NewVertex member.PKIid member) hids (List.mem_map_of_mem _ hm)
    rw [hvert] at hlook
    rw [hdata]
    simpa [NewVertex, GoMap.lookup] using hlook

theorem satisfiesPrincipal_iff (ea : endorsementAnalyzer) (channel : String)
    (identitiesOfMembers : memberIdentities) (member : NetworkMember)
    (principal : MSPPrincipal) :
    satisfiesPrincipal ea channel identitiesOfMembers member principal = true ↔
      ea.SatisfiesPrincipal channel (identityByPKIID identitiesOfMembers member.PKIid)
        principal = none := by
  unfold satisfiesPrincipal
  cases ea.SatisfiesPrincipal channel (identityByPKIID identitiesOfMembers member.PKIid)
    principal with
  | none => simp
  | some e => simp

/-- C12: in the graph that `principalsToPeersGraph` builds with the predicate of
`satisfiesPrincipal`, from members with pairwise distinct PKI-IDs and a mapper built by
`group` calls, every group alias of the mapper has a principal vertex carrying the principal
of the group, and a member is a neighbour of that vertex (under its PKI-ID) if and only if
`SatisfiesPrincipal` on the channel, the identity of the member and the principal returns no
error. The build returns a graph whatever the evaluations return: an evaluation error makes
the predicate false. -/
theorem principalsToPeersGraph_edge_iff (ea : endorsementAnalyzer) (channel : String)
    (identitiesOfMembers : memberIdentities) (members : Members)
    (pGrps : principalGroupMapper) (hreach : Reachable pGrps)
    (hnd : (members.map (fun m => m.PKIid)).Nodup) :
    (∀ (key : principalKey) (grp : String), (key, grp) ∈ pGrps →
      ∃ vertex : PrincipalVertex,
        GoMap.lookup (principalsToPeersGraph { members := members, pGrps := pGrps }
          (satisfiesPrincipal ea channel identitiesOfMembers)).principalVertices grp =
            some vertex ∧
        vertex.Data = key.toPrincipal ∧
        ∀ member ∈ members,
          (member ∈ vertex.Neighbors ↔
            ea.SatisfiesPrincipal channel
              (identityByPKIID identitiesOfMembers member.PKIid) key.toPrincipal = none) ∧
          (GoMap.lookup vertex.neighbors member.PKIid = some member ↔
            ea.SatisfiesPrincipal channel
              (identityByPKIID identitiesOfMembers member.PKIid) key.toPrincipal = none)) ∧
    (∀ (member : NetworkMember) (principal : MSPPrincipal) (msg : String),
      ea.SatisfiesPrincipal channel (identityByPKIID identitiesOfMembers member.PKIid)
        principal = some msg →
      satisfiesPrincipal ea channel identitiesOfMembers member principal = false) := by
  have hwf := Reachable.wf pGrps hreach
  constructor
  · intro key grp hkg
    have hkey : grp ∈ GoMap.keys (principalsToPeersGraph { members := members, pGrps := pGrps }
        (satisfiesPrincipal ea channel identitiesOfMembers)).principalVertices :=
      (principalsToPeersGraph_keys _ _ grp).mpr ⟨key, hkg⟩
    have hc := (GoMap.contains_iff _ grp).mpr hkey
    unfold GoMap.contains at hc
    obtain ⟨vertex, hl⟩ := Option.isSome_iff_exists.mp hc
    have hv := GoMap.mem_of_lookup _ _ _ hl
    obtain ⟨⟨key2, hk2, hdata⟩, hnbs⟩ := principalsToPeersGraph_neighbors
      { members := members, pGrps := pGrps }
      (satisfiesPrincipal ea channel identitiesOfMembers) grp vertex hv
    have hsame : key2 = key := mapperWF_injective pGrps hwf key2 key grp
      (GoMap.lookup_of_mem _ _ _ hwf.1 hk2) (GoMap.lookup_of_mem _ _ _ hwf.1 hkg)
    subst hsame
    refine ⟨vertex, hl, hdata, ?_⟩
    intro member hm
    have hedge := principalsToPeersGraph_edge { members := members, pGrps := pGrps }
      (satisfiesPrincipal ea channel identitiesOfMembers) hnd grp vertex hv member hm
    rw [hdata] at hedge
    have hiff := satisfiesPrincipal_iff ea channel identitiesOfMembers member key2.toPrincipal
    constructor
    · constructor
      · intro hin
        have := (hnbs member hin).2
        rw [hdata] at this
        exact hiff.mp this
      · intro hsat
        rw [if_pos (hiff.mpr hsat)] at hedge
        exact List.mem_map.mpr ⟨(member.PKIid, member), GoMap.mem_of_lookup _ _ _ hedge, rfl⟩
    · constructor
      · intro hlook
        by_cases hs : satisfiesPrincipal ea channel identitiesOfMembers member
            key2.toPrincipal = true
        · exact hiff.mp hs
        · rw [if_neg hs] at hedge
          rw [hedge] at hlook
          cases hlook
      · intro hsat
        rw [if_pos (hiff.mpr hsat)] at hedge
        exact hedge
  · intro member principal msg hmsg
    simp [satisfiesPrincipal, hmsg]

/-- Witness of C12: two members with distinct PKI-IDs, the mapper with the single group of
orgA, and the evaluator of the sample analyzer. -/
theorem principalsToPeersGraph_edge_iff_witness :
    Reachable (group [] (keyOf sampleOrgA)).2 ∧
    (([sampleAlive "p1", sampleAlive "p3"] : Members).map (fun m => m.PKIid)).Nodup ∧
    ∀ (key : principalKey) (grp : String), (key, grp) ∈ (group [] (keyOf sampleOrgA)).2 →
      ∃ vertex : PrincipalVertex,
        GoMap.lookup (principalsToPeersGraph
          { members := [sampleAlive "p1", sampleAlive "p3"],
            pGrps := (group [] (keyOf sampleOrgA)).2 }
          (satisfiesPrincipal (sampleAnalyzer []) "ch"
            [("p1", "id1"), ("p3", "id3")])).principalVertices grp = some vertex ∧
        vertex.Data = key.toPrincipal ∧
        ∀ member ∈ ([sampleAlive "p1", sampleAlive "p3"] : Members),
          (member ∈ vertex.Neighbors ↔
            (sampleAnalyzer []).SatisfiesPrincipal "ch"
              (identityByPKIID [("p1", "id1"), ("p3", "id3")] member.PKIid)
              key.toPrincipal = none) ∧
          (GoMap.lookup vertex.neighbors member.PKIid = some member ↔
            (sampleAnalyzer []).SatisfiesPrincipal "ch"
              (identityByPKIID [("p1", "id1"), ("p3", "id3")] member.PKIid)
              key.toPrincipal = none) :=
  ⟨Reachable.step _ _ Reachable.empty, by decide,
    (principalsToPeersGraph_edge_iff (sampleAnalyzer []) "ch" [("p1", "id1"), ("p3", "id3")]
      [sampleAlive "p1", sampleAlive "p3"] (group [] (keyOf sampleOrgA)).2
      (Reachable.step _ _ Reachable.empty) (by decide)).1⟩

/-! ## Errors of the analyzer -/

/-- C13: when the interest has a first chaincode and `Metadata` of the channel and the name
of that chaincode is absent, `PeersForEndorsement` returns no descriptor and the error
"No metadata was found for chaincode <name> in channel <channel>"; the result is the same
for every analyzer with that metadata fetcher, whatever its other collaborators return. -/
theorem PeersForEndorsement_no_metadata (ea : endorsementAnalyzer) (chainID : String)
    (interest : ChaincodeInterest) (chaincode : ChaincodeCall) (rest : List ChaincodeCall)
    (hcc : interest.Chaincodes = chaincode :: rest)
    (hmd : ea.Metadata chainID chaincode.Name = none) :
    PeersForEndorsement ea chainID interest =
      some (none, some ("No metadata was found for chaincode " ++ chaincode.Name ++
        " in channel " ++ chainID)) ∧
    ∀ other : endorsementAnalyzer, other.Metadata = ea.Metadata →
      PeersForEndorsement other chainID interest = PeersForEndorsement ea chainID interest := by
  have hrun : ∀ a : endorsementAnalyzer, a.Metadata chainID chaincode.Name = none →
      PeersForEndorsement a chainID interest =
        some (none, some ("No metadata was found for chaincode " ++ chaincode.Name ++
          " in channel " ++ chainID)) := by
    intro a ha
    unfold PeersForEndorsement
    rw [hcc]
    simp only [ha]
  refine ⟨hrun ea hmd, ?_⟩
  intro other hother
  rw [hrun ea hmd, hrun other (by rw [hother]; exact hmd)]

/-- Witness of C13: the sample analyzer without metadata, on channel `ch` and chaincode `cc`. -/
theorem PeersForEndorsement_no_metadata_witness :
    sampleInterest.Chaincodes = [{ Name := "cc", CollectionNames := [] }] ∧
    sampleAnalyzerNoMetadata.Metadata "ch" "cc" = none ∧
    PeersForEndorsement sampleAnalyzerNoMetadata "ch" sampleInterest =
      some (none, some "No metadata was found for chaincode cc in channel ch") :=
  ⟨rfl, rfl,
    (PeersForEndorsement_no_metadata sampleAnalyzerNoMetadata "ch" sampleInterest
      { Name := "cc", CollectionNames := [] } [] rfl rfl).1⟩

/-- C14: when the interest has a first chaincode, its metadata is present and
`PolicyByChaincode` of the channel and the name of that chaincode is absent,
`PeersForEndorsement` returns no descriptor and the error "policy not found"; the result is
the same for every analyzer with these metadata and policy fetchers, whatever its membership
and identity snapshots contain. -/
theorem PeersForEndorsement_no_policy (ea : endorsementAnalyzer) (chainID : String)
    (interest : ChaincodeInterest) (chaincode : ChaincodeCall) (rest : List ChaincodeCall)
    (ccMD : ChaincodeMetadata)
    (hcc : interest.Chaincodes = chaincode :: rest)
    (hmd : ea.Metadata chainID chaincode.Name = some ccMD)
    (hpol : ea.PolicyByChaincode chainID chaincode.Name = none) :
    PeersForEndorsement ea chainID interest = some (none, some "policy not found") ∧
    ∀ other : endorsementAnalyzer, other.Metadata = ea.Metadata →
      other.PolicyByChaincode = ea.PolicyByChaincode →
      PeersForEndorsement other chainID interest = some (none, some "policy not found") := by
  have hrun : ∀ a : endorsementAnalyzer, a.Metadata chainID chaincode.Name = some ccMD →
      a.PolicyByChaincode chainID chaincode.Name = none →
      PeersForEndorsement a chainID interest = some (none, some "policy not found") := by
    intro a ha hp
    unfold PeersForEndorsement
    rw [hcc]
    simp only [ha, hp]
  refine ⟨hrun ea hmd hpol, ?_⟩
  intro other h1 h2
  exact hrun other (by rw [h1]; exact hmd) (by rw [h2]; exact hpol)

/-- Witness of C14: the sample analyzer with metadata and without a policy. -/
theorem PeersForEndorsement_no_policy_witness :
    sampleInterest.Chaincodes = [{ Name := "cc", CollectionNames := [] }] ∧
    sampleAnalyzerNoPolicy.Metadata "ch" "cc" = some { Name := "cc", Version := "1" } ∧
    sampleAnalyzerNoPolicy.PolicyByChaincode "ch" "cc" = none ∧
    PeersForEndorsement sampleAnalyzerNoPolicy "ch" sampleInterest =
      some (none, some "policy not found") :=
  ⟨rfl, rfl, rfl,
    (PeersForEndorsement_no_policy sampleAnalyzerNoPolicy "ch" sampleInterest
      { Name := "cc", CollectionNames := [] } [] { Name := "cc", Version := "1" }
      rfl rfl rfl).1⟩

/-! ## Members without an identity -/

theorem computeIdentitiesOfMembers_keys (identitySet : PeerIdentitySet)
    (members : GoMap String NetworkMember) (pki : String)
    (h : pki ∈ GoMap.keys (computeIdentitiesOfMembers identitySet members)) :
    ∃ identity ∈ identitySet, identity.PKIId = pki := by
  unfold computeIdentitiesOfMembers at h
  simp only at h
  rw [GoMap.mem_keys_foldl _ (fun (entry : String × NetworkMember) k =>
    k = entry.2.PKIid ∧ (GoMap.lookup (identitySet.foldl (fun acc identity =>
      GoMap.insert acc identity.PKIId identity.Identity) ([] : GoMap String String))
        entry.2.PKIid).isSome = true)] at h
  · rcases h with hnil | ⟨entry, _, hk, hsome⟩
    · simp [GoMap.keys] at hnil
    · have hin := (GoMap.contains_iff _ _).mp hsome
      rw [GoMap.mem_keys_foldl _ (fun (identity : PeerIdentityInfo) k =>
        k = identity.PKIId)] at hin
      · rcases hin with hnil | ⟨identity, hid, hk2⟩
        · simp [GoMap.keys] at hnil
        · exact ⟨identity, hid, by rw [hk, hk2]⟩
      · intro m e k
        rw [GoMap.mem_keys_insert]
        exact or_comm
  · intro m e k
    cases hl : GoMap.lookup (identitySet.foldl (fun acc identity =>
        GoMap.insert acc identity.PKIId identity.Identity) ([] : GoMap String String))
        e.2.PKIid with
    | none => simp
    | some identity =>
      simp only [Option.isSome_some, and_true]
      rw [GoMap.mem_keys_insert]
      exact or_comm

/-- C16: for a member whose PKI-ID has no record in the identity set,
`computeIdentitiesOfMembers` holds no entry for that PKI-ID and `identityByPKIID` returns
the empty identity; and `endorsersByGroup`, run with these identities, still lists the peer
under every included group whose principal vertex has it as a neighbour: the list has one
record per neighbour and holds the record of the member with the empty `Identity`. -/
theorem missing_identity_is_empty (identitySet : PeerIdentitySet)
    (members : GoMap String NetworkMember) (member : NetworkMember)
    (hmiss : ∀ identity ∈ identitySet, identity.PKIId ≠ member.PKIid) :
    GoMap.lookup (computeIdentitiesOfMembers identitySet members) member.PKIid = none ∧
    identityByPKIID (computeIdentitiesOfMembers identitySet members) member.PKIid = "" ∧
    ∀ (criteria : peerMembershipCriteria) (grp : String) (vertex : PrincipalVertex),
      criteria.idOfMembers = computeIdentitiesOfMembers identitySet members →
      (GoMap.keys criteria.satGraph.principalVertices).Nodup →
      GoMap.lookup criteria.satGraph.principalVertices grp = some vertex →
      GoMap.contains (groupsSet criteria.possibleLayouts) grp = true →
      member ∈ vertex.Neighbors →
      ∃ peers : Peers, GoMap.lookup (endorsersByGroup criteria) grp = some peers ∧
        peers.Peers.length = vertex.Neighbors.length ∧
        { Identity := "",
          StateInfo := ((GoMap.lookup criteria.chanMemberById member.PKIid).getD
            NetworkMember.zero).Envelope,
          MembershipInfo := member.Envelope } ∈ peers.Peers := by
  have hnone : GoMap.lookup (computeIdentitiesOfMembers identitySet members) member.PKIid
      = none := by
    rw [GoMap.lookup_eq_none_iff]
    intro hin
    obtain ⟨identity, hid, hpk⟩ := computeIdentitiesOfMembers_keys _ _ _ hin
    exact hmiss identity hid hpk
  refine ⟨hnone, by simp [identityByPKIID, hnone], ?_⟩
  intro criteria grp vertex hids hnd hv hin hnb
  refine ⟨_, endorsersByGroup_lookup criteria grp vertex hnd hv hin, by simp, ?_⟩
  refine List.mem_map.mpr ⟨member, hnb, ?_⟩
  simp [peerOf, identityByPKIID, hids, hnone]

/-- Witness of C16: the identity set knows `p1` only; `p3` is a neighbour of group `G1` in
the sample graph. -/
theorem missing_identity_is_empty_witness :
    (∀ identity ∈ ([{ PKIId := "p1", Identity := "id1", Organization := "orgA" }] :
        PeerIdentitySet), identity.PKIId ≠ (sampleAlive "p3").PKIid) ∧
    identityByPKIID (computeIdentitiesOfMembers
      [{ PKIId := "p1", Identity := "id1", Organization := "orgA" }]
      (Members.ByID [sampleAlive "p1", sampleAlive "p3"])) (sampleAlive "p3").PKIid = "" :=
  ⟨by decide,
    (missing_identity_is_empty [{ PKIId := "p1", Identity := "id1", Organization := "orgA" }]
      (Members.ByID [sampleAlive "p1", sampleAlive "p3"]) (sampleAlive "p3")
      (by decide)).2.1⟩

/-! ## The chaincode filter -/

/-- C20: `peersWithChaincode(metadata)(member)` is true if and only if the member has
properties and its installed-chaincode list has an entry whose name and version are the
ones of the metadata; a member with nil properties is excluded, and so is a member all of
whose entries with the name of the metadata carry another version. -/
theorem peersWithChaincode_spec (ccMD : ChaincodeMetadata) (member : NetworkMember) :
    (peersWithChaincode ccMD member = true ↔
      ∃ properties, member.Properties = some properties ∧
        ∃ cc ∈ properties.Chaincodes, cc.Name = ccMD.Name ∧ cc.Version = ccMD.Version) ∧
    (member.Properties = none → peersWithChaincode ccMD member = false) ∧
    (∀ properties, member.Properties = some properties →
      (∀ cc ∈ properties.Chaincodes, cc.Name = ccMD.Name → cc.Version ≠ ccMD.Version) →
      peersWithChaincode ccMD member = false) := by
  refine ⟨?_, ?_, ?_⟩
  · cases hp : member.Properties with
    | none =>
      constructor
      · intro h
        simp [peersWithChaincode, hp] at h
      · rintro ⟨properties, hsome, _⟩
        cases hsome
    | some properties =>
      constructor
      · intro h
        simp only [peersWithChaincode, hp, List.any_eq_true, decide_eq_true_eq] at h
        exact ⟨properties, rfl, h⟩
      · rintro ⟨q, hq, cc, hcc, hn, hv⟩
        injection hq with hq
        subst hq
        simp only [peersWithChaincode, hp, List.any_eq_true, decide_eq_true_eq]
        exact ⟨cc, hcc, hn, hv⟩
  · intro hp
    simp [peersWithChaincode, hp]
  · intro properties hp hall
    cases hres : peersWithChaincode ccMD member with
    | false => rfl
    | true =>
      simp only [peersWithChaincode, hp, List.any_eq_true, decide_eq_true_eq] at hres
      obtain ⟨cc, hcc, hn, hv⟩ := hres
      exact absurd hv (hall cc hcc hn)

/-- Witness of C20: metadata at version 2, a member without properties and a member that
has the chaincode at version 1 only. -/
theorem peersWithChaincode_spec_witness :
    ((sampleAlive "p1").Properties = none ∧
      peersWithChaincode { Name := "cc", Version := "2" } (sampleAlive "p1") = false) ∧
    ((sampleChannel "p1" "1").Properties =
        some { Chaincodes := [{ Name := "cc", Version := "1" }] } ∧
      peersWithChaincode { Name := "cc", Version := "2" } (sampleChannel "p1" "1") = false) :=
  ⟨⟨rfl, (peersWithChaincode_spec { Name := "cc", Version := "2" }
      (sampleAlive "p1")).2.1 rfl⟩,
   ⟨rfl, (peersWithChaincode_spec { Name := "cc", Version := "2" }
      (sampleChannel "p1" "1")).2.2 { Chaincodes := [{ Name := "cc", Version := "1" }] } rfl
        (by decide)⟩⟩

/-! ## Unsatisfiable policies -/

theorem layoutsOf_of_no_sets (ea : endorsementAnalyzer) (chainID : String)
    (ccMD : ChaincodeMetadata) (pol : InquireablePolicy)
    (h : principalsSetsOf ea chainID ccMD pol = []) : layoutsOf ea chainID ccMD pol = [] := by
  unfold layoutsOf
  rw [h]
  rfl

/-- C18: when the interest has a first chaincode whose metadata and policy exist, and every
principal set enumerated by the policy contains a principal whose MSP id is empty or is the
organization of no identity of an alive channel member, then the pre-filter leaves no
principal set, `computeLayouts` returns the empty list and `PeersForEndorsement` returns no
descriptor and the error "cannot satisfy any principal combination". -/
theorem PeersForEndorsement_all_sets_filtered (ea : endorsementAnalyzer) (chainID : String)
    (interest : ChaincodeInterest) (chaincode : ChaincodeCall) (rest : List ChaincodeCall)
    (ccMD : ChaincodeMetadata) (pol : InquireablePolicy)
    (hcc : interest.Chaincodes = chaincode :: rest)
    (hmd : ea.Metadata chainID chaincode.Name = some ccMD)
    (hpol : ea.PolicyByChaincode chainID chaincode.Name = some pol)
    (hbad : ∀ ps ∈ pol.SatisfiedBy, ∃ p ∈ ps,
      ea.MSPOfPrincipal p = "" ∨
      ∀ identity ∈ ea.IdentityInfo, ∀ member ∈ aliveMembershipOf ea chainID ccMD,
        member.PKIid = identity.PKIId → identity.Organization ≠ ea.MSPOfPrincipal p) :
    principalsSetsOf ea chainID ccMD pol = [] ∧
    (∃ after, computeLayouts (principalsSetsOf ea chainID ccMD pol)
      (mapPrincipalsToGroups (principalsSetsOf ea chainID ccMD pol))
      (satGraphOf ea chainID ccMD pol) = some ([], after)) ∧
    PeersForEndorsement ea chainID interest =
      some (none, some "cannot satisfy any principal combination") := by
  have hsets : principalsSetsOf ea chainID ccMD pol = [] := by
    rw [List.eq_nil_iff_forall_not_mem]
    intro ps hps
    obtain ⟨hin, hall⟩ := (principalsSetsOf_mem ea chainID ccMD pol ps).mp hps
    obtain ⟨p, hp, hfail⟩ := hbad ps hin
    obtain ⟨hne, identity, hid, horg, member, hm, hpk⟩ :=
      passes_orgOfAliveIdentity ea chainID ccMD p (hall p hp)
    rcases hfail with hempty | hnone
    · exact hne hempty
    · exact hnone identity hid member hm hpk horg
  have hlay := layoutsOf_of_no_sets ea chainID ccMD pol hsets
  refine ⟨hsets, ?_, ?_⟩
  · have hrun := computeLayouts_analyzer ea chainID ccMD pol
    rw [hlay] at hrun
    exact ⟨mapPrincipalsToGroups (principalsSetsOf ea chainID ccMD pol), hrun⟩
  · rw [PeersForEndorsement_eq ea chainID interest chaincode rest ccMD pol hcc hmd hpol, hlay]
    rfl

/-- Witness of C18: the sample analyzer with a policy that asks for orgX, the organization
of no peer (scenario S5). -/
theorem PeersForEndorsement_all_sets_filtered_witness :
    (∀ ps ∈ ({ SatisfiedBy := [[{ PrincipalClassification := 0, Principal := "orgX" }]] } :
        InquireablePolicy).SatisfiedBy, ∃ p ∈ ps,
      (sampleAnalyzer [[{ PrincipalClassification := 0, Principal := "orgX" }]]).MSPOfPrincipal
          p = "" ∨
      ∀ identity ∈
          (sampleAnalyzer [[{ PrincipalClassification := 0, Principal := "orgX" }]]).IdentityInfo,
        ∀ member ∈ aliveMembershipOf
            (sampleAnalyzer [[{ PrincipalClassification := 0, Principal := "orgX" }]]) "ch"
            { Name := "cc", Version := "1" },
          member.PKIid = identity.PKIId → identity.Organization ≠
            (sampleAnalyzer
              [[{ PrincipalClassification := 0, Principal := "orgX" }]]).MSPOfPrincipal p) ∧
    PeersForEndorsement
        (sampleAnalyzer [[{ PrincipalClassification := 0, Principal := "orgX" }]]) "ch"
        sampleInterest = some (none, some "cannot satisfy any principal combination") :=
  have hbad : ∀ ps ∈ ({ SatisfiedBy :=
        [[{ PrincipalClassification := 0, Principal := "orgX" }]] } :
        InquireablePolicy).SatisfiedBy, ∃ p ∈ ps,
      (sampleAnalyzer [[{ PrincipalClassification := 0, Principal := "orgX" }]]).MSPOfPrincipal
          p = "" ∨
      ∀ identity ∈
          (sampleAnalyzer [[{ PrincipalClassification := 0, Principal := "orgX" }]]).IdentityInfo,
        ∀ member ∈ aliveMembershipOf
            (sampleAnalyzer [[{ PrincipalClassification := 0, Principal := "orgX" }]]) "ch"
            { Name := "cc", Version := "1" },
          member.PKIid = identity.PKIId → identity.Organization ≠
            (sampleAnalyzer
              [[{ PrincipalClassification := 0, Principal := "orgX" }]]).MSPOfPrincipal p := by
    intro ps hps
    simp only [List.mem_singleton] at hps
    subst hps
    refine ⟨_, List.mem_singleton.mpr rfl, Or.inr ?_⟩
    intro identity hid member _ _
    simp only [sampleAnalyzer, List.mem_cons, List.mem_singleton, List.not_mem_nil,
      or_false] at hid
    rcases hid with h | h | h <;> subst h <;> decide
  ⟨hbad,
    (PeersForEndorsement_all_sets_filtered
      (sampleAnalyzer [[{ PrincipalClassification := 0, Principal := "orgX" }]]) "ch"
      sampleInterest { Name := "cc", CollectionNames := [] } []
      { Name := "cc", Version := "1" }
      { SatisfiedBy := [[{ PrincipalClassification := 0, Principal := "orgX" }]] }
      rfl rfl rfl hbad).2.2⟩

/-! ## No peer with the chaincode -/

theorem connectPrincipals_no_peers (sat : peerPrincipalEvaluator)
    (prins : GoMap String PrincipalVertex) : (connectPrincipals sat prins []).2 = [] := by
  induction prins with
  | nil => rfl
  | cons e rest ih =>
    obtain ⟨grp, pv⟩ := e
    simpa [connectPrincipals, connectPeers] using ih

theorem layoutOf_empty_set (mapper : principalGroupMapper) :
    layoutOf [] mapper = { QuantitiesByGroup := [] } := rfl

/-- C17 as stated fails: metadata at version 2, every channel peer at version 1, and a policy
whose only principal set is empty. The empty set passes the pre-filter, its layout is empty
and feasible, and `PeersForEndorsement` returns a descriptor instead of the error. -/
theorem no_peer_with_chaincode_counterexample :
    (sampleAnalyzerVersionTwo [[]]).Metadata "ch" "cc" = some { Name := "cc", Version := "2" } ∧
    (sampleAnalyzerVersionTwo [[]]).PolicyByChaincode "ch" "cc" = some { SatisfiedBy := [[]] } ∧
    (∀ member ∈ (sampleAnalyzerVersionTwo [[]]).PeersOfChannel "ch",
      peersWithChaincode { Name := "cc", Version := "2" } member = false) ∧
    PeersForEndorsement (sampleAnalyzerVersionTwo [[]]) "ch" sampleInterest =
      some (some { Chaincode := "cc", Layouts := [{ QuantitiesByGroup := [] }],
                   EndorsersByGroups := [] }, none) ∧
    PeersForEndorsement (sampleAnalyzerVersionTwo [[]]) "ch" sampleInterest ≠
      some (none, some "cannot satisfy any principal combination") := by
  refine ⟨rfl, rfl, by decide, by decide, by decide⟩

/-- C17, amended: when the interest has a first chaincode whose metadata and policy exist
and no channel peer advertises an installed chaincode with the name and version of the
metadata, the filtered channel membership, the alive membership and the peer side of the
satisfaction graph are empty, and `PeersForEndorsement` returns no descriptor and the error
"cannot satisfy any principal combination" if and only if no principal set enumerated by
the policy is empty; in particular it does so when every set has at least one principal. -/
theorem PeersForEndorsement_no_peer_with_chaincode (ea : endorsementAnalyzer)
    (chainID : String) (interest : ChaincodeInterest) (chaincode : ChaincodeCall)
    (rest : List ChaincodeCall) (ccMD : ChaincodeMetadata) (pol : InquireablePolicy)
    (hcc : interest.Chaincodes = chaincode :: rest)
    (hmd : ea.Metadata chainID chaincode.Name = some ccMD)
    (hpol : ea.PolicyByChaincode chainID chaincode.Name = some pol)
    (hno : ∀ member ∈ ea.PeersOfChannel chainID, peersWithChaincode ccMD member = false) :
    chanMembershipOf ea chainID ccMD = [] ∧
    aliveMembershipOf ea chainID ccMD = [] ∧
    (satGraphOf ea chainID ccMD pol).peerVertices = [] ∧
    (PeersForEndorsement ea chainID interest =
        some (none, some "cannot satisfy any principal combination") ↔
      [] ∉ pol.SatisfiedBy) ∧
    ((∀ ps ∈ pol.SatisfiedBy, ps ≠ []) →
      PeersForEndorsement ea chainID interest =
        some (none, some "cannot satisfy any principal combination")) := by
  have hchan : chanMembershipOf ea chainID ccMD = [] := by
    unfold chanMembershipOf Members.Filter
    rw [List.filter_eq_nil_iff]
    intro member hm
    rw [hno member hm]
    decide
  have halive : aliveMembershipOf ea chainID ccMD = [] := by
    unfold aliveMembershipOf Members.Intersect
    rw [hchan, List.filter_eq_nil_iff]
    intro member _
    simp [Members.ByID, GoMap.contains, GoMap.lookup]
  have hpeers : (satGraphOf ea chainID ccMD pol).peerVertices = [] := by
    unfold satGraphOf principalsToPeersGraph
    simp only [halive, List.map_nil]
    exact connectPrincipals_no_peers _ _
  have hsurv : ∀ ps, ps ∈ principalsSetsOf ea chainID ccMD pol ↔
      ps ∈ pol.SatisfiedBy ∧ ps = [] := by
    intro ps
    rw [principalsSetsOf_mem]
    constructor
    · rintro ⟨hin, hall⟩
      refine ⟨hin, ?_⟩
      cases ps with
      | nil => rfl
      | cons p tail =>
        obtain ⟨_, member, hm, _⟩ := hall p (List.mem_cons_self _ _)
        rw [halive] at hm
        simp at hm
    · rintro ⟨hin, rfl⟩
      exact ⟨hin, fun p hp => by simp at hp⟩
  have hiff : PeersForEndorsement ea chainID interest =
      some (none, some "cannot satisfy any principal combination") ↔
      [] ∉ pol.SatisfiedBy := by
    rw [PeersForEndorsement_eq ea chainID interest chaincode rest ccMD pol hcc hmd hpol]
    constructor
    · intro h hin
      have hmem : layoutOf [] (mapPrincipalsToGroups (principalsSetsOf ea chainID ccMD pol)) ∈
          layoutsOf ea chainID ccMD pol := by
        unfold layoutsOf
        refine List.mem_filter.mpr ⟨List.mem_map.mpr ⟨[], (hsurv []).mpr ⟨hin, rfl⟩, rfl⟩, ?_⟩
        rw [layoutOf_empty_set]
        rfl
      have hlen : ¬ (layoutsOf ea chainID ccMD pol).length = 0 := by
        intro c
        rw [List.length_eq_zero.mp c] at hmem
        simp at hmem
      simp [hlen] at h
    · intro hnot
      have hsets : principalsSetsOf ea chainID ccMD pol = [] := by
        rw [List.eq_nil_iff_forall_not_mem]
        intro ps hps
        obtain ⟨hin, hnil⟩ := (hsurv ps).mp hps
        exact hnot (hnil ▸ hin)
      rw [layoutsOf_of_no_sets ea chainID ccMD pol hsets]
      rfl
  refine ⟨hchan, halive, hpeers, hiff, ?_⟩
  intro hne
  exact hiff.mpr (fun hin => hne [] hin rfl)

/-- Witness of the amended C17: scenario S6 with the policy two-of-orgA. -/
theorem PeersForEndorsement_no_peer_with_chaincode_witness :
    (∀ member ∈ (sampleAnalyzerVersionTwo [[sampleOrgA, sampleOrgA]]).PeersOfChannel "ch",
      peersWithChaincode { Name := "cc", Version := "2" } member = false) ∧
    (∀ ps ∈ ({ SatisfiedBy := [[sampleOrgA, sampleOrgA]] } : InquireablePolicy).SatisfiedBy,
      ps ≠ []) ∧
    PeersForEndorsement (sampleAnalyzerVersionTwo [[sampleOrgA, sampleOrgA]]) "ch"
      sampleInterest = some (none, some "cannot satisfy any principal combination") :=
  ⟨by decide, by decide,
    (PeersForEndorsement_no_peer_with_chaincode
      (sampleAnalyzerVersionTwo [[sampleOrgA, sampleOrgA]]) "ch" sampleInterest
      { Name := "cc", CollectionNames := [] } [] { Name := "cc", Version := "2" }
      { SatisfiedBy := [[sampleOrgA, sampleOrgA]] } rfl rfl rfl (by decide)).2.2.2.2
      (by decide)⟩

/-! ## The length of the chaincode list -/

theorem PeersForEndorsement_first (ea : endorsementAnalyzer) (chainID : String)
    (interest : ChaincodeInterest) (chaincode : ChaincodeCall) (rest : List ChaincodeCall)
    (hcc : interest.Chaincodes = chaincode :: rest) :
    PeersForEndorsement ea chainID interest =
      PeersForEndorsement ea chainID { Chaincodes := [chaincode] } := by
  unfold PeersForEndorsement
  rw [hcc]

/-- C19 as stated fails: the sample analyzer accepts an interest with two chaincodes and
returns the descriptor of the first one. -/
theorem chaincode_list_length_counterexample :
    sampleInterestTwo.Chaincodes.length ≠ 1 ∧
    PeersForEndorsement (sampleAnalyzer [[sampleOrgA, sampleOrgA]]) "ch" sampleInterestTwo =
      some (some sampleDescriptor, none) := by
  constructor
  · decide
  · decide

/-- C19, amended: `PeersForEndorsement` does not look at the length of the chaincode list.
For every interest with at least one chaincode it returns what it returns for the interest
that holds the first chaincode alone, so a longer list is rejected only when the first
chaincode alone is: the error is then one of the three that the first chaincode can cause,
and a descriptor carries the name of the first chaincode. -/
theorem PeersForEndorsement_ignores_list_length (ea : endorsementAnalyzer) (chainID : String)
    (interest : ChaincodeInterest) (chaincode : ChaincodeCall) (rest : List ChaincodeCall)
    (hcc : interest.Chaincodes = chaincode :: rest) :
    PeersForEndorsement ea chainID interest =
      PeersForEndorsement ea chainID { Chaincodes := [chaincode] } ∧
    (∀ msg : String, PeersForEndorsement ea chainID interest = some (none, some msg) →
      msg = "No metadata was found for chaincode " ++ chaincode.Name ++ " in channel " ++
          chainID ∨
      msg = "policy not found" ∨
      msg = "cannot satisfy any principal combination") ∧
    (∀ (descriptor : EndorsementDescriptor) (err : Option String),
      PeersForEndorsement ea chainID interest = some (some descriptor, err) →
      descriptor.Chaincode = chaincode.Name ∧ err = none) := by
  refine ⟨PeersForEndorsement_first ea chainID interest chaincode rest hcc, ?_, ?_⟩
  · intro msg h
    cases hmd : ea.Metadata chainID chaincode.Name with
    | none =>
      simp only [PeersForEndorsement, hcc, hmd, Option.some.injEq, Prod.mk.injEq,
        true_and] at h
      exact Or.inl h.symm
    | some ccMD =>
      cases hpol : ea.PolicyByChaincode chainID chaincode.Name with
      | none =>
        simp only [PeersForEndorsement, hcc, hmd, hpol, Option.some.injEq, Prod.mk.injEq,
          true_and] at h
        exact Or.inr (Or.inl h.symm)
      | some pol =>
        rw [PeersForEndorsement_eq ea chainID interest chaincode rest ccMD pol hcc hmd hpol] at h
        by_cases hl : (layoutsOf ea chainID ccMD pol).length = 0
        · simp only [hl, if_true, Option.some.injEq, Prod.mk.injEq, true_and] at h
          exact Or.inr (Or.inr h.symm)
        · simp [hl] at h
  · intro descriptor err h
    obtain ⟨chaincode2, rest2, ccMD, pol, hcc2, _, _, _, herr, hd⟩ :=
      PeersForEndorsement_descriptor ea chainID interest descriptor err h
    rw [hcc] at hcc2
    injection hcc2 with h1 _
    subst h1
    exact ⟨by rw [hd]; rfl, herr⟩

/-- Witness of the amended C19: the interest with two chaincodes on the sample analyzer. -/
theorem PeersForEndorsement_ignores_list_length_witness :
    sampleInterestTwo.Chaincodes =
      { Name := "cc", CollectionNames := [] } :: [{ Name := "other", CollectionNames := [] }] ∧
    PeersForEndorsement (sampleAnalyzer [[sampleOrgA, sampleOrgA]]) "ch" sampleInterestTwo =
      PeersForEndorsement (sampleAnalyzer [[sampleOrgA, sampleOrgA]]) "ch"
        { Chaincodes := [{ Name := "cc", CollectionNames := [] }] } :=
  ⟨rfl,
    (PeersForEndorsement_ignores_list_length (sampleAnalyzer [[sampleOrgA, sampleOrgA]]) "ch"
      sampleInterestTwo { Name := "cc", CollectionNames := [] }
      [{ Name := "other", CollectionNames := [] }] rfl).1⟩

/-! ## The written order is the analyzer -/

theorem computeLayoutsLoopIn_written (satGraph : principalPeerGraph)
    (sets : List PrincipalSet) : ∀ (i : Nat) (acc : List Layout) (pg : principalGroupMapper),
      computeLayoutsLoopIn IterationOrder.written satGraph i sets acc pg =
        computeLayoutsLoop satGraph sets acc pg := by
  induction sets with
  | nil => intro i acc pg; rfl
  | cons ps rest ih =>
    intro i acc pg
    simp only [computeLayoutsLoopIn, computeLayoutsLoop, ih]
    rfl

theorem groupsSetLoopIn_written (l : List Layout) : ∀ (i : Nat) (m : GoMap String Unit),
    groupsSetLoopIn IterationOrder.written i l m =
      l.foldl (fun m layout =>
        layout.QuantitiesByGroup.foldl (fun m entry => GoMap.insert m entry.1 ()) m) m := by
  induction l with
  | nil => intro i m; rfl
  | cons layout rest ih =>
    intro i m
    simp only [groupsSetLoopIn, List.foldl_cons, ih]
    rfl

theorem PeersForEndorsementIn_written (ea : endorsementAnalyzer) (chainID : String)
    (interest : ChaincodeInterest) :
    PeersForEndorsementIn IterationOrder.written ea chainID interest =
      PeersForEndorsement ea chainID interest := by
  have hg : ∀ l, groupsSetIn IterationOrder.written l = groupsSet l :=
    fun l => groupsSetLoopIn_written l 0 []
  have he : ∀ c, endorsersByGroupIn IterationOrder.written c = endorsersByGroup c := by
    intro c
    simp only [endorsersByGroupIn, endorsersByGroup, hg]
    rfl
  have hc : ∀ sets pg g, computeLayoutsIn IterationOrder.written sets pg g =
      computeLayouts sets pg g :=
    fun sets pg g => computeLayoutsLoopIn_written g sets 0 [] pg
  unfold PeersForEndorsementIn PeersForEndorsement
  simp only [hc, he]
  rfl

/-! ## Maps under another iteration order -/

theorem GoMap.lookup_perm {κ ν : Type} [DecidableEq κ] (m other : GoMap κ ν)
    (hperm : other.Perm m) (hnd : (GoMap.keys m).Nodup) (k : κ) :
    GoMap.lookup other k = GoMap.lookup m k := by
  have hkeys : (GoMap.keys other).Perm (GoMap.keys m) := hperm.map _
  cases hl : GoMap.lookup m k with
  | none =>
    rw [GoMap.lookup_eq_none_iff] at hl ⊢
    exact fun hin => hl (hkeys.mem_iff.mp hin)
  | some v =>
    exact GoMap.lookup_of_mem other k v (hkeys.nodup_iff.mpr hnd)
      (hperm.mem_iff.mpr (GoMap.mem_of_lookup m k v hl))

theorem computeIdentitiesOfMembers_fold (identitiesByPKIID : GoMap String String)
    (members : GoMap String NetworkMember) (hm : ∀ e ∈ members, e.2.PKIid = e.1)
    (k : String) : ∀ acc : GoMap String String,
      GoMap.lookup (members.foldl (fun identitiesOfMembers entry =>
        match GoMap.lookup identitiesByPKIID entry.2.PKIid with
        | some identity => GoMap.insert identitiesOfMembers entry.2.PKIid identity
        | none => identitiesOfMembers) acc) k =
      if k ∈ GoMap.keys members ∧ (GoMap.lookup identitiesByPKIID k).isSome = true then
        GoMap.lookup identitiesByPKIID k
      else GoMap.lookup acc k := by
  induction members with
  | nil => intro acc; simp [GoMap.keys]
  | cons e rest ih =>
    intro acc
    have he : e.2.PKIid = e.1 := hm e (List.mem_cons_self _ _)
    have hrest : ∀ x ∈ rest, x.2.PKIid = x.1 := fun x hx => hm x (List.mem_cons_of_mem _ hx)
    rw [List.foldl_cons, ih hrest]
    by_cases hk : e.1 = k
    · subst hk
      cases hl : GoMap.lookup identitiesByPKIID e.1 with
      | none => simp [he, hl]
      | some identity =>
        simp only [he, hl, Option.isSome_some, and_true, GoMap.keys, List.map_cons,
          List.mem_cons, true_or, if_true]
        by_cases hin : e.1 ∈ List.map Prod.fst rest
        · simp [hin]
        · simp [hin, GoMap.lookup_insert_self]
    · have hk2 : ¬ k = e.1 := fun c => hk c.symm
      have hacc : GoMap.lookup (match GoMap.lookup identitiesByPKIID e.2.PKIid with
          | some identity => GoMap.insert acc e.2.PKIid identity
          | none => acc) k = GoMap.lookup acc k := by
        cases hl : GoMap.lookup identitiesByPKIID e.2.PKIid with
        | none => rfl
        | some identity =>
          simp only
          rw [he]
          exact GoMap.lookup_insert_ne acc e.1 k identity hk2
      rw [hacc]
      simp only [GoMap.keys, List.map_cons, List.mem_cons, hk2, false_or]

theorem computeIdentitiesOfMembers_perm (identitySet : PeerIdentitySet)
    (members other : GoMap String NetworkMember) (hperm : other.Perm members)
    (hm : ∀ e ∈ members, e.2.PKIid = e.1) (k : String) :
    GoMap.lookup (computeIdentitiesOfMembers identitySet other) k =
      GoMap.lookup (computeIdentitiesOfMembers identitySet members) k := by
  have ho : ∀ e ∈ other, e.2.PKIid = e.1 := fun e he => hm e (hperm.mem_iff.mp he)
  unfold computeIdentitiesOfMembers
  simp only
  rw [computeIdentitiesOfMembers_fold _ other ho k [],
    computeIdentitiesOfMembers_fold _ members hm k []]
  have hkeys : k ∈ GoMap.keys other ↔ k ∈ GoMap.keys members :=
    (hperm.map Prod.fst).mem_iff
  simp only [hkeys]

theorem mspIDsOfMembers_perm (members other : GoMap String NetworkMember)
    (hperm : other.Perm members) (identitiesByID : GoMap String PeerIdentityInfo)
    (org : String) :
    GoMap.contains (mspIDsOfMembers other identitiesByID) org =
      GoMap.contains (mspIDsOfMembers members identitiesByID) org := by
  have hkeys : ∀ k, k ∈ GoMap.keys other ↔ k ∈ GoMap.keys members :=
    fun k => (hperm.map Prod.fst).mem_iff
  have hiff : GoMap.contains (mspIDsOfMembers other identitiesByID) org = true ↔
      GoMap.contains (mspIDsOfMembers members identitiesByID) org = true := by
    rw [mspIDsOfMembers_contains, mspIDsOfMembers_contains]
    constructor
    · rintro ⟨pkiID, hk, rest⟩
      exact ⟨pkiID, (hkeys pkiID).mp hk, rest⟩
    · rintro ⟨pkiID, hk, rest⟩
      exact ⟨pkiID, (hkeys pkiID).mpr hk, rest⟩
  exact Bool.eq_iff_iff.mpr hiff

/-! ## The mapper and the graph under another iteration order -/

theorem totalPrincipalsOf_keys (sets : List PrincipalSet) (k : principalKey) :
    k ∈ GoMap.keys (totalPrincipalsOf sets) ↔ ∃ ps ∈ sets, ∃ p ∈ ps, k = keyOf p := by
  unfold totalPrincipalsOf
  rw [GoMap.mem_keys_foldl _ (fun (principalSet : PrincipalSet) k =>
    ∃ q ∈ principalSet, k = keyOf q)]
  · simp [GoMap.keys]
  · intro m principalSet k
    rw [GoMap.mem_keys_foldl _ (fun (q : MSPPrincipal) k => k = keyOf q)]
    intro m q k
    rw [GoMap.mem_keys_insert]
    exact or_comm

theorem totalPrincipalsOf_nodup (sets : List PrincipalSet) :
    (GoMap.keys (totalPrincipalsOf sets)).Nodup := by
  unfold totalPrincipalsOf
  refine GoMap.nodup_keys_foldl _ ?_ sets [] List.nodup_nil
  intro m ps h
  exact GoMap.nodup_keys_foldl _ (fun m _ h => GoMap.nodup_keys_insert m _ _ h) ps m h

theorem keys_groupAll (ks : List principalKey) :
    ∀ (mapper : principalGroupMapper) (k : principalKey),
      k ∈ GoMap.keys (groupAll ks mapper) ↔ k ∈ GoMap.keys mapper ∨ k ∈ ks := by
  induction ks with
  | nil => intro mapper k; simp [groupAll]
  | cons a rest ih =>
    intro mapper k
    show k ∈ GoMap.keys (groupAll rest (group mapper a).2) ↔ _
    rw [ih]
    have hstep : k ∈ GoMap.keys (group mapper a).2 ↔ k ∈ GoMap.keys mapper ∨ k = a := by
      cases hl : GoMap.lookup mapper a with
      | some g =>
        rw [group_of_some mapper a g hl]
        constructor
        · exact Or.inl
        · rintro (h | h)
          · exact h
          · rw [h]
            exact GoMap.mem_keys_of_mem _ _ _ (GoMap.mem_of_lookup _ _ _ hl)
      | none =>
        rw [group_of_none mapper a hl]
        simp [GoMap.keys]
    rw [hstep]
    simp only [List.mem_cons]
    tauto

theorem mapPrincipalsToGroupsIn_spec (o : IterationOrder) (ho : o.Valid)
    (sets : List PrincipalSet) :
    Reachable (mapPrincipalsToGroupsIn o sets) ∧
    ∀ k : principalKey, k ∈ GoMap.keys (mapPrincipalsToGroupsIn o sets) ↔
      ∃ ps ∈ sets, ∃ p ∈ ps, k = keyOf p := by
  have heq : mapPrincipalsToGroupsIn o sets =
      groupAll (GoMap.keys (o.totalPrincipals (totalPrincipalsOf sets))) [] := by
    simp only [mapPrincipalsToGroupsIn, groupAll, GoMap.keys, List.foldl_map]
  rw [heq]
  refine ⟨groupAll_reachable _ [] Reachable.empty, ?_⟩
  intro k
  rw [keys_groupAll, ← totalPrincipalsOf_keys]
  have hperm : (GoMap.keys (o.totalPrincipals (totalPrincipalsOf sets))).Perm
      (GoMap.keys (totalPrincipalsOf sets)) := (ho.1 _).map _
  rw [hperm.mem_iff]
  simp [GoMap.keys]

theorem connectPeers_neighbors_congr (sat : peerPrincipalEvaluator) (peers : List PeerVertex) :
    ∀ pv other : PrincipalVertex, pv.Data = other.Data → pv.neighbors = other.neighbors →
      (connectPeers sat peers pv).1.neighbors = (connectPeers sat peers other).1.neighbors := by
  induction peers with
  | nil => intro pv other _ hn; exact hn
  | cons p rest ih =>
    intro pv other hd hn
    cases hs : sat p.Data pv.Data with
    | true =>
      have hs2 : sat p.Data other.Data = true := hd ▸ hs
      simp only [connectPeers, hs, hs2, if_true]
      apply ih
      · exact hd
      · simp [Vertex.AddNeighbor, hn]
    | false =>
      have hs2 : sat p.Data other.Data = false := hd ▸ hs
      simp only [connectPeers, hs, hs2, Bool.false_eq_true, if_false]
      exact ih _ _ hd hn

theorem principalsToPeersGraphIn_vertices (o : IterationOrder) (data : principalAndPeerData)
    (sat : peerPrincipalEvaluator) :
    (principalsToPeersGraphIn o data sat).principalVertices =
      (o.principalVertices ((o.pGrps data.pGrps).foldl (fun acc entry =>
        GoMap.insert acc entry.2 (NewVertex entry.2 entry.1.toPrincipal))
          ([] : GoMap String PrincipalVertex))).map
        (fun e => (e.1, (connectPeers sat
          (data.members.map (fun member => NewVertex member.PKIid member)) e.2).1)) := by
  simp only [principalsToPeersGraphIn]
  rw [connectPrincipals_fst]

theorem principalsToPeersGraphIn_keys (o : IterationOrder) (ho : o.Valid)
    (data : principalAndPeerData) (sat : peerPrincipalEvaluator) :
    (GoMap.keys (principalsToPeersGraphIn o data sat).principalVertices).Nodup ∧
    ∀ grp : String, grp ∈ GoMap.keys (principalsToPeersGraphIn o data sat).principalVertices ↔
      ∃ key, (key, grp) ∈ data.pGrps := by
  rw [principalsToPeersGraphIn_vertices]
  have hfst : (Prod.fst ∘ fun (e : String × PrincipalVertex) => (e.1, (connectPeers sat
      (data.members.map (fun member => NewVertex member.PKIid member)) e.2).1)) = Prod.fst := by
    funext e; rfl
  simp only [GoMap.keys, List.map_map, hfst]
  have hperm := (ho.2.2.1 ((o.pGrps data.pGrps).foldl (fun acc entry =>
        GoMap.insert acc entry.2 (NewVertex entry.2 entry.1.toPrincipal))
          ([] : GoMap String PrincipalVertex))).map Prod.fst
  constructor
  · rw [hperm.nodup_iff]
    exact GoMap.nodup_keys_foldl _ (fun m e h => GoMap.nodup_keys_insert m _ _ h) _ []
      List.nodup_nil
  · intro grp
    rw [hperm.mem_iff]
    have h := GoMap.mem_keys_foldl
      (fun (acc : GoMap String PrincipalVertex) (entry : principalKey × String) =>
        GoMap.insert acc entry.2 (NewVertex entry.2 entry.1.toPrincipal))
      (fun entry g => g = entry.2)
      (fun m e k => by rw [GoMap.mem_keys_insert]; exact or_comm) (o.pGrps data.pGrps) [] grp
    simp only [GoMap.keys] at h
    rw [h]
    simp only [List.map_nil, List.not_mem_nil, false_or]
    constructor
    · rintro ⟨e, he, rfl⟩
      exact ⟨e.1, (ho.2.1 _).mem_iff.mp he⟩
    · rintro ⟨key, hk⟩
      exact ⟨(key, grp), (ho.2.1 _).mem_iff.mpr hk, rfl⟩

theorem principalsToPeersGraphIn_lookup (o : IterationOrder) (ho : o.Valid)
    (data : principalAndPeerData) (sat : peerPrincipalEvaluator)
    (hwf : mapperWF data.pGrps) (key : principalKey) (grp : String)
    (hkg : (key, grp) ∈ data.pGrps) :
    ∃ vertex : PrincipalVertex,
      GoMap.lookup (principalsToPeersGraphIn o data sat).principalVertices grp = some vertex ∧
      vertex.Neighbors = neighborsOf sat data.members key.toPrincipal := by
  obtain ⟨hnd, hkeys⟩ := principalsToPeersGraphIn_keys o ho data sat
  have hc := (GoMap.contains_iff _ grp).mpr ((hkeys grp).mpr ⟨key, hkg⟩)
  unfold GoMap.contains at hc
  obtain ⟨vertex, hl⟩ := Option.isSome_iff_exists.mp hc
  refine ⟨vertex, hl, ?_⟩
  have hv := GoMap.mem_of_lookup _ _ _ hl
  rw [principalsToPeersGraphIn_vertices] at hv
  obtain ⟨e0, he0, heq⟩ := List.mem_map.mp hv
  have he1 := (ho.2.2.1 _).mem_iff.mp he0
  have hinit := GoMap.mem_foldl
    (fun (acc : GoMap String PrincipalVertex) (entry : principalKey × String) =>
      GoMap.insert acc entry.2 (NewVertex entry.2 entry.1.toPrincipal))
    (fun entry e => e = (entry.2, NewVertex entry.2 entry.1.toPrincipal))
    (fun m x e h => (GoMap.mem_insert m _ _ e h).symm) (o.pGrps data.pGrps) [] e0 he1
  rcases hinit with hnil | ⟨x, hx, hxe⟩
  · simp at hnil
  · subst hxe
    have hx2 : x ∈ data.pGrps := (ho.2.1 _).mem_iff.mp hx
    simp only [Prod.mk.injEq] at heq
    obtain ⟨hg, hvert⟩ := heq
    have hx3 : (x.1, grp) ∈ data.pGrps := by rw [← hg]; exact hx2
    have hsame : x.1 = key := mapperWF_injective data.pGrps hwf x.1 key grp
      (GoMap.lookup_of_mem _ _ _ hwf.1 hx3) (GoMap.lookup_of_mem _ _ _ hwf.1 hkg)
    rw [← hvert, ← hsame]
    unfold neighborsOf Vertex.Neighbors
    rw [connectPeers_neighbors_congr sat _ (NewVertex x.2 x.1.toPrincipal)
      (NewVertex "" x.1.toPrincipal) rfl rfl]

/-! ## The layouts under another iteration order -/

theorem fillLayout_of_present (hist : GoMap MSPPrincipal Nat) (pg : principalGroupMapper)
    (hwf : mapperWF pg) (hnd : (GoMap.keys hist).Nodup)
    (hhas : ∀ e ∈ hist, ∃ g, GoMap.lookup pg (keyOf e.1) = some g) :
    fillLayout hist { QuantitiesByGroup := [] } pg =
      ({ QuantitiesByGroup := hist.map (fun e => (aliasIn pg e.1, e.2 % 2 ^ 32)) }, pg) := by
  have hsnd : groupAll (hist.map (fun e => keyOf e.1)) pg = pg := by
    apply groupAll_of_present
    intro k hk
    obtain ⟨e, he, rfl⟩ := List.mem_map.mp hk
    exact hhas e he
  have h2 : (fillLayout hist { QuantitiesByGroup := [] } pg).2 = pg := by
    rw [fillLayout_snd, hsnd]
  have h1 : (fillLayout hist { QuantitiesByGroup := [] } pg).1.QuantitiesByGroup =
      hist.map (fun e => (aliasIn pg e.1, e.2 % 2 ^ 32)) := by
    rw [fillLayout_fst pg hist _ pg (by rw [hsnd]; exact fun _ _ h => h)]
    rw [GoMap.foldl_insert_fresh (fun (e : MSPPrincipal × Nat) => aliasIn pg e.1)
      (fun e => e.2 % 2 ^ 32)]
    · simp
    · have hl : hist.Nodup := List.Nodup.of_map _ hnd
      refine List.Nodup.map_on ?_ hl
      intro x hx y hy hxy
      obtain ⟨gx, hgx⟩ := hhas x hx
      obtain ⟨gy, hgy⟩ := hhas y hy
      have hk : x.1 = y.1 := aliasIn_injective pg hwf x.1 y.1 (by rw [hgx]; rfl)
        (by rw [hgy]; rfl) hxy
      have hlx := GoMap.lookup_of_mem _ x.1 x.2 hnd hx
      have hly := GoMap.lookup_of_mem _ y.1 y.2 hnd hy
      rw [hk, hly] at hlx
      injection hlx with hlx
      exact Prod.ext hk hlx.symm
    · intro x _
      simp [GoMap.keys]
  have h1b : (fillLayout hist { QuantitiesByGroup := [] } pg).1 =
      { QuantitiesByGroup := hist.map (fun e => (aliasIn pg e.1, e.2 % 2 ^ 32)) } := by
    cases hf : (fillLayout hist { QuantitiesByGroup := [] } pg).1 with
    | mk q =>
      rw [hf] at h1
      simp only at h1
      rw [h1]
  exact Prod.ext h1b h2

theorem layoutFor_of_histogram (ps : PrincipalSet) (pg : principalGroupMapper)
    (hwf : mapperWF pg) (hhas : ∀ p ∈ ps, ∃ g, GoMap.lookup pg (keyOf p) = some g)
    (hist : GoMap MSPPrincipal Nat) (hperm : hist.Perm (UniqueSet ps)) :
    layoutFor pg ps { QuantitiesByGroup := hist.map (fun e => (aliasIn pg e.1, e.2 % 2 ^ 32)) }
    := by
  have hmem : ∀ e, e ∈ hist ↔ e.1 ∈ ps ∧ e.2 = ps.count e.1 := by
    intro e
    rw [hperm.mem_iff]
    exact UniqueSet_mem ps e.1 e.2
  have hnd : (GoMap.keys hist).Nodup :=
    ((hperm.map Prod.fst).nodup_iff).mpr (UniqueSet_nodup ps)
  constructor
  · simp only [GoMap.keys, List.map_map]
    have hl : hist.Nodup := List.Nodup.of_map _ hnd
    refine List.Nodup.map_on ?_ hl
    intro x hx y hy hxy
    obtain ⟨gx, hgx⟩ := hhas x.1 ((hmem x).mp hx).1
    obtain ⟨gy, hgy⟩ := hhas y.1 ((hmem y).mp hy).1
    have hk : x.1 = y.1 := aliasIn_injective pg hwf x.1 y.1 (by rw [hgx]; rfl)
      (by rw [hgy]; rfl) hxy
    exact Prod.ext hk (by rw [((hmem x).mp hx).2, ((hmem y).mp hy).2, hk])
  · intro grp quantity
    simp only [List.mem_map, Prod.mk.injEq]
    constructor
    · rintro ⟨e, he, h1, h2⟩
      obtain ⟨hp, hc⟩ := (hmem e).mp he
      exact ⟨e.1, hp, h1, by rw [← h2, hc]⟩
    · rintro ⟨p, hp, h1, h2⟩
      exact ⟨(p, ps.count p), (hmem _).mpr ⟨hp, rfl⟩, h1, h2.symm⟩

theorem isLayoutSatisfied_of_all (layout : GoMap String Nat) (satGraph : principalPeerGraph)
    (h : ∀ grp plurality, (grp, plurality) ∈ layout →
      ∃ vertex, GoMap.lookup satGraph.principalVertices grp = some vertex ∧
        plurality ≤ vertex.Neighbors.length) :
    isLayoutSatisfied layout satGraph = some true := by
  induction layout with
  | nil => rfl
  | cons e rest ih =>
    obtain ⟨g, q⟩ := e
    obtain ⟨vertex, hl, hle⟩ := h g q (List.mem_cons_self _ _)
    have hlt : ¬ vertex.Neighbors.length < q := by omega
    simp only [isLayoutSatisfied, hl, hlt, if_false]
    exact ih (fun grp plurality hm => h grp plurality (List.mem_cons_of_mem _ hm))

theorem isLayoutSatisfied_graphFor (sat : peerPrincipalEvaluator) (members : Members)
    (pg : principalGroupMapper) (satGraph : principalPeerGraph)
    (hgraph : graphFor sat members pg satGraph)
    (ps : PrincipalSet) (hhas : ∀ p ∈ ps, ∃ g, GoMap.lookup pg (keyOf p) = some g)
    (layout : Layout) (hlay : layoutFor pg ps layout)
    (entries : GoMap String Nat) (hperm : entries.Perm layout.QuantitiesByGroup) :
    isLayoutSatisfied entries satGraph = some (setFeasible sat members ps) := by
  have hvertex : ∀ p ∈ ps, ∃ vertex,
      GoMap.lookup satGraph.principalVertices (aliasIn pg p) = some vertex ∧
      vertex.Neighbors = neighborsOf sat members p := by
    intro p hp
    obtain ⟨g, hg⟩ := hhas p hp
    have ha : aliasIn pg p = g := by simp [aliasIn, hg]
    rw [ha]
    exact hgraph.2.2 (keyOf p) g (GoMap.mem_of_lookup _ _ _ hg)
  cases hb : setFeasible sat members ps with
  | true =>
    apply isLayoutSatisfied_of_all
    intro grp plurality hm
    obtain ⟨p, hp, ha, hq⟩ := (hlay.2 grp plurality).mp (hperm.mem_iff.mp hm)
    obtain ⟨vertex, hl, hn⟩ := hvertex p hp
    refine ⟨vertex, by rw [← ha]; exact hl, ?_⟩
    simp only [setFeasible, List.all_eq_true, decide_eq_true_eq] at hb
    rw [hn, hq]
    exact hb p hp
  | false =>
    have hsome : (isLayoutSatisfied entries satGraph).isSome = true := by
      apply isLayoutSatisfied_isSome
      intro grp hg
      obtain ⟨e, he, rfl⟩ := List.mem_map.mp hg
      obtain ⟨p, hp, ha, _⟩ := (hlay.2 e.1 e.2).mp (hperm.mem_iff.mp he)
      obtain ⟨vertex, hl, _⟩ := hvertex p hp
      rw [GoMap.contains, ← ha, hl]
      rfl
    obtain ⟨b, hbv⟩ := Option.isSome_iff_exists.mp hsome
    rw [hbv]
    cases b with
    | false => rfl
    | true =>
      exfalso
      have hall := isLayoutSatisfied_true entries satGraph hbv
      have : setFeasible sat members ps = true := by
        simp only [setFeasible, List.all_eq_true, decide_eq_true_eq]
        intro p hp
        have hm : (aliasIn pg p, ps.count p % 2 ^ 32) ∈ entries :=
          hperm.mem_iff.mpr ((hlay.2 _ _).mpr ⟨p, hp, rfl, rfl⟩)
        obtain ⟨vertex, hl, hle⟩ := hall _ _ hm
        obtain ⟨vertex2, hl2, hn⟩ := hvertex p hp
        rw [hl] at hl2
        injection hl2 with hl2
        rw [← hn, ← hl2]
        exact hle
      rw [hb] at this
      cases this

theorem computeLayoutsLoopIn_spec (o : IterationOrder) (ho : o.Valid)
    (sat : peerPrincipalEvaluator) (members : Members) (pg : principalGroupMapper)
    (satGraph : principalPeerGraph) (hgraph : graphFor sat members pg satGraph)
    (hwf : mapperWF pg) (sets : List PrincipalSet) :
    (∀ ps ∈ sets, ∀ p ∈ ps, ∃ g, GoMap.lookup pg (keyOf p) = some g) →
    ∀ (i : Nat) (acc : List Layout),
      ∃ ls : List Layout,
        computeLayoutsLoopIn o satGraph i sets acc pg = some (acc ++ ls, pg) ∧
        List.Forall₂ (layoutFor pg) (sets.filter (setFeasible sat members)) ls := by
  induction sets with
  | nil =>
    intro _ i acc
    exact ⟨[], by simp [computeLayoutsLoopIn], List.Forall₂.nil⟩
  | cons ps rest ih =>
    intro hhas i acc
    have hps := hhas ps (List.mem_cons_self _ _)
    have hrest : ∀ q ∈ rest, ∀ p ∈ q, ∃ g, GoMap.lookup pg (keyOf p) = some g :=
      fun q hq => hhas q (List.mem_cons_of_mem _ hq)
    have hperm := ho.2.2.2.1 i (UniqueSet ps)
    have hnd : (GoMap.keys (o.uniqueSet i (UniqueSet ps))).Nodup :=
      ((hperm.map Prod.fst).nodup_iff).mpr (UniqueSet_nodup ps)
    have hfill := fillLayout_of_present (o.uniqueSet i (UniqueSet ps)) pg hwf hnd (by
      intro e he
      exact hps e.1 ((UniqueSet_mem ps e.1 e.2).mp (hperm.mem_iff.mp he)).1)
    have hlay := layoutFor_of_histogram ps pg hwf hps _ hperm
    have hsat := isLayoutSatisfied_graphFor sat members pg satGraph hgraph ps hps _ hlay
      (o.layoutEntries i _) (ho.2.2.2.2.1 i _)
    simp only [computeLayoutsLoopIn, hfill, hsat, List.filter_cons]
    cases hb : setFeasible sat members ps with
    | true =>
      obtain ⟨ls, hrun, hall⟩ := ih hrest (i + 1)
        (acc ++ [{ QuantitiesByGroup :=
          (o.uniqueSet i (UniqueSet ps)).map (fun e => (aliasIn pg e.1, e.2 % 2 ^ 32)) }])
      refine ⟨_ :: ls, ?_, List.Forall₂.cons hlay hall⟩
      simp only [hrun, List.append_assoc, List.singleton_append]
    | false =>
      obtain ⟨ls, hrun, hall⟩ := ih hrest (i + 1) acc
      exact ⟨ls, by simp only [hrun], by simpa using hall⟩

/-! ## The endorsers under another iteration order -/

theorem groupsSetLoopIn_keys (o : IterationOrder) (ho : o.Valid) (l : List Layout) :
    ∀ (i : Nat) (m : GoMap String Unit) (k : String),
      k ∈ GoMap.keys (groupsSetLoopIn o i l m) ↔
        k ∈ GoMap.keys m ∨ ∃ layout ∈ l, k ∈ GoMap.keys layout.QuantitiesByGroup := by
  induction l with
  | nil => intro i m k; simp [groupsSetLoopIn]
  | cons layout rest ih =>
    intro i m k
    simp only [groupsSetLoopIn]
    rw [ih, GoMap.mem_keys_foldl _ (fun (e : String × Nat) g => g = e.1)
      (fun m e k => by rw [GoMap.mem_keys_insert]; exact or_comm)]
    have hperm := (ho.2.2.2.2.2.1 i layout.QuantitiesByGroup).map Prod.fst
    have hk : (∃ e ∈ o.quantities i layout.QuantitiesByGroup, k = e.1) ↔
        k ∈ GoMap.keys layout.QuantitiesByGroup := by
      unfold GoMap.keys
      rw [← hperm.mem_iff]
      simp only [List.mem_map]
      constructor
      · rintro ⟨e, he, rfl⟩
        exact ⟨e, he, rfl⟩
      · rintro ⟨e, he, rfl⟩
        exact ⟨e, he, rfl⟩
    rw [hk]
    simp only [List.mem_cons, exists_eq_or_imp]
    tauto

theorem groupsSetIn_contains (o : IterationOrder) (ho : o.Valid) (l : List Layout)
    (grp : String) :
    GoMap.contains (groupsSetIn o l) grp = true ↔
      ∃ layout ∈ l, grp ∈ GoMap.keys layout.QuantitiesByGroup := by
  rw [GoMap.contains_iff]
  unfold groupsSetIn
  rw [groupsSetLoopIn_keys o ho]
  simp [GoMap.keys]

theorem GoMap.lookup_foldl_keyed_skip {κ ν β : Type} [DecidableEq κ] (c : κ → Bool)
    (F : κ → β → ν) (l : GoMap κ β) : ∀ (acc : GoMap κ ν) (k : κ), k ∉ GoMap.keys l →
      GoMap.lookup (l.foldl (fun res e =>
        if c e.1 then GoMap.insert res e.1 (F e.1 e.2) else res) acc) k =
          GoMap.lookup acc k := by
  induction l with
  | nil => intro acc k _; rfl
  | cons e rest ih =>
    intro acc k hk
    simp only [GoMap.keys, List.map_cons, List.mem_cons, not_or] at hk
    rw [List.foldl_cons, ih _ k hk.2]
    by_cases hc : c e.1 = true
    · simp only [hc, if_true]
      exact GoMap.lookup_insert_ne acc e.1 k _ hk.1
    · simp [hc]

theorem GoMap.lookup_foldl_keyed {κ ν β : Type} [DecidableEq κ] (c : κ → Bool)
    (F : κ → β → ν) (l : GoMap κ β) : ∀ (acc : GoMap κ ν) (k : κ), (GoMap.keys l).Nodup →
      GoMap.lookup (l.foldl (fun res e =>
        if c e.1 then GoMap.insert res e.1 (F e.1 e.2) else res) acc) k =
        match GoMap.lookup l k with
        | some v => if c k = true then some (F k v) else GoMap.lookup acc k
        | none => GoMap.lookup acc k := by
  induction l with
  | nil => intro acc k _; rfl
  | cons e rest ih =>
    intro acc k hnd
    obtain ⟨k1, v1⟩ := e
    simp only [GoMap.keys, List.map_cons, List.nodup_cons] at hnd
    rw [List.foldl_cons]
    by_cases h1 : k1 = k
    · subst h1
      rw [GoMap.lookup_foldl_keyed_skip c F rest _ k1 hnd.1]
      simp only [GoMap.lookup, if_true]
      by_cases hc : c k1 = true
      · simp only [hc, if_true]
        exact GoMap.lookup_insert_self acc k1 _
      · simp [hc]
    · rw [ih _ k hnd.2]
      have hacc : GoMap.lookup (if c k1 = true then GoMap.insert acc k1 (F k1 v1) else acc) k =
          GoMap.lookup acc k := by
        by_cases hc : c k1 = true
        · simp only [hc, if_true]
          exact GoMap.lookup_insert_ne acc k1 k _ (fun c => h1 c.symm)
        · simp [hc]
      simp only [GoMap.lookup, h1, if_false]
      rw [hacc]

theorem endorsersByGroupIn_lookup (o : IterationOrder) (ho : o.Valid)
    (criteria : peerMembershipCriteria)
    (hnd : (GoMap.keys criteria.satGraph.principalVertices).Nodup) (grp : String) :
    GoMap.lookup (endorsersByGroupIn o criteria) grp =
      match GoMap.lookup criteria.satGraph.principalVertices grp with
      | some vertex =>
        if GoMap.contains (groupsSetIn o criteria.possibleLayouts) grp = true then
          some { Peers := (o.neighbors grp vertex.Neighbors).map (peerOf criteria) }
        else none
      | none => none := by
  have hperm := ho.2.2.2.2.2.2.1 criteria.satGraph.principalVertices
  have hnd2 : (GoMap.keys (o.endorsers criteria.satGraph.principalVertices)).Nodup :=
    ((hperm.map Prod.fst).nodup_iff).mpr hnd
  unfold endorsersByGroupIn
  have h := GoMap.lookup_foldl_keyed
    (fun g => GoMap.contains (groupsSetIn o criteria.possibleLayouts) g)
    (fun (g : String) (v : PrincipalVertex) =>
      ({ Peers := (o.neighbors g v.Neighbors).map (peerOf criteria) } : Peers))
    (o.endorsers criteria.satGraph.principalVertices) [] grp hnd2
  simp only at h ⊢
  rw [h, GoMap.lookup_perm _ _ hperm hnd grp]
  cases GoMap.lookup criteria.satGraph.principalVertices grp with
  | none => rfl
  | some vertex => rfl

/-! ## Renaming the aliases of one run into those of another -/

theorem mapperWF_find (pg : principalGroupMapper) (hwf : mapperWF pg) (k : principalKey)
    (g : String) (h : GoMap.lookup pg k = some g) :
    pg.find? (fun e => decide (e.2 = g)) = some (k, g) := by
  cases hf : pg.find? (fun e => decide (e.2 = g)) with
  | none =>
    rw [List.find?_eq_none] at hf
    have := hf (k, g) (GoMap.mem_of_lookup _ _ _ h)
    simp at this
  | some e =>
    have hmem : e ∈ pg := List.mem_of_find?_eq_some hf
    have hp : e.2 = g := by simpa using List.find?_some hf
    have hl : GoMap.lookup pg e.1 = some g := by
      rw [← hp]
      exact GoMap.lookup_of_mem pg e.1 e.2 hwf.1 hmem
    have hk : e.1 = k := mapperWF_injective pg hwf e.1 k g hl h
    rw [← hk, ← hp]

theorem mapperWF_find_none (pg : principalGroupMapper) (g : String)
    (h : g ∉ GoMap.values pg) : pg.find? (fun e => decide (e.2 = g)) = none := by
  rw [List.find?_eq_none]
  intro e he
  simp only [decide_eq_true_eq]
  intro hc
  exact h (List.mem_map.mpr ⟨e, he, hc⟩)

theorem mapperWF_values_eq (first second : principalGroupMapper) (h1 : mapperWF first)
    (h2 : mapperWF second)
    (hkeys : ∀ k, k ∈ GoMap.keys first ↔ k ∈ GoMap.keys second) :
    GoMap.values first = GoMap.values second := by
  have hperm : (GoMap.keys first).Perm (GoMap.keys second) :=
    (List.perm_ext_iff_of_nodup h1.1 h2.1).mpr hkeys
  have hlen : first.length = second.length := by
    have := hperm.length_eq
    simpa [GoMap.keys] using this
  rw [h1.2, h2.2, hlen]

theorem aliasBridge_alias (first second : principalGroupMapper) (h1 : mapperWF first)
    (k : principalKey) (g1 g2 : String) (hl1 : GoMap.lookup first k = some g1)
    (hl2 : GoMap.lookup second k = some g2) : aliasBridge first second g1 = g2 := by
  simp [aliasBridge, mapperWF_find first h1 k g1 hl1, hl2]

theorem aliasBridge_other (first second : principalGroupMapper) (g : String)
    (h : g ∉ GoMap.values first) : aliasBridge first second g = g := by
  simp [aliasBridge, mapperWF_find_none first g h]

theorem aliasBridge_inverse (first second : principalGroupMapper) (h1 : mapperWF first)
    (h2 : mapperWF second)
    (hkeys : ∀ k, k ∈ GoMap.keys first ↔ k ∈ GoMap.keys second) (g : String) :
    aliasBridge second first (aliasBridge first second g) = g := by
  by_cases hg : g ∈ GoMap.values first
  · obtain ⟨e, he, hsnd⟩ := List.mem_map.mp hg
    have hl1 : GoMap.lookup first e.1 = some g := by
      rw [← hsnd]
      exact GoMap.lookup_of_mem first e.1 e.2 h1.1 he
    have hk2 : e.1 ∈ GoMap.keys second := (hkeys e.1).mp (GoMap.mem_keys_of_mem _ _ _ he)
    have hc := (GoMap.contains_iff second e.1).mpr hk2
    unfold GoMap.contains at hc
    obtain ⟨g2, hl2⟩ := Option.isSome_iff_exists.mp hc
    rw [aliasBridge_alias first second h1 e.1 g g2 hl1 hl2]
    exact aliasBridge_alias second first h2 e.1 g2 g hl2 hl1
  · rw [aliasBridge_other first second g hg]
    apply aliasBridge_other
    rw [← mapperWF_values_eq first second h1 h2 hkeys]
    exact hg

theorem aliasBridge_bijective (first second : principalGroupMapper) (h1 : mapperWF first)
    (h2 : mapperWF second)
    (hkeys : ∀ k, k ∈ GoMap.keys first ↔ k ∈ GoMap.keys second) :
    Function.Bijective (aliasBridge first second) := by
  rw [Function.bijective_iff_has_inverse]
  exact ⟨aliasBridge second first,
    fun g => aliasBridge_inverse first second h1 h2 hkeys g,
    fun g => aliasBridge_inverse second first h2 h1 (fun k => (hkeys k).symm) g⟩

/-! ## One run under an iteration order -/

theorem forallTwo_mem_left {α β : Type} (R : α → β → Prop) (l1 : List α) (l2 : List β)
    (h : List.Forall₂ R l1 l2) (a : α) (ha : a ∈ l1) : ∃ b ∈ l2, R a b := by
  induction h with
  | nil => simp at ha
  | cons hr _ ih =>
    rcases List.mem_cons.mp ha with heq | hmem
    · subst heq
      exact ⟨_, List.mem_cons_self _ _, hr⟩
    · obtain ⟨b, hb, hrb⟩ := ih hmem
      exact ⟨b, List.mem_cons_of_mem _ hb, hrb⟩

theorem forallTwo_mem_right {α β : Type} (R : α → β → Prop) (l1 : List α) (l2 : List β)
    (h : List.Forall₂ R l1 l2) (b : β) (hb : b ∈ l2) : ∃ a ∈ l1, R a b := by
  induction h with
  | nil => simp at hb
  | cons hr _ ih =>
    rcases List.mem_cons.mp hb with heq | hmem
    · subst heq
      exact ⟨_, List.mem_cons_self _ _, hr⟩
    · obtain ⟨a, ha, hra⟩ := ih hmem
      exact ⟨a, List.mem_cons_of_mem _ ha, hra⟩

theorem forallTwo_join {α β γ : Type} (R : α → β → Prop) (S : α → γ → Prop)
    (T : β → γ → Prop) (l : List α) :
    ∀ (l1 : List β) (l2 : List γ), List.Forall₂ R l l1 → List.Forall₂ S l l2 →
      (∀ a ∈ l, ∀ b c, R a b → S a c → T b c) → List.Forall₂ T l1 l2 := by
  induction l with
  | nil =>
    intro l1 l2 h1 h2 _
    cases h1
    cases h2
    exact List.Forall₂.nil
  | cons a rest ih =>
    intro l1 l2 h1 h2 hT
    cases h1 with
    | cons hr hrest =>
      cases h2 with
      | cons hs hsrest =>
        exact List.Forall₂.cons (hT a (List.mem_cons_self _ _) _ _ hr hs)
          (ih _ _ hrest hsrest (fun x hx => hT x (List.mem_cons_of_mem _ hx)))

theorem identitiesIn_eq (o : IterationOrder) (ho : o.Valid) (ea : endorsementAnalyzer)
    (chainID : String) (ccMD : ChaincodeMetadata) :
    identityByPKIID (computeIdentitiesOfMembers ea.IdentityInfo
      (o.members (Members.ByID (aliveMembershipOf ea chainID ccMD)))) =
    identityByPKIID (identitiesOfMembersOf ea chainID ccMD) := by
  funext id
  unfold identityByPKIID identitiesOfMembersOf
  rw [computeIdentitiesOfMembers_perm ea.IdentityInfo _ _ (ho.2.2.2.2.2.2.2.2.1 _)
    (fun e he => ((Members.ByID_mem _ e he).2).symm) id]

theorem satisfiesPrincipalIn_eq (o : IterationOrder) (ho : o.Valid) (ea : endorsementAnalyzer)
    (chainID : String) (ccMD : ChaincodeMetadata) :
    satisfiesPrincipal ea chainID (computeIdentitiesOfMembers ea.IdentityInfo
      (o.members (Members.ByID (aliveMembershipOf ea chainID ccMD)))) =
    satisfiesPrincipal ea chainID (identitiesOfMembersOf ea chainID ccMD) := by
  funext member principal
  unfold satisfiesPrincipal
  rw [identitiesIn_eq o ho ea chainID ccMD]

theorem principalsSetsIn_eq (o : IterationOrder) (ho : o.Valid) (ea : endorsementAnalyzer)
    (chainID : String) (ccMD : ChaincodeMetadata) (pol : InquireablePolicy) :
    ContainingOnly pol.SatisfiedBy (mspFilter ea
      (mspIDsOfMembers (o.membersById (Members.ByID (aliveMembershipOf ea chainID ccMD)))
        (PeerIdentitySet.ByID ea.IdentityInfo))) =
    principalsSetsOf ea chainID ccMD pol := by
  unfold principalsSetsOf
  have hf : mspFilter ea
      (mspIDsOfMembers (o.membersById (Members.ByID (aliveMembershipOf ea chainID ccMD)))
        (PeerIdentitySet.ByID ea.IdentityInfo)) =
      mspFilter ea
      (mspIDsOfMembers (Members.ByID (aliveMembershipOf ea chainID ccMD))
        (PeerIdentitySet.ByID ea.IdentityInfo)) := by
    funext principal
    unfold mspFilter
    simp only
    rw [mspIDsOfMembers_perm _ _ (ho.2.2.2.2.2.2.2.2.2 _)]
  rw [hf]

theorem graphFor_In (o : IterationOrder) (ho : o.Valid) (sat : peerPrincipalEvaluator)
    (members : Members) (pg : principalGroupMapper) (hwf : mapperWF pg) :
    graphFor sat members pg
      (principalsToPeersGraphIn o { members := members, pGrps := pg } sat) := by
  obtain ⟨hnd, hkeys⟩ := principalsToPeersGraphIn_keys o ho
    { members := members, pGrps := pg } sat
  exact ⟨hnd, hkeys, fun key grp hkg =>
    principalsToPeersGraphIn_lookup o ho { members := members, pGrps := pg } sat hwf key grp hkg⟩

theorem endorsersFor_In (o : IterationOrder) (ho : o.Valid) (ea : endorsementAnalyzer)
    (chainID : String) (ccMD : ChaincodeMetadata) (pol : InquireablePolicy)
    (pg : principalGroupMapper)
    (hhas : ∀ ps ∈ principalsSetsOf ea chainID ccMD pol, ∀ p ∈ ps,
      ∃ g, GoMap.lookup pg (keyOf p) = some g)
    (satGraph : principalPeerGraph)
    (hgraph : graphFor (satisfiesPrincipal ea chainID (identitiesOfMembersOf ea chainID ccMD))
      (aliveMembershipOf ea chainID ccMD) pg satGraph)
    (layouts : List Layout)
    (hlay : List.Forall₂ (layoutFor pg) (feasibleSetsOf ea chainID ccMD pol) layouts) :
    endorsersFor ea chainID ccMD pol pg
      (endorsersByGroupIn o
        { possibleLayouts := layouts,
          satGraph := satGraph,
          chanMemberById := Members.ByID (chanMembershipOf ea chainID ccMD),
          idOfMembers := computeIdentitiesOfMembers ea.IdentityInfo
            (o.members (Members.ByID (aliveMembershipOf ea chainID ccMD))) }) := by
  have hrec : peerOf
      { possibleLayouts := layouts,
        satGraph := satGraph,
        chanMemberById := Members.ByID (chanMembershipOf ea chainID ccMD),
        idOfMembers := computeIdentitiesOfMembers ea.IdentityInfo
          (o.members (Members.ByID (aliveMembershipOf ea chainID ccMD))) } =
      recordOf ea chainID ccMD := by
    funext member
    unfold peerOf recordOf
    simp only
    rw [identitiesIn_eq o ho ea chainID ccMD]
  constructor
  · rintro p ⟨ps, hps, hp⟩
    have hps2 : ps ∈ principalsSetsOf ea chainID ccMD pol := (List.mem_filter.mp hps).1
    obtain ⟨g, hg⟩ := hhas ps hps2 p hp
    have ha : aliasIn pg p = g := by simp [aliasIn, hg]
    obtain ⟨vertex, hv, hn⟩ := hgraph.2.2 (keyOf p) g (GoMap.mem_of_lookup _ _ _ hg)
    obtain ⟨layout, hl, hfor⟩ := forallTwo_mem_left _ _ _ hlay ps hps
    have hentry : (g, ps.count p % 2 ^ 32) ∈ layout.QuantitiesByGroup :=
      (hfor.2 _ _).mpr ⟨p, hp, ha, rfl⟩
    have hin : GoMap.contains (groupsSetIn o layouts) g = true :=
      (groupsSetIn_contains o ho layouts g).mpr
        ⟨layout, hl, GoMap.mem_keys_of_mem _ _ _ hentry⟩
    have hlook := endorsersByGroupIn_lookup o ho
      { possibleLayouts := layouts,
        satGraph := satGraph,
        chanMemberById := Members.ByID (chanMembershipOf ea chainID ccMD),
        idOfMembers := computeIdentitiesOfMembers ea.IdentityInfo
          (o.members (Members.ByID (aliveMembershipOf ea chainID ccMD))) } hgraph.1 g
    simp only [hv, hin, if_true] at hlook
    rw [ha]
    refine ⟨_, hlook, ?_⟩
    simp only
    rw [hrec, hn]
    exact (ho.2.2.2.2.2.2.2.1 g _).map _
  · intro grp hnot
    have hlook := endorsersByGroupIn_lookup o ho
      { possibleLayouts := layouts,
        satGraph := satGraph,
        chanMemberById := Members.ByID (chanMembershipOf ea chainID ccMD),
        idOfMembers := computeIdentitiesOfMembers ea.IdentityInfo
          (o.members (Members.ByID (aliveMembershipOf ea chainID ccMD))) } hgraph.1 grp
    rw [hlook]
    cases hv : GoMap.lookup satGraph.principalVertices grp with
    | none => rfl
    | some vertex =>
      simp only
      have hc : ¬ GoMap.contains (groupsSetIn o layouts) grp = true := by
        intro hin
        obtain ⟨layout, hl, hk⟩ := (groupsSetIn_contains o ho layouts grp).mp hin
        obtain ⟨ps, hps, hfor⟩ := forallTwo_mem_right _ _ _ hlay layout hl
        obtain ⟨e, he, hfst⟩ := List.mem_map.mp hk
        obtain ⟨p, hp, ha, _⟩ := (hfor.2 e.1 e.2).mp he
        exact hnot p ⟨ps, hps, hp⟩ (by rw [ha, hfst])
      simp [hc]

theorem PeersForEndorsementIn_summary (o : IterationOrder) (ho : o.Valid)
    (ea : endorsementAnalyzer) (chainID : String) (interest : ChaincodeInterest)
    (chaincode : ChaincodeCall) (rest : List ChaincodeCall) (ccMD : ChaincodeMetadata)
    (pol : InquireablePolicy)
    (hcc : interest.Chaincodes = chaincode :: rest)
    (hmd : ea.Metadata chainID chaincode.Name = some ccMD)
    (hpol : ea.PolicyByChaincode chainID chaincode.Name = some pol) :
    ∃ pg : principalGroupMapper, mapperWF pg ∧
      (∀ k : principalKey, k ∈ GoMap.keys pg ↔
        ∃ ps ∈ principalsSetsOf ea chainID ccMD pol, ∃ p ∈ ps, k = keyOf p) ∧
      ((feasibleSetsOf ea chainID ccMD pol = [] ∧
          PeersForEndorsementIn o ea chainID interest =
            some (none, some "cannot satisfy any principal combination")) ∨
        (feasibleSetsOf ea chainID ccMD pol ≠ [] ∧
          ∃ descriptor : EndorsementDescriptor,
          PeersForEndorsementIn o ea chainID interest = some (some descriptor, none) ∧
          descriptor.Chaincode = chaincode.Name ∧
          List.Forall₂ (layoutFor pg) (feasibleSetsOf ea chainID ccMD pol)
            descriptor.Layouts ∧
          endorsersFor ea chainID ccMD pol pg descriptor.EndorsersByGroups)) := by
  obtain ⟨hreach, hkeys⟩ := mapPrincipalsToGroupsIn_spec o ho (principalsSetsOf ea chainID ccMD pol)
  have hwf := Reachable.wf _ hreach
  have hhas : ∀ ps ∈ principalsSetsOf ea chainID ccMD pol, ∀ p ∈ ps,
      ∃ g, GoMap.lookup (mapPrincipalsToGroupsIn o (principalsSetsOf ea chainID ccMD pol))
        (keyOf p) = some g := by
    intro ps hps p hp
    have hk := (hkeys (keyOf p)).mpr ⟨ps, hps, p, hp, rfl⟩
    have hc := (GoMap.contains_iff _ _).mpr hk
    unfold GoMap.contains at hc
    exact Option.isSome_iff_exists.mp hc
  have hgraph := graphFor_In o ho
    (satisfiesPrincipal ea chainID (identitiesOfMembersOf ea chainID ccMD))
    (aliveMembershipOf ea chainID ccMD) _ hwf
  obtain ⟨ls, hrun, hlay⟩ := computeLayoutsLoopIn_spec o ho
    (satisfiesPrincipal ea chainID (identitiesOfMembersOf ea chainID ccMD))
    (aliveMembershipOf ea chainID ccMD) _ _ hgraph hwf
    (principalsSetsOf ea chainID ccMD pol) hhas 0 []
  simp only [List.nil_append] at hrun
  have hlay2 : List.Forall₂ (layoutFor
      (mapPrincipalsToGroupsIn o (principalsSetsOf ea chainID ccMD pol)))
      (feasibleSetsOf ea chainID ccMD pol) ls := hlay
  refine ⟨_, hwf, hkeys, ?_⟩
  have hpfe : PeersForEndorsementIn o ea chainID interest =
      if ls.length = 0 then some (none, some "cannot satisfy any principal combination")
      else some (some { Chaincode := chaincode.Name,
                        Layouts := ls,
                        EndorsersByGroups := endorsersByGroupIn o
                          { possibleLayouts := ls,
                            satGraph := principalsToPeersGraphIn o
                              { members := aliveMembershipOf ea chainID ccMD,
                                pGrps := mapPrincipalsToGroupsIn o
                                  (principalsSetsOf ea chainID ccMD pol) }
                              (satisfiesPrincipal ea chainID
                                (identitiesOfMembersOf ea chainID ccMD)),
                            chanMemberById := Members.ByID (chanMembershipOf ea chainID ccMD),
                            idOfMembers := computeIdentitiesOfMembers ea.IdentityInfo
                              (o.members (Members.ByID
                                (aliveMembershipOf ea chainID ccMD))) } }, none) := by
    simp only [PeersForEndorsementIn, hcc, hmd, hpol, principalsSetsIn_eq o ho,
      satisfiesPrincipalIn_eq o ho, computeLayoutsIn, hrun]
  by_cases hl : ls.length = 0
  · left
    have hnil : ls = [] := List.length_eq_zero.mp hl
    refine ⟨?_, by rw [hpfe]; simp [hl]⟩
    rw [hnil] at hlay2
    exact List.forall₂_nil_right_iff.mp hlay2
  · right
    refine ⟨?_, _, by rw [hpfe, if_neg hl], rfl, hlay2, ?_⟩
    · intro hnil
      rw [hnil] at hlay2
      exact hl (by rw [List.forall₂_nil_left_iff.mp hlay2]; rfl)
    exact endorsersFor_In o ho ea chainID ccMD pol _ hhas _ hgraph ls hlay2

/-! ## Two runs under two iteration orders -/

theorem layoutsAgree_of_layoutFor (rename : String → String)
    (hinj : Function.Injective rename) (first second : principalGroupMapper)
    (ps : PrincipalSet)
    (hren : ∀ p ∈ ps, rename (aliasIn first p) = aliasIn second p)
    (l1 l2 : Layout) (h1 : layoutFor first ps l1) (h2 : layoutFor second ps l2) :
    layoutsAgree rename l1 l2 := by
  intro grp
  apply Option.ext
  intro q
  constructor
  · intro hl
    obtain ⟨p, hp, ha, hq⟩ := (h2.2 _ _).mp (GoMap.mem_of_lookup _ _ _ hl)
    have hg : aliasIn first p = grp := hinj (by rw [hren p hp, ha])
    exact GoMap.lookup_of_mem _ _ _ h1.1 ((h1.2 _ _).mpr ⟨p, hp, hg, hq⟩)
  · intro hl
    obtain ⟨p, hp, ha, hq⟩ := (h1.2 _ _).mp (GoMap.mem_of_lookup _ _ _ hl)
    refine GoMap.lookup_of_mem _ _ _ h2.1 ((h2.2 _ _).mpr ⟨p, hp, ?_, hq⟩)
    rw [← ha, hren p hp]

theorem endorsersAgree_of_endorsersFor (ea : endorsementAnalyzer) (chainID : String)
    (ccMD : ChaincodeMetadata) (pol : InquireablePolicy) (rename : String → String)
    (hinj : Function.Injective rename) (first second : principalGroupMapper)
    (hren : ∀ ps ∈ feasibleSetsOf ea chainID ccMD pol, ∀ p ∈ ps,
      rename (aliasIn first p) = aliasIn second p)
    (e1 e2 : GoMap String Peers) (h1 : endorsersFor ea chainID ccMD pol first e1)
    (h2 : endorsersFor ea chainID ccMD pol second e2) : endorsersAgree rename e1 e2 := by
  intro grp
  by_cases hex : ∃ p : MSPPrincipal,
      (∃ ps ∈ feasibleSetsOf ea chainID ccMD pol, p ∈ ps) ∧ aliasIn first p = grp
  · obtain ⟨p, ⟨ps, hps, hp⟩, ha⟩ := hex
    obtain ⟨peers1, hl1, hperm1⟩ := h1.1 p ⟨ps, hps, hp⟩
    obtain ⟨peers2, hl2, hperm2⟩ := h2.1 p ⟨ps, hps, hp⟩
    rw [ha] at hl1
    rw [← hren ps hps p hp, ha] at hl2
    rw [hl1, hl2]
    exact hperm1.trans hperm2.symm
  · have hn1 : GoMap.lookup e1 grp = none := by
      apply h1.2
      intro p hp ha
      exact hex ⟨p, hp, ha⟩
    have hn2 : GoMap.lookup e2 (rename grp) = none := by
      apply h2.2
      rintro p ⟨ps, hps, hp⟩ ha
      apply hex
      refine ⟨p, ⟨ps, hps, hp⟩, hinj ?_⟩
      rw [hren ps hps p hp, ha]
    rw [hn1, hn2]
    trivial

/-- C15: take any two runs of the analyzer on the same collaborator outputs that differ
only in the order in which each `range` over a map visits the entries. Either both panic
(no chaincode in the interest), or both return no descriptor and the same error, or both
return no error and descriptors with the same chaincode for which one bijection of the
group aliases makes the layout lists equal entry by entry (as maps from alias to quantity)
and the endorsers-by-group maps equal up to the order of the peers within a group. The
run whose ranges follow the written order of the entries is `PeersForEndorsement`. -/
theorem PeersForEndorsement_order_independent (first second : IterationOrder)
    (hfirst : first.Valid) (hsecond : second.Valid) (ea : endorsementAnalyzer)
    (chainID : String) (interest : ChaincodeInterest) :
    outcomesAgree (PeersForEndorsementIn first ea chainID interest)
      (PeersForEndorsementIn second ea chainID interest) ∧
    PeersForEndorsementIn IterationOrder.written ea chainID interest =
      PeersForEndorsement ea chainID interest := by
  refine ⟨?_, PeersForEndorsementIn_written ea chainID interest⟩
  cases hcc : interest.Chaincodes with
  | nil => simp [PeersForEndorsementIn, hcc, outcomesAgree]
  | cons chaincode rest =>
    cases hmd : ea.Metadata chainID chaincode.Name with
    | none => simp [PeersForEndorsementIn, hcc, hmd, outcomesAgree]
    | some ccMD =>
      cases hpol : ea.PolicyByChaincode chainID chaincode.Name with
      | none => simp [PeersForEndorsementIn, hcc, hmd, hpol, outcomesAgree]
      | some pol =>
        obtain ⟨pg1, hwf1, hk1, hout1⟩ := PeersForEndorsementIn_summary first hfirst ea chainID
          interest chaincode rest ccMD pol hcc hmd hpol
        obtain ⟨pg2, hwf2, hk2, hout2⟩ := PeersForEndorsementIn_summary second hsecond ea
          chainID interest chaincode rest ccMD pol hcc hmd hpol
        rcases hout1 with ⟨_, hr1⟩ | ⟨hne1, d1, hr1, hc1, hl1, he1⟩
        · rcases hout2 with ⟨_, hr2⟩ | ⟨hne2, _⟩
          · rw [hr1, hr2]
            simp [outcomesAgree]
          · contradiction
        · rcases hout2 with ⟨hnil2, _⟩ | ⟨_, d2, hr2, hc2, hl2, he2⟩
          · contradiction
          · rw [hr1, hr2]
            have hkeys : ∀ k, k ∈ GoMap.keys pg1 ↔ k ∈ GoMap.keys pg2 :=
              fun k => (hk1 k).trans (hk2 k).symm
            have hbij := aliasBridge_bijective pg1 pg2 hwf1 hwf2 hkeys
            have hren : ∀ ps ∈ feasibleSetsOf ea chainID ccMD pol, ∀ p ∈ ps,
                aliasBridge pg1 pg2 (aliasIn pg1 p) = aliasIn pg2 p := by
              intro ps hps p hp
              have hps2 : ps ∈ principalsSetsOf ea chainID ccMD pol :=
                (List.mem_filter.mp hps).1
              have hin1 := (hk1 (keyOf p)).mpr ⟨ps, hps2, p, hp, rfl⟩
              have hin2 := (hk2 (keyOf p)).mpr ⟨ps, hps2, p, hp, rfl⟩
              have hc1 := (GoMap.contains_iff _ _).mpr hin1
              have hc2 := (GoMap.contains_iff _ _).mpr hin2
              unfold GoMap.contains at hc1 hc2
              obtain ⟨g1, hg1⟩ := Option.isSome_iff_exists.mp hc1
              obtain ⟨g2, hg2⟩ := Option.isSome_iff_exists.mp hc2
              simp only [aliasIn, hg1, hg2, Option.getD_some]
              exact aliasBridge_alias pg1 pg2 hwf1 (keyOf p) g1 g2 hg1 hg2
            refine ⟨rfl, aliasBridge pg1 pg2, hbij, by rw [hc1, hc2], ?_, ?_⟩
            · exact forallTwo_join (layoutFor pg1) (layoutFor pg2)
                (layoutsAgree (aliasBridge pg1 pg2)) (feasibleSetsOf ea chainID ccMD pol)
                d1.Layouts d2.Layouts hl1 hl2
                (fun ps hps l1 l2 h1 h2 =>
                  layoutsAgree_of_layoutFor _ hbij.injective pg1 pg2 ps (hren ps hps)
                    l1 l2 h1 h2)
            · exact endorsersAgree_of_endorsersFor ea chainID ccMD pol _ hbij.injective
                pg1 pg2 hren _ _ he1 he2

theorem IterationOrder.written_valid : IterationOrder.written.Valid :=
  ⟨fun _ => List.Perm.refl _, fun _ => List.Perm.refl _, fun _ => List.Perm.refl _,
    fun _ _ => List.Perm.refl _, fun _ _ => List.Perm.refl _, fun _ _ => List.Perm.refl _,
    fun _ => List.Perm.refl _, fun _ _ => List.Perm.refl _, fun _ => List.Perm.refl _,
    fun _ => List.Perm.refl _⟩

theorem IterationOrder.reversed_valid : IterationOrder.reversed.Valid :=
  ⟨fun m => List.reverse_perm m, fun m => List.reverse_perm m, fun m => List.reverse_perm m,
    fun _ m => List.reverse_perm m, fun _ m => List.reverse_perm m,
    fun _ m => List.reverse_perm m, fun m => List.reverse_perm m,
    fun _ l => List.reverse_perm l, fun m => List.reverse_perm m,
    fun m => List.reverse_perm m⟩

/-- Witness of C15: the written and the reversed order on the sample analyzer with the
policy orgA-and-orgB, where the reversed order gives orgB the alias `G0`. -/
theorem PeersForEndorsement_order_independent_witness :
    IterationOrder.written.Valid ∧ IterationOrder.reversed.Valid ∧
    outcomesAgree
      (PeersForEndorsementIn IterationOrder.written
        (sampleAnalyzer [[sampleOrgA, sampleOrgB]]) "ch" sampleInterest)
      (PeersForEndorsementIn IterationOrder.reversed
        (sampleAnalyzer [[sampleOrgA, sampleOrgB]]) "ch" sampleInterest) :=
  ⟨IterationOrder.written_valid, IterationOrder.reversed_valid,
    (PeersForEndorsement_order_independent IterationOrder.written IterationOrder.reversed
      IterationOrder.written_valid IterationOrder.reversed_valid
      (sampleAnalyzer [[sampleOrgA, sampleOrgB]]) "ch" sampleInterest).1⟩

/-! ## Only the first chaincode of the interest -/

/-- C23: `PeersForEndorsement` uses only the first element of the chaincode list of the
interest. Two interests with the same first chaincode, analysed with collaborators that give
the same outputs, get the same result; a returned descriptor carries the name of the first
chaincode in its `Chaincode` field. Of the first chaincode only the name is read, so two
interests whose first chaincodes have the same name get the same result as well. -/
theorem PeersForEndorsement_first_chaincode_only (ea other : endorsementAnalyzer)
    (chainID : String) (first second : ChaincodeInterest) (chaincode : ChaincodeCall)
    (rest restTwo : List ChaincodeCall)
    (hfirst : first.Chaincodes = chaincode :: rest)
    (hsecond : second.Chaincodes = chaincode :: restTwo)
    (hid : other.IdentityInfo = ea.IdentityInfo)
    (hch : ∀ c, other.PeersOfChannel c = ea.PeersOfChannel c)
    (hpeers : other.Peers = ea.Peers)
    (hsat : ∀ c identity principal,
      other.SatisfiesPrincipal c identity principal = ea.SatisfiesPrincipal c identity principal)
    (hmsp : ∀ principal, other.MSPOfPrincipal principal = ea.MSPOfPrincipal principal)
    (hpol : ∀ c cc, other.PolicyByChaincode c cc = ea.PolicyByChaincode c cc)
    (hmd : ∀ c cc, other.Metadata c cc = ea.Metadata c cc) :
    PeersForEndorsement ea chainID first = PeersForEndorsement other chainID second ∧
    (∀ (descriptor : EndorsementDescriptor) (err : Option String),
      PeersForEndorsement ea chainID first = some (some descriptor, err) →
      descriptor.Chaincode = chaincode.Name) ∧
    (∀ (third : ChaincodeInterest) (sameName : ChaincodeCall) (restThree : List ChaincodeCall),
      third.Chaincodes = sameName :: restThree → sameName.Name = chaincode.Name →
      PeersForEndorsement ea chainID third = PeersForEndorsement ea chainID first) := by
  have hea : other = ea := by
    cases ea
    cases other
    simp only at hid hch hpeers hsat hmsp hpol hmd
    simp only [endorsementAnalyzer.mk.injEq]
    refine ⟨hid, funext hch, hpeers, ?_, funext hmsp, ?_, ?_⟩
    · funext c identity principal
      exact hsat c identity principal
    · funext c cc
      exact hpol c cc
    · funext c cc
      exact hmd c cc
  subst hea
  refine ⟨?_, ?_, ?_⟩
  · rw [PeersForEndorsement_first other chainID first chaincode rest hfirst,
      PeersForEndorsement_first other chainID second chaincode restTwo hsecond]
  · intro descriptor err h
    obtain ⟨chaincode2, rest2, ccMD, pol, hcc2, _, _, _, _, hd⟩ :=
      PeersForEndorsement_descriptor other chainID first descriptor err h
    rw [hfirst] at hcc2
    injection hcc2 with h1 _
    subst h1
    rw [hd]
    rfl
  · intro third sameName restThree hthird hname
    simp only [PeersForEndorsement, hthird, hfirst, hname]

/-- Witness of C23: the sample analyzer on the interest with one chaincode and on the
interest with two chaincodes, `cc` first in both. -/
theorem PeersForEndorsement_first_chaincode_only_witness :
    PeersForEndorsement (sampleAnalyzer [[sampleOrgA, sampleOrgA]]) "ch" sampleInterest =
      PeersForEndorsement (sampleAnalyzer [[sampleOrgA, sampleOrgA]]) "ch" sampleInterestTwo ∧
    PeersForEndorsement (sampleAnalyzer [[sampleOrgA, sampleOrgA]]) "ch" sampleInterest =
      some (some sampleDescriptor, none) ∧
    sampleDescriptor.Chaincode = "cc" :=
  have h := PeersForEndorsement_first_chaincode_only
    (sampleAnalyzer [[sampleOrgA, sampleOrgA]]) (sampleAnalyzer [[sampleOrgA, sampleOrgA]]) "ch"
    sampleInterest sampleInterestTwo { Name := "cc", CollectionNames := [] } []
    [{ Name := "other", CollectionNames := [] }] rfl rfl rfl (fun _ => rfl) rfl
    (fun _ _ _ => rfl) (fun _ => rfl) (fun _ _ => rfl) (fun _ _ => rfl)
  ⟨h.1, by decide, h.2.1 sampleDescriptor none (by decide)⟩

/-! ## The mapper and the graph of the same principal sets -/

theorem mapPrincipalsToGroups_keys (sets : List PrincipalSet) (k : principalKey) :
    k ∈ GoMap.keys (mapPrincipalsToGroups sets) ↔ ∃ ps ∈ sets, ∃ p ∈ ps, k = keyOf p := by
  have heq : mapPrincipalsToGroups sets = groupAll (GoMap.keys (totalPrincipalsOf sets)) [] := by
    simp only [mapPrincipalsToGroups, totalPrincipalsOf, groupAll, GoMap.keys, List.foldl_map]
  rw [heq, keys_groupAll, ← totalPrincipalsOf_keys]
  simp [GoMap.keys]

/-- C25: with the mapper that `mapPrincipalsToGroups` builds from a list of principal sets
and the graph that `principalsToPeersGraph` builds from that mapper (for any members and any
evaluator), `computeLayouts` on the same list returns, and returns the mapper as it was: no
`group` call of the run mints an alias. Every group of every candidate layout, feasible or
not, is a key of `principalVertices`, so the vertex lookup of `isLayoutSatisfied` finds a
vertex for every group and the check of every candidate returns. -/
theorem computeLayouts_no_missing_vertex (principalsSets : List PrincipalSet)
    (members : Members) (sat : peerPrincipalEvaluator) :
    (∃ layouts : List Layout,
      computeLayouts principalsSets (mapPrincipalsToGroups principalsSets)
        (principalsToPeersGraph
          { members := members, pGrps := mapPrincipalsToGroups principalsSets } sat) =
        some (layouts, mapPrincipalsToGroups principalsSets)) ∧
    (∀ ps ∈ principalsSets, ∀ p ∈ ps,
      (group (mapPrincipalsToGroups principalsSets) (keyOf p)).2 =
        mapPrincipalsToGroups principalsSets) ∧
    mapperAfterAll principalsSets (mapPrincipalsToGroups principalsSets) =
      mapPrincipalsToGroups principalsSets ∧
    (∀ layout ∈ candidateLayouts principalsSets (mapPrincipalsToGroups principalsSets),
      ∀ grp ∈ GoMap.keys layout.QuantitiesByGroup,
        grp ∈ GoMap.keys (principalsToPeersGraph
          { members := members, pGrps := mapPrincipalsToGroups principalsSets }
          sat).principalVertices ∧
        ∃ vertex, GoMap.lookup (principalsToPeersGraph
          { members := members, pGrps := mapPrincipalsToGroups principalsSets }
          sat).principalVertices grp = some vertex) ∧
    (∀ layout ∈ candidateLayouts principalsSets (mapPrincipalsToGroups principalsSets),
      ∃ satisfied : Bool, isLayoutSatisfied layout.QuantitiesByGroup (principalsToPeersGraph
        { members := members, pGrps := mapPrincipalsToGroups principalsSets } sat) =
          some satisfied) := by
  have hhas := mapPrincipalsToGroups_has principalsSets
  have hwf := Reachable.wf _ (mapPrincipalsToGroups_reachable principalsSets)
  obtain ⟨hc, hm⟩ := candidateLayouts_of_present _ _ hhas
  have hkeys : ∀ layout ∈ candidateLayouts principalsSets (mapPrincipalsToGroups principalsSets),
      ∀ grp ∈ GoMap.keys layout.QuantitiesByGroup,
        grp ∈ GoMap.keys (principalsToPeersGraph
          { members := members, pGrps := mapPrincipalsToGroups principalsSets }
          sat).principalVertices := by
    intro layout hl grp hg
    rw [hc] at hl
    obtain ⟨ps, hps, rfl⟩ := List.mem_map.mp hl
    obtain ⟨p, _, hp⟩ := layoutOf_groups ps _ hwf (hhas ps hps) grp hg
    rw [principalsToPeersGraph_keys]
    exact ⟨keyOf p, GoMap.mem_of_lookup _ _ _ hp⟩
  have hsome : ∀ layout ∈ candidateLayouts principalsSets (mapPrincipalsToGroups principalsSets),
      (isLayoutSatisfied layout.QuantitiesByGroup (principalsToPeersGraph
        { members := members, pGrps := mapPrincipalsToGroups principalsSets } sat)).isSome =
          true := by
    intro layout hl
    apply isLayoutSatisfied_isSome
    intro grp hg
    exact (GoMap.contains_iff _ _).mpr (hkeys layout hl grp hg)
  refine ⟨?_, ?_, hm, ?_, ?_⟩
  · have htotal := computeLayoutsLoop_total (principalsToPeersGraph
      { members := members, pGrps := mapPrincipalsToGroups principalsSets } sat)
      principalsSets [] (mapPrincipalsToGroups principalsSets) hsome
    rw [hm] at htotal
    exact ⟨_, htotal⟩
  · intro ps hps p hp
    obtain ⟨grp, hg⟩ := hhas ps hps p hp
    rw [group_of_some _ _ grp hg]
  · intro layout hl grp hg
    refine ⟨hkeys layout hl grp hg, ?_⟩
    have hcontains := (GoMap.contains_iff _ _).mpr (hkeys layout hl grp hg)
    exact Option.isSome_iff_exists.mp hcontains
  · intro layout hl
    exact Option.isSome_iff_exists.mp (hsome layout hl)

/-- Witness of C25: the sets orgA-and-orgB and two-of-orgB against two members that satisfy
every principal; the second candidate is not feasible and its groups have vertices all the
same. -/
theorem computeLayouts_no_missing_vertex_witness :
    mapperAfterAll [[sampleOrgA, sampleOrgB], [sampleOrgB, sampleOrgB, sampleOrgB]]
        (mapPrincipalsToGroups [[sampleOrgA, sampleOrgB], [sampleOrgB, sampleOrgB, sampleOrgB]]) =
      mapPrincipalsToGroups [[sampleOrgA, sampleOrgB], [sampleOrgB, sampleOrgB, sampleOrgB]] ∧
    computeLayouts [[sampleOrgA, sampleOrgB], [sampleOrgB, sampleOrgB, sampleOrgB]]
        (mapPrincipalsToGroups [[sampleOrgA, sampleOrgB], [sampleOrgB, sampleOrgB, sampleOrgB]])
        (principalsToPeersGraph
          { members := [sampleAlive "p1", sampleAlive "p3"],
            pGrps := mapPrincipalsToGroups
              [[sampleOrgA, sampleOrgB], [sampleOrgB, sampleOrgB, sampleOrgB]] }
          (fun _ _ => true)) =
      some ([{ QuantitiesByGroup := [("G0", 1), ("G1", 1)] }],
        [(keyOf sampleOrgA, "G0"), (keyOf sampleOrgB, "G1")]) :=
  ⟨(computeLayouts_no_missing_vertex
      [[sampleOrgA, sampleOrgB], [sampleOrgB, sampleOrgB, sampleOrgB]]
      [sampleAlive "p1", sampleAlive "p3"] (fun _ _ => true)).2.2.1, by decide⟩

/-! ## The keys and the aliases of the mapper -/

theorem dedup_length_map_keyOf (l : List MSPPrincipal) :
    (l.map keyOf).dedup.length = l.dedup.length := by
  rw [List.dedup_map_of_injective (fun p q h => keyOf_injective p q h), List.length_map]

/-- C24: the mapper that `mapPrincipalsToGroups` returns for a list of principal sets has as
keys exactly the (classification, payload) keys of the principals that occur in some set,
each key once however often its principal occurs; it has one entry per distinct principal,
and the entry at position `i` holds the alias `G<i>`, so the aliases are `G0`, ...,
`G(n-1)` for `n` distinct principals. `toPrincipal` of a key is a principal with that
classification and payload, whose key is the same key again. -/
theorem mapPrincipalsToGroups_keys_and_aliases (principalsSets : List PrincipalSet) :
    (∀ key : principalKey, key ∈ GoMap.keys (mapPrincipalsToGroups principalsSets) ↔
      ∃ ps ∈ principalsSets, ∃ p ∈ ps,
        key = { cls := p.PrincipalClassification, principal := p.Principal }) ∧
    (GoMap.keys (mapPrincipalsToGroups principalsSets)).Nodup ∧
    (mapPrincipalsToGroups principalsSets).length = principalsSets.flatten.dedup.length ∧
    GoMap.values (mapPrincipalsToGroups principalsSets) =
      (List.range principalsSets.flatten.dedup.length).map (fun i => "G" ++ toString i) ∧
    (∀ key : principalKey,
      key.toPrincipal.PrincipalClassification = key.cls ∧
      key.toPrincipal.Principal = key.principal ∧
      keyOf key.toPrincipal = key) ∧
    (∀ key ∈ GoMap.keys (mapPrincipalsToGroups principalsSets),
      ∃ ps ∈ principalsSets, key.toPrincipal ∈ ps) := by
  have hwf := Reachable.wf _ (mapPrincipalsToGroups_reachable principalsSets)
  have hkeys := mapPrincipalsToGroups_keys principalsSets
  have hlen : (mapPrincipalsToGroups principalsSets).length =
      principalsSets.flatten.dedup.length := by
    rw [← dedup_length_map_keyOf]
    have hperm : (GoMap.keys (mapPrincipalsToGroups principalsSets)).Perm
        (principalsSets.flatten.map keyOf).dedup := by
      rw [List.perm_ext_iff_of_nodup hwf.1 (List.nodup_dedup _)]
      intro k
      rw [hkeys k, List.mem_dedup, List.mem_map]
      constructor
      · rintro ⟨ps, hps, p, hp, rfl⟩
        exact ⟨p, List.mem_flatten.mpr ⟨ps, hps, hp⟩, rfl⟩
      · rintro ⟨p, hp, rfl⟩
        obtain ⟨ps, hps, hpp⟩ := List.mem_flatten.mp hp
        exact ⟨ps, hps, p, hpp, rfl⟩
    have := hperm.length_eq
    simpa [GoMap.keys] using this
  refine ⟨?_, hwf.1, hlen, ?_, ?_, ?_⟩
  · intro key
    exact hkeys key
  · rw [hwf.2, hlen]
    rfl
  · intro key
    exact ⟨rfl, rfl, rfl⟩
  · intro key hk
    obtain ⟨ps, hps, p, hp, rfl⟩ := (hkeys key).mp hk
    exact ⟨ps, hps, hp⟩

/-- Witness of C24: three sets over two principals, with repetitions. -/
theorem mapPrincipalsToGroups_keys_and_aliases_witness :
    GoMap.values (mapPrincipalsToGroups
        [[sampleOrgA, sampleOrgA], [sampleOrgB, sampleOrgA], [sampleOrgB]]) =
      (List.range (List.flatten
        [[sampleOrgA, sampleOrgA], [sampleOrgB, sampleOrgA], [sampleOrgB]]).dedup.length).map
          (fun i => "G" ++ toString i) ∧
    mapPrincipalsToGroups [[sampleOrgA, sampleOrgA], [sampleOrgB, sampleOrgA], [sampleOrgB]] =
      [(keyOf sampleOrgA, "G0"), (keyOf sampleOrgB, "G1")] :=
  ⟨(mapPrincipalsToGroups_keys_and_aliases
      [[sampleOrgA, sampleOrgA], [sampleOrgB, sampleOrgA], [sampleOrgB]]).2.2.2.1, by decide⟩

/-! ## The quantities of a layout -/

theorem histogram_replicate (p : MSPPrincipal) (n : Nat) : ∀ c : Nat,
    (List.replicate n p).foldl (fun histogram principal =>
      GoMap.insert histogram principal ((GoMap.lookup histogram principal).getD 0 + 1))
        [(p, c)] = [(p, c + n)] := by
  induction n with
  | zero => intro c; rfl
  | succ n ih =>
    intro c
    rw [List.replicate_succ, List.foldl_cons]
    have hstep : GoMap.insert [(p, c)] p ((GoMap.lookup [(p, c)] p).getD 0 + 1) =
        [(p, c + 1)] := by
      simp [GoMap.insert, GoMap.lookup]
    rw [hstep, ih (c + 1)]
    have : c + 1 + n = c + (n + 1) := by omega
    rw [this]

theorem UniqueSet_replicate (p : MSPPrincipal) (n : Nat) (hn : 0 < n) :
    UniqueSet (List.replicate n p) = [(p, n)] := by
  obtain ⟨m, rfl⟩ := Nat.exists_eq_succ_of_ne_zero (Nat.pos_iff_ne_zero.mp hn)
  unfold UniqueSet
  rw [List.replicate_succ, List.foldl_cons]
  have hstep : GoMap.insert ([] : GoMap MSPPrincipal Nat) p
      ((GoMap.lookup ([] : GoMap MSPPrincipal Nat) p).getD 0 + 1) = [(p, 1)] := by
    simp [GoMap.insert, GoMap.lookup]
  rw [hstep, histogram_replicate p m 1]
  have : 1 + m = m + 1 := by omega
  rw [this]

theorem fillLayout_mem (hist : GoMap MSPPrincipal Nat) :
    ∀ (layout : Layout) (pg : principalGroupMapper) (e : String × Nat),
      e ∈ (fillLayout hist layout pg).1.QuantitiesByGroup →
      e ∈ layout.QuantitiesByGroup ∨ ∃ h ∈ hist, e.2 = h.2 % 2 ^ 32 := by
  induction hist with
  | nil => intro layout pg e h; exact Or.inl h
  | cons a rest ih =>
    intro layout pg e h
    obtain ⟨principal, plurality⟩ := a
    simp only [fillLayout] at h
    rcases ih _ _ e h with h1 | ⟨x, hx, hq⟩
    · rcases GoMap.mem_insert _ _ _ e h1 with h2 | h2
      · exact Or.inr ⟨(principal, plurality), List.mem_cons_self _ _, by rw [h2]⟩
      · exact Or.inl h2
    · exact Or.inr ⟨x, List.mem_cons_of_mem _ hx, hq⟩

theorem candidateLayouts_mem (sets : List PrincipalSet) :
    ∀ (pg : principalGroupMapper) (layout : Layout), layout ∈ candidateLayouts sets pg →
      ∃ ps ∈ sets, ∃ mapper : principalGroupMapper, layout = layoutOf ps mapper := by
  induction sets with
  | nil => intro pg layout h; simp [candidateLayouts] at h
  | cons ps rest ih =>
    intro pg layout h
    simp only [candidateLayouts, List.mem_cons] at h
    rcases h with h | h
    · exact ⟨ps, List.mem_cons_self _ _, pg, h⟩
    · obtain ⟨qs, hqs, mapper, hl⟩ := ih _ layout h
      exact ⟨qs, List.mem_cons_of_mem _ hqs, mapper, hl⟩

theorem computeLayouts_single (ps : PrincipalSet) (hist : GoMap MSPPrincipal Nat)
    (h : UniqueSet ps = hist) (pg : principalGroupMapper) (satGraph : principalPeerGraph) :
    computeLayouts [ps] pg satGraph =
      match isLayoutSatisfied
        (fillLayout hist { QuantitiesByGroup := [] } pg).1.QuantitiesByGroup satGraph with
      | none => none
      | some true =>
        some ([(fillLayout hist { QuantitiesByGroup := [] } pg).1],
          (fillLayout hist { QuantitiesByGroup := [] } pg).2)
      | some false => some ([], (fillLayout hist { QuantitiesByGroup := [] } pg).2) := by
  subst h
  rfl

theorem computeLayouts_quantities_in_range (principalsSets : List PrincipalSet)
    (principalGroups : principalGroupMapper) (satGraph : principalPeerGraph)
    (layouts : List Layout) (after : principalGroupMapper)
    (hrun : computeLayouts principalsSets principalGroups satGraph = some (layouts, after))
    (hsmall : ∀ ps ∈ principalsSets, ps.length < 2 ^ 32) :
    ∀ layout ∈ layouts, ∀ (grp : String) (quantity : Nat),
      (grp, quantity) ∈ layout.QuantitiesByGroup →
      1 ≤ quantity ∧ ∃ ps ∈ principalsSets, ∃ p ∈ ps, quantity = ps.count p := by
  intro layout hl grp quantity hq
  obtain ⟨hlay, _⟩ := computeLayoutsLoop_some satGraph principalsSets [] principalGroups
    layouts after hrun
  rw [hlay, List.nil_append] at hl
  obtain ⟨ps, hps, mapper, hlo⟩ := candidateLayouts_mem principalsSets principalGroups layout
    (List.mem_filter.mp hl).1
  rw [hlo] at hq
  rcases fillLayout_mem (UniqueSet ps) _ mapper (grp, quantity) hq with hnil | ⟨e, he, heq⟩
  · simp at hnil
  · obtain ⟨hp, hcount⟩ := (UniqueSet_mem ps e.1 e.2).mp he
    have hpos : 1 ≤ ps.count e.1 := List.count_pos_iff.mpr hp
    have hle : ps.count e.1 ≤ ps.length := List.count_le_length _ _
    have hlen := hsmall ps hps
    have hmod : ps.count e.1 % 2 ^ 32 = ps.count e.1 := Nat.mod_eq_of_lt (by omega)
    have hqe : quantity = ps.count e.1 := by
      rw [← hmod, ← hcount]
      exact heq
    exact ⟨by rw [hqe]; exact hpos, ps, hps, e.1, hp, hqe⟩

/-- C22 fails on the code: a principal set that holds orgA 2^32 times has plurality 2^32 for
it, and the vertex of its group `G0` in the sample graph has two neighbours. The conversion
`uint32(plurality)` stores 0, the check of `isLayoutSatisfied` compares the two neighbours
with 0 and passes, and `computeLayouts` returns the layout with quantity 0, which is not at
least 1. With plurality 3, which fits a `uint32`, the same graph rejects the set: the check
is there and the conversion lets the large plurality slip through it. -/
theorem computeLayouts_wraps_plurality :
    GoMap.lookup (UniqueSet (List.replicate (2 ^ 32) sampleOrgA)) sampleOrgA =
      some (2 ^ 32) ∧
    (GoMap.lookup sampleGraph.principalVertices "G0").map
      (fun vertex => vertex.Neighbors.length) = some 2 ∧
    computeLayouts [List.replicate (2 ^ 32) sampleOrgA] [(keyOf sampleOrgA, "G0")]
        sampleGraph =
      some ([{ QuantitiesByGroup := [("G0", 0)] }], [(keyOf sampleOrgA, "G0")]) ∧
    ¬ (1 ≤ 0) ∧
    computeLayouts [[sampleOrgA, sampleOrgA, sampleOrgA]] [(keyOf sampleOrgA, "G0")]
        sampleGraph =
      some ([], [(keyOf sampleOrgA, "G0")]) := by
  have hu := UniqueSet_replicate sampleOrgA (2 ^ 32) (by norm_num)
  refine ⟨?_, by decide, ?_, by decide, by decide⟩
  · exact (congrArg (fun histogram => GoMap.lookup histogram sampleOrgA) hu).trans (by decide)
  · exact (computeLayouts_single (List.replicate (2 ^ 32) sampleOrgA) [(sampleOrgA, 2 ^ 32)]
      hu [(keyOf sampleOrgA, "G0")] sampleGraph).trans (by decide)

/-! ## The three parts of a peer record -/

theorem connectPeers_nodup (sat : peerPrincipalEvaluator) (peers : List PeerVertex) :
    ∀ pv : PrincipalVertex, (GoMap.keys pv.neighbors).Nodup →
      (GoMap.keys (connectPeers sat peers pv).1.neighbors).Nodup := by
  induction peers with
  | nil => intro pv h; exact h
  | cons p rest ih =>
    intro pv h
    cases hs : sat p.Data pv.Data with
    | true =>
      simp only [connectPeers, hs, if_true]
      apply ih
      exact GoMap.nodup_keys_insert _ _ _ h
    | false =>
      simp only [connectPeers, hs, Bool.false_eq_true, if_false]
      exact ih pv h

theorem connectPeers_indexed (sat : peerPrincipalEvaluator) (principal : MSPPrincipal)
    (hsat : ∀ a b : NetworkMember, a.PKIid = b.PKIid → sat a principal = sat b principal)
    (members : Members) :
    ∀ (pv : PrincipalVertex) (acc : GoMap String NetworkMember), pv.Data = principal →
      (∀ (id : String) (m : NetworkMember), GoMap.lookup pv.neighbors id = some m →
        m.PKIid = id ∧ sat m principal = true ∧ GoMap.lookup acc id = some m) →
      ∀ (id : String) (m : NetworkMember),
        GoMap.lookup (connectPeers sat
          (members.map (fun member => NewVertex member.PKIid member)) pv).1.neighbors id =
            some m →
        m.PKIid = id ∧ sat m principal = true ∧
          GoMap.lookup (members.foldl (fun res peer => GoMap.insert res peer.PKIid peer) acc)
            id = some m := by
  induction members with
  | nil => intro pv acc _ hinv id m h; exact hinv id m h
  | cons a rest ih =>
    intro pv acc hdata hinv id m h
    rw [List.foldl_cons]
    cases hs : sat a principal with
    | true =>
      have hs2 : sat (NewVertex a.PKIid a : PeerVertex).Data pv.Data = true := by
        rw [hdata]; exact hs
      simp only [List.map_cons, connectPeers, hs2, if_true] at h
      refine ih ((NewVertex a.PKIid a : PeerVertex).AddNeighbor pv).2
        (GoMap.insert acc a.PKIid a) hdata ?_ id m h
      intro id2 m2 h2
      simp only [Vertex.AddNeighbor, NewVertex] at h2
      by_cases hid : id2 = a.PKIid
      · subst hid
        rw [GoMap.lookup_insert_self] at h2
        injection h2 with h3
        subst h3
        exact ⟨rfl, hs, GoMap.lookup_insert_self _ _ _⟩
      · rw [GoMap.lookup_insert_ne _ _ _ _ hid] at h2
        obtain ⟨h3, h4, h5⟩ := hinv id2 m2 h2
        exact ⟨h3, h4, by rw [GoMap.lookup_insert_ne _ _ _ _ hid]; exact h5⟩
    | false =>
      have hs2 : sat (NewVertex a.PKIid a : PeerVertex).Data pv.Data = false := by
        rw [hdata]; exact hs
      simp only [List.map_cons, connectPeers, hs2, Bool.false_eq_true, if_false] at h
      refine ih pv (GoMap.insert acc a.PKIid a) hdata ?_ id m h
      intro id2 m2 h2
      obtain ⟨h3, h4, h5⟩ := hinv id2 m2 h2
      by_cases hid : id2 = a.PKIid
      · exfalso
        have := hsat m2 a (h3.trans hid)
        rw [h4, hs] at this
        exact Bool.noConfusion this
      · exact ⟨h3, h4, by rw [GoMap.lookup_insert_ne _ _ _ _ hid]; exact h5⟩

theorem principalsToPeersGraph_indexed (data : principalAndPeerData)
    (sat : peerPrincipalEvaluator)
    (hsat : ∀ (a b : NetworkMember) (principal : MSPPrincipal),
      a.PKIid = b.PKIid → sat a principal = sat b principal)
    (grp : String) (vertex : PrincipalVertex)
    (hv : (grp, vertex) ∈ (principalsToPeersGraph data sat).principalVertices)
    (member : NetworkMember) (hm : member ∈ vertex.Neighbors) :
    GoMap.lookup (Members.ByID data.members) member.PKIid = some member := by
  rw [principalsToPeersGraph_vertices] at hv
  obtain ⟨e0, he0, heq⟩ := List.mem_map.mp hv
  have hinit := GoMap.mem_foldl
    (fun (acc : GoMap String PrincipalVertex) (entry : principalKey × String) =>
      GoMap.insert acc entry.2 (NewVertex entry.2 entry.1.toPrincipal))
    (fun entry e => e = (entry.2, NewVertex entry.2 entry.1.toPrincipal))
    (fun m x e h => (GoMap.mem_insert m _ _ e h).symm) data.pGrps [] e0 he0
  rcases hinit with hnil | ⟨x, hx, hxe⟩
  · simp at hnil
  · subst hxe
    simp only [Prod.mk.injEq] at heq
    obtain ⟨_, hvert⟩ := heq
    simp only [Vertex.Neighbors, GoMap.values, List.mem_map] at hm
    obtain ⟨en, hen, hsnd⟩ := hm
    have hnd : (GoMap.keys vertex.neighbors).Nodup := by
      rw [← hvert]
      exact connectPeers_nodup sat _ _ List.nodup_nil
    have hl : GoMap.lookup vertex.neighbors en.1 = some en.2 :=
      GoMap.lookup_of_mem _ _ _ hnd hen
    rw [← hvert] at hl
    obtain ⟨hid, _, hby⟩ := connectPeers_indexed sat x.1.toPrincipal
      (fun a b h => hsat a b _ h) data.members (NewVertex x.2 x.1.toPrincipal) [] rfl
      (fun id m h => by simp [NewVertex, GoMap.lookup] at h) en.1 en.2 hl
    rw [← hsnd, hid]
    exact hby

theorem identitiesOfMembersOf_lookup (ea : endorsementAnalyzer) (chainID : String)
    (ccMD : ChaincodeMetadata) (member : NetworkMember)
    (h : member ∈ aliveMembershipOf ea chainID ccMD) :
    GoMap.lookup (identitiesOfMembersOf ea chainID ccMD) member.PKIid =
      GoMap.lookup (ea.IdentityInfo.foldl (fun acc identity =>
        GoMap.insert acc identity.PKIId identity.Identity) ([] : GoMap String String))
          member.PKIid := by
  have hfold := computeIdentitiesOfMembers_fold
    (ea.IdentityInfo.foldl (fun acc identity =>
        GoMap.insert acc identity.PKIId identity.Identity) ([] : GoMap String String))
    (Members.ByID (aliveMembershipOf ea chainID ccMD))
    (fun e he => (Members.ByID_mem _ e he).2.symm) member.PKIid []
  have hk : member.PKIid ∈ GoMap.keys (Members.ByID (aliveMembershipOf ea chainID ccMD)) :=
    (Members.ByID_keys _ _).mpr ⟨member, h, rfl⟩
  unfold identitiesOfMembersOf computeIdentitiesOfMembers
  rw [hfold]
  by_cases hs : (GoMap.lookup (ea.IdentityInfo.foldl (fun acc identity =>
        GoMap.insert acc identity.PKIId identity.Identity) ([] : GoMap String String))
          member.PKIid).isSome = true
  · rw [if_pos ⟨hk, hs⟩]
  · rw [if_neg (fun hh => hs hh.2)]
    simp only [Bool.not_eq_true, Option.not_isSome, Option.isNone_iff_eq_none] at hs
    rw [hs]
    rfl

/-- C21: every peer record that `endorsersByGroup` emits inside `PeersForEndorsement` is the
record of a peer of the graph, a member with some PKI-ID `p` of the alive members that
joined the channel. `Identity` is the entry of the identity index for `p` (the identity that
the identity set holds for `p`; the nil identity if there is none), `MembershipInfo` is the
envelope of the entry of the alive members for `p`, which is that member, and `StateInfo` is
the envelope of the entry of the channel membership for `p`; that entry exists. -/
theorem PeersForEndorsement_peer_record_parts (ea : endorsementAnalyzer)
    (chainID : String) (interest : ChaincodeInterest) (chaincode : ChaincodeCall)
    (rest : List ChaincodeCall) (ccMD : ChaincodeMetadata)
    (descriptor : EndorsementDescriptor) (err : Option String)
    (hcc : interest.Chaincodes = chaincode :: rest)
    (hmd : ea.Metadata chainID chaincode.Name = some ccMD)
    (h : PeersForEndorsement ea chainID interest = some (some descriptor, err)) :
    ∀ (grp : String) (peers : Peers), (grp, peers) ∈ descriptor.EndorsersByGroups →
      ∀ peer ∈ peers.Peers,
        ∃ member ∈ aliveMembershipOf ea chainID ccMD,
          peer.Identity =
            (GoMap.lookup (identitiesOfMembersOf ea chainID ccMD) member.PKIid).getD "" ∧
          GoMap.lookup (identitiesOfMembersOf ea chainID ccMD) member.PKIid =
            GoMap.lookup (ea.IdentityInfo.foldl (fun acc identity =>
              GoMap.insert acc identity.PKIId identity.Identity) ([] : GoMap String String))
                member.PKIid ∧
          GoMap.lookup (Members.ByID (aliveMembershipOf ea chainID ccMD)) member.PKIid =
            some member ∧
          peer.MembershipInfo = member.Envelope ∧
          ∃ entry : NetworkMember,
            GoMap.lookup (Members.ByID (chanMembershipOf ea chainID ccMD)) member.PKIid =
              some entry ∧
            entry.PKIid = member.PKIid ∧
            peer.StateInfo = entry.Envelope := by
  obtain ⟨chaincode2, rest2, ccMD2, pol, hcc2, hmd2, _, _, _, hd⟩ :=
    PeersForEndorsement_descriptor ea chainID interest descriptor err h
  rw [hcc] at hcc2
  injection hcc2 with h1 _
  subst h1
  rw [hmd] at hmd2
  injection hmd2 with h2
  subst h2
  subst hd
  intro grp peers hmem peer hpeer
  obtain ⟨vertex, hv, hpeers⟩ := endorsersByGroup_mem _ grp peers hmem
  subst hpeers
  obtain ⟨member, hnb, hrec⟩ := List.mem_map.mp hpeer
  have hv2 : (grp, vertex) ∈ (principalsToPeersGraph
      { members := aliveMembershipOf ea chainID ccMD,
        pGrps := mapPrincipalsToGroups (principalsSetsOf ea chainID ccMD pol) }
      (satisfiesPrincipal ea chainID (identitiesOfMembersOf ea chainID ccMD))).principalVertices :=
    hv
  obtain ⟨_, hnbs⟩ := principalsToPeersGraph_neighbors _ _ grp vertex hv2
  obtain ⟨halive, _⟩ := hnbs member hnb
  obtain ⟨_, entry, hl, _, hid, _⟩ := aliveMembershipOf_mem ea chainID ccMD member halive
  have hidx := principalsToPeersGraph_indexed _ _
    (fun a b principal hab => by simp only [satisfiesPrincipal, hab]) grp vertex hv2 member hnb
  refine ⟨member, halive, ?_, identitiesOfMembersOf_lookup ea chainID ccMD member halive,
    hidx, ?_, entry, hl, hid, ?_⟩
  · rw [← hrec]; rfl
  · rw [← hrec]; rfl
  · rw [← hrec]
    simp [peerOf, criteriaOf, hl]

/-- Witness of C21: the sample analyzer with the policy orgA-and-orgB. -/
theorem PeersForEndorsement_peer_record_parts_witness :
    sampleInterest.Chaincodes = [{ Name := "cc", CollectionNames := [] }] ∧
    (sampleAnalyzer [[sampleOrgA, sampleOrgB]]).Metadata "ch" "cc" =
      some { Name := "cc", Version := "1" } ∧
    PeersForEndorsement (sampleAnalyzer [[sampleOrgA, sampleOrgB]]) "ch" sampleInterest =
      some (some sampleDescriptorTwo, none) ∧
    ∃ member ∈ aliveMembershipOf (sampleAnalyzer [[sampleOrgA, sampleOrgB]]) "ch"
        { Name := "cc", Version := "1" },
      "id3" = (GoMap.lookup (identitiesOfMembersOf (sampleAnalyzer [[sampleOrgA, sampleOrgB]])
        "ch" { Name := "cc", Version := "1" }) member.PKIid).getD "" ∧
      some { Payload := "alive-p3" } = member.Envelope :=
  ⟨rfl, rfl, by decide, by
    obtain ⟨member, hm, h1, _, _, h4, _⟩ := PeersForEndorsement_peer_record_parts
      (sampleAnalyzer [[sampleOrgA, sampleOrgB]])
      "ch" sampleInterest { Name := "cc", CollectionNames := [] } []
      { Name := "cc", Version := "1" } sampleDescriptorTwo none rfl rfl (by decide)
      "G1" { Peers := [{ Identity := "id3", StateInfo := some { Payload := "state-p3" },
                         MembershipInfo := some { Payload := "alive-p3" } }] } (by decide)
      { Identity := "id3", StateInfo := some { Payload := "state-p3" },
        MembershipInfo := some { Payload := "alive-p3" } } (by decide)
    exact ⟨member, hm, h1, h4⟩⟩

end Endorsement

/-! # Theorems about the expiry schedule -/

namespace Pvtstatepurgemgmt

open Endorsement


theorem mem_delete {κ ν : Type} [DecidableEq κ] (m : GoMap κ ν) (k : κ) (e : κ × ν) :
    e ∈ GoMap.delete m k ↔ e ∈ m ∧ e.1 ≠ k := by
  simp [GoMap.delete]

theorem keys_delete_sublist {κ ν : Type} [DecidableEq κ] (m : GoMap κ ν) (k : κ) :
    (GoMap.keys (GoMap.delete m k)).Sublist (GoMap.keys m) :=
  List.Sublist.map _ (List.filter_sublist m)

theorem addAll_append {ρ : Type} (ops : PvtdataKeysOps ρ) (first second : List addCall) :
    ∀ builder : expiryScheduleBuilder ρ,
      addAll ops (first ++ second) builder =
        (addAll ops first builder).bind (addAll ops second) := by
  induction first with
  | nil => intro builder; rfl
  | cons call rest ih =>
    intro builder
    simp only [List.cons_append, addAll]
    cases builder.add ops call.ns call.coll call.key call.keyHash call.versionedValue with
    | none => rfl
    | some next => exact ih next

theorem addPvtUpdates_eq {ρ : Type} (ops : PvtdataKeysOps ρ) (hash : String → String)
    (pvtUpdates : GoMap PvtdataCompositeKey (Option VersionedValue)) :
    ∀ (builder : expiryScheduleBuilder ρ)
      (hashedUpdateKeys : GoMap HashedCompositeKey (Option VersionedValue)),
      addPvtUpdates ops hash pvtUpdates builder hashedUpdateKeys =
        (addAll ops (pvtCalls hash pvtUpdates) builder).map
          (fun after => (after, leftoverKeys hash pvtUpdates hashedUpdateKeys)) := by
  induction pvtUpdates with
  | nil => intro builder hashedUpdateKeys; rfl
  | cons entry rest ih =>
    intro builder hashedUpdateKeys
    obtain ⟨pvtUpdateKey, vv⟩ := entry
    simp only [addPvtUpdates, pvtCalls, List.map_cons, addAll, leftoverKeys, List.foldl_cons]
    cases builder.add ops pvtUpdateKey.Namespace pvtUpdateKey.CollectionName pvtUpdateKey.Key
        (hash pvtUpdateKey.Key) vv with
    | none => rfl
    | some next => exact ih next _

theorem addHashedUpdates_eq {ρ : Type} (ops : PvtdataKeysOps ρ)
    (hashedUpdateKeys : GoMap HashedCompositeKey (Option VersionedValue)) :
    ∀ builder : expiryScheduleBuilder ρ,
      addHashedUpdates ops hashedUpdateKeys builder =
        addAll ops (hashedUpdateKeys.map (fun entry =>
          { ns := entry.1.Namespace, coll := entry.1.CollectionName, key := "",
            keyHash := entry.1.KeyHash, versionedValue := entry.2 })) builder := by
  induction hashedUpdateKeys with
  | nil => intro builder; rfl
  | cons entry rest ih =>
    intro builder
    obtain ⟨hashedUpdateKey, vv⟩ := entry
    simp only [addHashedUpdates, List.map_cons, addAll]
    cases builder.add ops hashedUpdateKey.Namespace hashedUpdateKey.CollectionName ""
        hashedUpdateKey.KeyHash vv with
    | none => rfl
    | some next => exact ih next

theorem buildExpirySchedule_eq {ρ : Type} (ops : PvtdataKeysOps ρ) (hash : String → String)
    (btlPolicy : BTLPolicy) (pvtUpdates : GoMap PvtdataCompositeKey (Option VersionedValue))
    (hashedUpdates : GoMap HashedCompositeKey (Option VersionedValue)) :
    buildExpirySchedule ops hash btlPolicy pvtUpdates hashedUpdates =
      (addAll ops (pvtCalls hash pvtUpdates ++ hashedCalls hash pvtUpdates hashedUpdates)
        (newExpiryScheduleBuilder btlPolicy)).map expiryScheduleBuilder.getExpiryInfo := by
  simp only [buildExpirySchedule, addPvtUpdates_eq, addAll_append]
  cases addAll ops (pvtCalls hash pvtUpdates) (newExpiryScheduleBuilder btlPolicy) with
  | none => rfl
  | some builder =>
    simp only [Option.map_some', Option.some_bind, addHashedUpdates_eq, hashedCalls]
    generalize addAll ops (List.map _ (leftoverKeys hash pvtUpdates hashedUpdates)) builder = r
    cases r with
    | none => rfl
    | some after => rfl

theorem mem_leftoverKeys (hash : String → String)
    (pvtUpdates : GoMap PvtdataCompositeKey (Option VersionedValue)) :
    ∀ (hashedUpdates : GoMap HashedCompositeKey (Option VersionedValue))
      (e : HashedCompositeKey × Option VersionedValue),
      e ∈ leftoverKeys hash pvtUpdates hashedUpdates ↔
        e ∈ hashedUpdates ∧ ∀ pk ∈ GoMap.keys pvtUpdates, hashedKeyOf hash pk ≠ e.1 := by
  induction pvtUpdates with
  | nil => intro hashedUpdates e; simp [leftoverKeys, GoMap.keys]
  | cons entry rest ih =>
    intro hashedUpdates e
    show e ∈ leftoverKeys hash rest (GoMap.delete hashedUpdates (hashedKeyOf hash entry.1)) ↔ _
    rw [ih, mem_delete]
    simp only [GoMap.keys, List.map_cons, List.mem_cons, forall_eq_or_imp]
    constructor
    · rintro ⟨⟨h1, h2⟩, h3⟩
      exact ⟨h1, fun h => h2 h.symm, h3⟩
    · rintro ⟨h1, h2, h3⟩
      exact ⟨⟨h1, fun h => h2 h.symm⟩, h3⟩

theorem keys_leftoverKeys_sublist (hash : String → String)
    (pvtUpdates : GoMap PvtdataCompositeKey (Option VersionedValue)) :
    ∀ hashedUpdates : GoMap HashedCompositeKey (Option VersionedValue),
      (GoMap.keys (leftoverKeys hash pvtUpdates hashedUpdates)).Sublist
        (GoMap.keys hashedUpdates) := by
  induction pvtUpdates with
  | nil => intro hashedUpdates; exact List.Sublist.refl _
  | cons entry rest ih =>
    intro hashedUpdates
    exact (ih _).trans (keys_delete_sublist _ _)

theorem countP_key_eq_one {κ ν : Type} [DecidableEq κ] (m : GoMap κ ν) (k : κ) (v : ν)
    (hnd : (GoMap.keys m).Nodup) (h : (k, v) ∈ m) :
    m.countP (fun e => decide (e.1 = k)) = 1 := by
  induction m with
  | nil => simp at h
  | cons e rest ih =>
    simp only [GoMap.keys, List.map_cons, List.nodup_cons] at hnd
    by_cases he : e.1 = k
    · have hzero : rest.countP (fun e => decide (e.1 = k)) = 0 := by
        rw [List.countP_eq_zero]
        intro x hx hxk
        simp only [decide_eq_true_eq] at hxk
        apply hnd.1
        rw [he, ← hxk]
        exact List.mem_map_of_mem _ hx
      rw [List.countP_cons_of_pos _ _ (by simpa using he), hzero]
    · rw [List.countP_cons_of_neg _ _ (by simpa using he)]
      rcases List.mem_cons.mp h with h1 | h1
      · exact absurd (by rw [← h1]) he
      · exact ih hnd.2 h1

theorem hashedKeyOf_eq_iff (hash : String → String) (pk : PvtdataCompositeKey)
    (hk : HashedCompositeKey) :
    hashedKeyOf hash pk = hk ↔
      pk.Namespace = hk.Namespace ∧ pk.CollectionName = hk.CollectionName ∧
        hash pk.Key = hk.KeyHash := by
  cases hk
  simp [hashedKeyOf]

theorem mem_hashedCalls (hash : String → String)
    (pvtUpdates : GoMap PvtdataCompositeKey (Option VersionedValue))
    (hashedUpdates : GoMap HashedCompositeKey (Option VersionedValue)) (call : addCall) :
    call ∈ hashedCalls hash pvtUpdates hashedUpdates ↔
      ∃ (hk : HashedCompositeKey) (vv : Option VersionedValue),
        (hk, vv) ∈ hashedUpdates ∧
        (∀ pk ∈ GoMap.keys pvtUpdates, hashedKeyOf hash pk ≠ hk) ∧
        call = { ns := hk.Namespace, coll := hk.CollectionName, key := "",
                 keyHash := hk.KeyHash, versionedValue := vv } := by
  simp only [hashedCalls, List.mem_map]
  constructor
  · rintro ⟨e, he, rfl⟩
    obtain ⟨h1, h2⟩ := (mem_leftoverKeys hash pvtUpdates hashedUpdates e).mp he
    exact ⟨e.1, e.2, h1, h2, rfl⟩
  · rintro ⟨hk, vv, h1, h2, rfl⟩
    exact ⟨(hk, vv), (mem_leftoverKeys hash pvtUpdates hashedUpdates (hk, vv)).mpr ⟨h1, h2⟩, rfl⟩

theorem add_returns {ρ : Type} (ops : PvtdataKeysOps ρ) (builder : expiryScheduleBuilder ρ)
    (ns coll key keyHash : String) (versionedValue : VersionedValue) (version : Height)
    (hver : versionedValue.Version = some version) :
    ∃ after, builder.add ops ns coll key keyHash (some versionedValue) = some after := by
  simp only [expiryScheduleBuilder.add, hver]
  split
  · exact ⟨_, rfl⟩
  · split
    · exact ⟨_, rfl⟩
    · exact ⟨_, rfl⟩

theorem addAll_returns {ρ : Type} (ops : PvtdataKeysOps ρ) (calls : List addCall)
    (hcalls : ∀ call ∈ calls, ∃ (versionedValue : VersionedValue) (version : Height),
      call.versionedValue = some versionedValue ∧ versionedValue.Version = some version) :
    ∀ builder : expiryScheduleBuilder ρ, ∃ after, addAll ops calls builder = some after := by
  induction calls with
  | nil => intro builder; exact ⟨builder, rfl⟩
  | cons call rest ih =>
    intro builder
    obtain ⟨vv, ver, h1, h2⟩ := hcalls call (List.mem_cons_self _ _)
    obtain ⟨next, hnext⟩ := add_returns ops builder call.ns call.coll call.key call.keyHash
      vv ver h2
    simp only [addAll, h1, hnext]
    exact ih (fun c hc => hcalls c (List.mem_cons_of_mem _ hc)) next

/-- C26: `buildExpirySchedule` is the sequence of the `add` calls of its first loop followed
by those of its second loop. The first loop passes every private update key once, with its
key and the hash of its key. The second loop passes a hashed update key, with the empty
string as key, if and only if no private update key of the same namespace and collection
has that hash. A key present in both batches is therefore passed once, by the first loop,
and by no call of the second. -/
theorem buildExpirySchedule_add_calls {ρ : Type} (ops : PvtdataKeysOps ρ)
    (hash : String → String) (btlPolicy : BTLPolicy)
    (pvtUpdates : GoMap PvtdataCompositeKey (Option VersionedValue))
    (hashedUpdates : GoMap HashedCompositeKey (Option VersionedValue))
    (hpvt : (GoMap.keys pvtUpdates).Nodup) (hhashed : (GoMap.keys hashedUpdates).Nodup) :
    buildExpirySchedule ops hash btlPolicy pvtUpdates hashedUpdates =
      (addAll ops (pvtCalls hash pvtUpdates ++ hashedCalls hash pvtUpdates hashedUpdates)
        (newExpiryScheduleBuilder btlPolicy)).map expiryScheduleBuilder.getExpiryInfo ∧
    ((∀ e ∈ pvtUpdates, ∃ (versionedValue : VersionedValue) (version : Height),
        e.2 = some versionedValue ∧ versionedValue.Version = some version) →
      (∀ e ∈ hashedUpdates, ∃ (versionedValue : VersionedValue) (version : Height),
        e.2 = some versionedValue ∧ versionedValue.Version = some version) →
      ∃ schedule, buildExpirySchedule ops hash btlPolicy pvtUpdates hashedUpdates =
        some schedule) ∧
    (∀ (pk : PvtdataCompositeKey) (vv : Option VersionedValue), (pk, vv) ∈ pvtUpdates →
      ({ ns := pk.Namespace, coll := pk.CollectionName, key := pk.Key,
         keyHash := hash pk.Key, versionedValue := vv } : addCall) ∈
        pvtCalls hash pvtUpdates ∧
      (pvtCalls hash pvtUpdates).countP (fun call =>
        decide (call.ns = pk.Namespace ∧ call.coll = pk.CollectionName ∧
          call.key = pk.Key)) = 1 ∧
      (pvtCalls hash pvtUpdates ++ hashedCalls hash pvtUpdates hashedUpdates).countP
        (fun call => decide (call.ns = pk.Namespace ∧ call.coll = pk.CollectionName ∧
          call.key = pk.Key ∧ call.keyHash = hash pk.Key)) = 1 ∧
      ∀ call ∈ hashedCalls hash pvtUpdates hashedUpdates,
        ¬ (call.ns = pk.Namespace ∧ call.coll = pk.CollectionName ∧
          call.keyHash = hash pk.Key)) ∧
    (∀ call ∈ pvtCalls hash pvtUpdates,
      ∃ (pk : PvtdataCompositeKey) (vv : Option VersionedValue), (pk, vv) ∈ pvtUpdates ∧
        call = { ns := pk.Namespace, coll := pk.CollectionName, key := pk.Key,
                 keyHash := hash pk.Key, versionedValue := vv }) ∧
    (∀ (hk : HashedCompositeKey) (vv : Option VersionedValue), (hk, vv) ∈ hashedUpdates →
      (({ ns := hk.Namespace, coll := hk.CollectionName, key := "",
          keyHash := hk.KeyHash, versionedValue := vv } : addCall) ∈
          hashedCalls hash pvtUpdates hashedUpdates ↔
        ¬ ∃ pk ∈ GoMap.keys pvtUpdates,
          pk.Namespace = hk.Namespace ∧ pk.CollectionName = hk.CollectionName ∧
            hash pk.Key = hk.KeyHash)) ∧
    (∀ call ∈ hashedCalls hash pvtUpdates hashedUpdates,
      call.key = "" ∧
      ∃ (hk : HashedCompositeKey) (vv : Option VersionedValue), (hk, vv) ∈ hashedUpdates ∧
        call = { ns := hk.Namespace, coll := hk.CollectionName, key := "",
                 keyHash := hk.KeyHash, versionedValue := vv }) ∧
    ((hashedCalls hash pvtUpdates hashedUpdates).map
      (fun call => (call.ns, call.coll, call.keyHash))).Nodup ∧
    ((∀ pk ∈ GoMap.keys pvtUpdates, pk.Key ≠ "") →
      ∀ (hk : HashedCompositeKey) (vv : Option VersionedValue), (hk, vv) ∈ hashedUpdates →
        ((∃ call ∈ pvtCalls hash pvtUpdates ++ hashedCalls hash pvtUpdates hashedUpdates,
            call.ns = hk.Namespace ∧ call.coll = hk.CollectionName ∧ call.key = "" ∧
              call.keyHash = hk.KeyHash) ↔
          ¬ ∃ pk ∈ GoMap.keys pvtUpdates,
            pk.Namespace = hk.Namespace ∧ pk.CollectionName = hk.CollectionName ∧
              hash pk.Key = hk.KeyHash)) := by
  have hnone : ∀ pk ∈ GoMap.keys pvtUpdates,
      ∀ call ∈ hashedCalls hash pvtUpdates hashedUpdates,
        ¬ (call.ns = pk.Namespace ∧ call.coll = pk.CollectionName ∧
          call.keyHash = hash pk.Key) := by
    intro pk hpk call hcall hc
    obtain ⟨hk, vv, _, hleft, rfl⟩ := (mem_hashedCalls hash pvtUpdates hashedUpdates call).mp hcall
    apply hleft pk hpk
    rw [hashedKeyOf_eq_iff]
    exact ⟨hc.1.symm, hc.2.1.symm, hc.2.2.symm⟩
  have hiff : ∀ (hk : HashedCompositeKey) (vv : Option VersionedValue),
      (hk, vv) ∈ hashedUpdates →
      (({ ns := hk.Namespace, coll := hk.CollectionName, key := "",
          keyHash := hk.KeyHash, versionedValue := vv } : addCall) ∈
          hashedCalls hash pvtUpdates hashedUpdates ↔
        ¬ ∃ pk ∈ GoMap.keys pvtUpdates,
          pk.Namespace = hk.Namespace ∧ pk.CollectionName = hk.CollectionName ∧
            hash pk.Key = hk.KeyHash) := by
    intro hk vv hmem
    rw [mem_hashedCalls]
    constructor
    · rintro ⟨hk2, vv2, _, hleft, heq⟩ ⟨pk, hpk, hc⟩
      simp only [addCall.mk.injEq] at heq
      apply hleft pk hpk
      rw [hashedKeyOf_eq_iff]
      exact ⟨hc.1.trans heq.1, hc.2.1.trans heq.2.1, hc.2.2.trans heq.2.2.2.1⟩
    · intro hno
      refine ⟨hk, vv, hmem, ?_, rfl⟩
      intro pk hpk heq
      exact hno ⟨pk, hpk, (hashedKeyOf_eq_iff hash pk hk).mp heq⟩
  refine ⟨buildExpirySchedule_eq ops hash btlPolicy pvtUpdates hashedUpdates, ?_, ?_, ?_, hiff,
    ?_, ?_, ?_⟩
  · intro h1 h2
    rw [buildExpirySchedule_eq]
    obtain ⟨after, hafter⟩ := addAll_returns ops
      (pvtCalls hash pvtUpdates ++ hashedCalls hash pvtUpdates hashedUpdates) (by
        intro call hcall
        rcases List.mem_append.mp hcall with hc | hc
        · obtain ⟨e, he, rfl⟩ := List.mem_map.mp hc
          exact h1 e he
        · obtain ⟨hk, vv, hmem, _, rfl⟩ :=
            (mem_hashedCalls hash pvtUpdates hashedUpdates call).mp hc
          exact h2 (hk, vv) hmem)
      (newExpiryScheduleBuilder btlPolicy)
    exact ⟨_, by rw [hafter]; rfl⟩
  · intro pk vv hmem
    have hcount : (pvtCalls hash pvtUpdates).countP (fun call =>
        decide (call.ns = pk.Namespace ∧ call.coll = pk.CollectionName ∧
          call.key = pk.Key)) = 1 := by
      rw [pvtCalls, List.countP_map, ← countP_key_eq_one pvtUpdates pk vv hpvt hmem]
      apply List.countP_congr
      intro e _
      obtain ⟨k, v⟩ := e
      cases k
      cases pk
      simp
    have hcount2 : (pvtCalls hash pvtUpdates).countP (fun call =>
        decide (call.ns = pk.Namespace ∧ call.coll = pk.CollectionName ∧
          call.key = pk.Key ∧ call.keyHash = hash pk.Key)) = 1 := by
      rw [pvtCalls, List.countP_map, ← countP_key_eq_one pvtUpdates pk vv hpvt hmem]
      apply List.countP_congr
      intro e _
      obtain ⟨k, v⟩ := e
      cases k
      cases pk
      simp
      intro _ _ h
      rw [h]
    refine ⟨List.mem_map.mpr ⟨(pk, vv), hmem, rfl⟩, hcount, ?_,
      hnone pk (GoMap.mem_keys_of_mem _ _ _ hmem)⟩
    rw [List.countP_append, hcount2, Nat.add_eq_left, List.countP_eq_zero]
    intro call hcall hc
    simp only [decide_eq_true_eq] at hc
    exact hnone pk (GoMap.mem_keys_of_mem _ _ _ hmem) call hcall ⟨hc.1, hc.2.1, hc.2.2.2⟩
  · intro call hcall
    obtain ⟨e, he, rfl⟩ := List.mem_map.mp hcall
    exact ⟨e.1, e.2, he, rfl⟩
  · intro call hcall
    obtain ⟨hk, vv, hmem, _, rfl⟩ := (mem_hashedCalls hash pvtUpdates hashedUpdates call).mp hcall
    exact ⟨rfl, hk, vv, hmem, rfl⟩
  · have hnd : (GoMap.keys (leftoverKeys hash pvtUpdates hashedUpdates)).Nodup :=
      (keys_leftoverKeys_sublist hash pvtUpdates hashedUpdates).nodup hhashed
    have hmap : (hashedCalls hash pvtUpdates hashedUpdates).map
        (fun call => (call.ns, call.coll, call.keyHash)) =
        (GoMap.keys (leftoverKeys hash pvtUpdates hashedUpdates)).map
          (fun hk => (hk.Namespace, hk.CollectionName, hk.KeyHash)) := by
      simp only [hashedCalls, GoMap.keys, List.map_map]
      rfl
    rw [hmap]
    apply List.Nodup.map _ hnd
    intro a b hab
    cases a
    cases b
    simp only [Prod.mk.injEq] at hab
    simp [hab.1, hab.2.1, hab.2.2]
  · intro hne hk vv hmem
    rw [← hiff hk vv hmem]
    constructor
    · rintro ⟨call, hcall, h1, h2, h3, h4⟩
      rcases List.mem_append.mp hcall with hc | hc
      · obtain ⟨e, he, rfl⟩ := List.mem_map.mp hc
        exact absurd h3 (hne e.1 (GoMap.mem_keys_of_mem _ _ _ he))
      · obtain ⟨hk2, vv2, hmem2, hleft, rfl⟩ :=
          (mem_hashedCalls hash pvtUpdates hashedUpdates call).mp hc
        have hkeq : hk2 = hk := by
          cases hk2
          cases hk
          simp only at h1 h2 h4
          simp [h1, h2, h4]
        subst hkeq
        have hvv : vv2 = vv := by
          have l1 := GoMap.lookup_of_mem _ _ _ hhashed hmem2
          have l2 := GoMap.lookup_of_mem _ _ _ hhashed hmem
          rw [l1] at l2
          exact Option.some.inj l2
        subst hvv
        exact hc
    · intro hc
      exact ⟨_, List.mem_append_right _ hc, rfl, rfl, rfl, rfl⟩

/-- Witness of C26: the keys `k1` and `k2` are private updates, the hashes of `k1` and of
`k3` are hashed updates; the hash of `k3` is passed with the empty key and the hash of `k1`
is not. -/
theorem buildExpirySchedule_add_calls_witness :
    (GoMap.keys samplePvtUpdates).Nodup ∧ (GoMap.keys sampleHashedUpdates).Nodup ∧
    buildExpirySchedule sampleOps sampleHash samplePolicy samplePvtUpdates
        sampleHashedUpdates =
      some [{ expiryInfoKey := { committingBlk := 5, expiryBlk := 16 },
              pvtdataKeys := [⟨"ns", "c1", "k1", "hash-k1"⟩, ⟨"ns", "c1", "k2", "hash-k2"⟩,
                ⟨"ns", "c1", "", "hash-k3"⟩] }] ∧
    (hashedCalls sampleHash samplePvtUpdates sampleHashedUpdates).map
      (fun call => (call.ns, call.coll, call.keyHash)) = [("ns", "c1", "hash-k3")] ∧
    buildExpirySchedule sampleOps sampleHash samplePolicy samplePvtUpdates
        sampleHashedUpdates =
      (addAll sampleOps (pvtCalls sampleHash samplePvtUpdates ++
          hashedCalls sampleHash samplePvtUpdates sampleHashedUpdates)
        (newExpiryScheduleBuilder samplePolicy)).map expiryScheduleBuilder.getExpiryInfo :=
  ⟨by decide, by decide, by decide, by decide,
    (buildExpirySchedule_add_calls sampleOps sampleHash samplePolicy samplePvtUpdates
      sampleHashedUpdates (by decide) (by decide)).1⟩

theorem insert_insert_self {κ ν : Type} [DecidableEq κ] (m : GoMap κ ν) (k : κ) (v w : ν) :
    GoMap.insert (GoMap.insert m k v) k w = GoMap.insert m k w := by
  induction m with
  | nil => simp [GoMap.insert]
  | cons e rest ih =>
    obtain ⟨k1, v1⟩ := e
    by_cases h : k1 = k
    · simp [GoMap.insert, h]
    · simp [GoMap.insert, h, ih]

theorem add_skip {ρ : Type} (ops : PvtdataKeysOps ρ) (builder : expiryScheduleBuilder ρ)
    (ns coll key keyHash : String) (versionedValue : VersionedValue) (version : Height)
    (hver : versionedValue.Version = some version)
    (hskip : versionedValue.Value = none ∨
      builder.btlPolicy.GetExpiringBlock ns coll version.BlockNum = 2 ^ 64 - 1) :
    builder.add ops ns coll key keyHash (some versionedValue) = some builder := by
  have hcond : (isDelete versionedValue ||
      neverExpires (builder.btlPolicy.GetExpiringBlock ns coll version.BlockNum)) = true := by
    rcases hskip with h | h
    · simp [isDelete, h]
    · simp [neverExpires, h]
  simp only [expiryScheduleBuilder.add, hver, hcond, if_true]

theorem add_write {ρ : Type} (ops : PvtdataKeysOps ρ) (builder : expiryScheduleBuilder ρ)
    (ns coll key keyHash : String) (versionedValue : VersionedValue) (version : Height)
    (hver : versionedValue.Version = some version)
    (hvalue : versionedValue.Value ≠ none)
    (hexp : builder.btlPolicy.GetExpiringBlock ns coll version.BlockNum ≠ 2 ^ 64 - 1) :
    builder.add ops ns coll key keyHash (some versionedValue) =
      some { builder with
        scheduleEntries := GoMap.insert builder.scheduleEntries
          { committingBlk := version.BlockNum,
            expiryBlk := builder.btlPolicy.GetExpiringBlock ns coll version.BlockNum }
          (ops.add ((GoMap.lookup builder.scheduleEntries
            { committingBlk := version.BlockNum,
              expiryBlk := builder.btlPolicy.GetExpiringBlock ns coll version.BlockNum }).getD
              ops.newPvtdataKeys) ns coll key keyHash) } := by
  have hcond : (isDelete versionedValue ||
      neverExpires (builder.btlPolicy.GetExpiringBlock ns coll version.BlockNum)) = false := by
    cases hv : versionedValue.Value with
    | none => exact absurd hv hvalue
    | some v =>
      simp only [isDelete, hv, neverExpires, Option.isNone_some, Bool.false_or, beq_eq_false_iff_ne]
      exact hexp
  simp only [expiryScheduleBuilder.add, hver, hcond, Bool.false_eq_true, if_false]
  cases hl : GoMap.lookup builder.scheduleEntries
      { committingBlk := version.BlockNum,
        expiryBlk := builder.btlPolicy.GetExpiringBlock ns coll version.BlockNum } with
  | none => simp only [Option.getD_none, insert_insert_self]
  | some pvtdataKeys => simp only [Option.getD_some]

theorem scheduledKey_of_skip (btlPolicy : BTLPolicy) (call : addCall)
    (versionedValue : VersionedValue) (version : Height)
    (hvv : call.versionedValue = some versionedValue)
    (hver : versionedValue.Version = some version)
    (hskip : versionedValue.Value = none ∨
      btlPolicy.GetExpiringBlock call.ns call.coll version.BlockNum = 2 ^ 64 - 1) :
    scheduledKey btlPolicy call = none := by
  have hcond : (isDelete versionedValue ||
      neverExpires (btlPolicy.GetExpiringBlock call.ns call.coll version.BlockNum)) = true := by
    rcases hskip with h | h
    · simp [isDelete, h]
    · simp [neverExpires, h]
  simp only [scheduledKey, hvv, hver, hcond, if_true]

theorem scheduledKey_of_write (btlPolicy : BTLPolicy) (call : addCall)
    (versionedValue : VersionedValue) (version : Height)
    (hvv : call.versionedValue = some versionedValue)
    (hver : versionedValue.Version = some version)
    (hvalue : versionedValue.Value ≠ none)
    (hexp : btlPolicy.GetExpiringBlock call.ns call.coll version.BlockNum ≠ 2 ^ 64 - 1) :
    scheduledKey btlPolicy call =
      some { committingBlk := version.BlockNum,
             expiryBlk := btlPolicy.GetExpiringBlock call.ns call.coll version.BlockNum } := by
  have hcond : (isDelete versionedValue ||
      neverExpires (btlPolicy.GetExpiringBlock call.ns call.coll version.BlockNum)) = false := by
    cases hv : versionedValue.Value with
    | none => exact absurd hv hvalue
    | some v =>
      simp only [isDelete, hv, neverExpires, Option.isNone_some, Bool.false_or, beq_eq_false_iff_ne]
      exact hexp
  simp only [scheduledKey, hvv, hver, hcond, Bool.false_eq_true, if_false]

theorem add_keys {ρ : Type} (ops : PvtdataKeysOps ρ) (builder after : expiryScheduleBuilder ρ)
    (call : addCall)
    (h : builder.add ops call.ns call.coll call.key call.keyHash call.versionedValue =
      some after) :
    after.btlPolicy = builder.btlPolicy ∧
    ((GoMap.keys builder.scheduleEntries).Nodup → (GoMap.keys after.scheduleEntries).Nodup) ∧
    ∀ k : expiryInfoKey, k ∈ GoMap.keys after.scheduleEntries ↔
      k ∈ GoMap.keys builder.scheduleEntries ∨ scheduledKey builder.btlPolicy call = some k := by
  cases hvv : call.versionedValue with
  | none => simp [expiryScheduleBuilder.add, hvv] at h
  | some versionedValue =>
    cases hver : versionedValue.Version with
    | none => simp [expiryScheduleBuilder.add, hvv, hver] at h
    | some version =>
      rw [hvv] at h
      by_cases hskip : versionedValue.Value = none ∨
          builder.btlPolicy.GetExpiringBlock call.ns call.coll version.BlockNum = 2 ^ 64 - 1
      · rw [add_skip ops builder _ _ _ _ versionedValue version hver hskip] at h
        injection h with h
        subst h
        rw [scheduledKey_of_skip builder.btlPolicy call versionedValue version hvv hver hskip]
        exact ⟨rfl, fun hnd => hnd, fun k => by simp⟩
      · simp only [not_or] at hskip
        rw [add_write ops builder _ _ _ _ versionedValue version hver hskip.1 hskip.2] at h
        injection h with h
        subst h
        rw [scheduledKey_of_write builder.btlPolicy call versionedValue version hvv hver
          hskip.1 hskip.2]
        refine ⟨rfl, fun hnd => GoMap.nodup_keys_insert _ _ _ hnd, fun k => ?_⟩
        rw [GoMap.mem_keys_insert]
        constructor
        · rintro (h1 | h1)
          · exact Or.inr (by rw [h1])
          · exact Or.inl h1
        · rintro (h1 | h1)
          · exact Or.inr h1
          · exact Or.inl (Option.some.inj h1).symm

theorem addAll_keys {ρ : Type} (ops : PvtdataKeysOps ρ) (calls : List addCall) :
    ∀ builder after : expiryScheduleBuilder ρ, addAll ops calls builder = some after →
      after.btlPolicy = builder.btlPolicy ∧
      ((GoMap.keys builder.scheduleEntries).Nodup →
        (GoMap.keys after.scheduleEntries).Nodup) ∧
      ∀ k : expiryInfoKey, k ∈ GoMap.keys after.scheduleEntries ↔
        k ∈ GoMap.keys builder.scheduleEntries ∨
          ∃ call ∈ calls, scheduledKey builder.btlPolicy call = some k := by
  induction calls with
  | nil =>
    intro builder after h
    simp only [addAll, Option.some.injEq] at h
    subst h
    exact ⟨rfl, fun hnd => hnd, fun k => by simp⟩
  | cons call rest ih =>
    intro builder after h
    simp only [addAll] at h
    cases hstep : builder.add ops call.ns call.coll call.key call.keyHash
        call.versionedValue with
    | none => simp [hstep] at h
    | some next =>
      rw [hstep] at h
      obtain ⟨hp1, hn1, hk1⟩ := add_keys ops builder next call hstep
      obtain ⟨hp2, hn2, hk2⟩ := ih next after h
      refine ⟨hp2.trans hp1, fun hnd => hn2 (hn1 hnd), fun k => ?_⟩
      rw [hk2 k, hk1 k, hp1]
      simp only [List.mem_cons, exists_eq_or_imp]
      tauto

theorem getExpiryInfo_eq {ρ : Type} (builder : expiryScheduleBuilder ρ) :
    builder.getExpiryInfo =
      builder.scheduleEntries.map (fun entry =>
        ({ expiryInfoKey := entry.1, pvtdataKeys := entry.2 } : expiryInfo ρ)) := by
  have hfold : ∀ (l : GoMap expiryInfoKey ρ) (acc : List (expiryInfo ρ)),
      l.foldl (fun listExpinfo entry =>
        listExpinfo ++ [({ expiryInfoKey := entry.1, pvtdataKeys := entry.2 } : expiryInfo ρ)])
          acc =
        acc ++ l.map (fun entry =>
          ({ expiryInfoKey := entry.1, pvtdataKeys := entry.2 } : expiryInfo ρ)) := by
    intro l
    induction l with
    | nil => intro acc; simp
    | cons e rest ih => intro acc; simp [ih]
  unfold expiryScheduleBuilder.getExpiryInfo
  rw [hfold]
  rfl

theorem getExpiryInfo_keys {ρ : Type} (builder : expiryScheduleBuilder ρ) :
    builder.getExpiryInfo.map (fun info => info.expiryInfoKey) =
      GoMap.keys builder.scheduleEntries := by
  rw [getExpiryInfo_eq]
  simp only [GoMap.keys, List.map_map]
  rfl

/-- C27: `add` on a value with a version leaves the builder, hence `scheduleEntries`, as it
was when the value is a delete (nil `Value`) or the expiring block of the policy is the
maximum `uint64`. Otherwise it returns a builder with the same policy whose
`scheduleEntries` differs only at the key (block of the version, expiring block): the entry
there is the one found, or a new one if none was found, after `PvtdataKeys.add`; the key is
appended if it was absent, and no other key appears. For a builder grown from
`newExpiryScheduleBuilder` by `add` calls, `getExpiryInfo` returns one item for every key
that some call wrote, no two items with the same key, and nothing else. -/
theorem add_frame {ρ : Type} (ops : PvtdataKeysOps ρ) (builder : expiryScheduleBuilder ρ)
    (ns coll key keyHash : String) (versionedValue : VersionedValue) (version : Height)
    (hver : versionedValue.Version = some version) :
    ((versionedValue.Value = none ∨
        builder.btlPolicy.GetExpiringBlock ns coll version.BlockNum = 2 ^ 64 - 1) →
      builder.add ops ns coll key keyHash (some versionedValue) = some builder) ∧
    (versionedValue.Value ≠ none →
      builder.btlPolicy.GetExpiringBlock ns coll version.BlockNum ≠ 2 ^ 64 - 1 →
      ∃ after, builder.add ops ns coll key keyHash (some versionedValue) = some after ∧
        after.btlPolicy = builder.btlPolicy ∧
        (∀ k : expiryInfoKey,
          k ≠ { committingBlk := version.BlockNum,
                expiryBlk := builder.btlPolicy.GetExpiringBlock ns coll version.BlockNum } →
          GoMap.lookup after.scheduleEntries k = GoMap.lookup builder.scheduleEntries k) ∧
        GoMap.lookup after.scheduleEntries
            { committingBlk := version.BlockNum,
              expiryBlk := builder.btlPolicy.GetExpiringBlock ns coll version.BlockNum } =
          some (ops.add ((GoMap.lookup builder.scheduleEntries
            { committingBlk := version.BlockNum,
              expiryBlk := builder.btlPolicy.GetExpiringBlock ns coll version.BlockNum }).getD
              ops.newPvtdataKeys) ns coll key keyHash) ∧
        (({ committingBlk := version.BlockNum,
            expiryBlk := builder.btlPolicy.GetExpiringBlock ns coll version.BlockNum } :
            expiryInfoKey) ∈ GoMap.keys builder.scheduleEntries →
          GoMap.keys after.scheduleEntries = GoMap.keys builder.scheduleEntries) ∧
        (({ committingBlk := version.BlockNum,
            expiryBlk := builder.btlPolicy.GetExpiringBlock ns coll version.BlockNum } :
            expiryInfoKey) ∉ GoMap.keys builder.scheduleEntries →
          GoMap.keys after.scheduleEntries = GoMap.keys builder.scheduleEntries ++
            [{ committingBlk := version.BlockNum,
               expiryBlk :=
                 builder.btlPolicy.GetExpiringBlock ns coll version.BlockNum }])) ∧
    (∀ (btlPolicy : BTLPolicy) (calls : List addCall) (grown : expiryScheduleBuilder ρ),
      addAll ops calls (newExpiryScheduleBuilder btlPolicy) = some grown →
      (grown.getExpiryInfo.map (fun info => info.expiryInfoKey)).Nodup ∧
      (∀ k : expiryInfoKey, k ∈ grown.getExpiryInfo.map (fun info => info.expiryInfoKey) ↔
        ∃ call ∈ calls, scheduledKey btlPolicy call = some k) ∧
      grown.getExpiryInfo.length = (calls.filterMap (scheduledKey btlPolicy)).dedup.length ∧
      ∀ info ∈ grown.getExpiryInfo,
        GoMap.lookup grown.scheduleEntries info.expiryInfoKey = some info.pvtdataKeys) := by
  refine ⟨add_skip ops builder ns coll key keyHash versionedValue version hver, ?_, ?_⟩
  · intro hvalue hexp
    refine ⟨_, add_write ops builder ns coll key keyHash versionedValue version hver hvalue hexp,
      rfl, ?_, ?_, ?_, ?_⟩
    · intro k hk
      exact GoMap.lookup_insert_ne _ _ _ _ hk
    · exact GoMap.lookup_insert_self _ _ _
    · intro hin
      exact GoMap.keys_insert_of_mem _ _ _ hin
    · intro hout
      show GoMap.keys (GoMap.insert builder.scheduleEntries _ _) = _
      rw [GoMap.insert_of_lookup_none _ _ _ ((GoMap.lookup_eq_none_iff _ _).mpr hout)]
      simp [GoMap.keys]
  · intro btlPolicy calls grown hgrown
    obtain ⟨_, hnd, hkeys⟩ := addAll_keys ops calls (newExpiryScheduleBuilder btlPolicy) grown
      hgrown
    have hnodup : (GoMap.keys grown.scheduleEntries).Nodup := hnd List.nodup_nil
    have hmem : ∀ k : expiryInfoKey, k ∈ GoMap.keys grown.scheduleEntries ↔
        ∃ call ∈ calls, scheduledKey btlPolicy call = some k := by
      intro k
      rw [hkeys k]
      simp [newExpiryScheduleBuilder, GoMap.keys]
    rw [getExpiryInfo_keys]
    refine ⟨hnodup, hmem, ?_, ?_⟩
    · have hperm : (GoMap.keys grown.scheduleEntries).Perm
          (calls.filterMap (scheduledKey btlPolicy)).dedup := by
        rw [List.perm_ext_iff_of_nodup hnodup (List.nodup_dedup _)]
        intro k
        rw [hmem k, List.mem_dedup, List.mem_filterMap]
      have hlen := hperm.length_eq
      rw [← hlen, ← getExpiryInfo_keys, List.length_map]
    · intro info hinfo
      rw [getExpiryInfo_eq] at hinfo
      obtain ⟨e, he, rfl⟩ := List.mem_map.mp hinfo
      exact GoMap.lookup_of_mem _ _ _ hnodup he

/-- Witness of C27: a value written at block 5 in collection `c1` of the sample policy adds
the key (5, 16) to the empty builder. -/
theorem add_frame_witness :
    (some "v" : Option String) ≠ none ∧
    samplePolicy.GetExpiringBlock "ns" "c1" 5 ≠ 2 ^ 64 - 1 ∧
    ∃ after, (newExpiryScheduleBuilder samplePolicy).add sampleOps "ns" "c1" "k1" "hash-k1"
        (sampleValue 5) = some after ∧
      GoMap.lookup after.scheduleEntries { committingBlk := 5, expiryBlk := 16 } =
        some [⟨"ns", "c1", "k1", "hash-k1"⟩] :=
  ⟨by decide, by decide, by
    obtain ⟨after, h1, _, _, h2, _⟩ := (add_frame sampleOps
      (newExpiryScheduleBuilder samplePolicy) "ns" "c1" "k1" "hash-k1"
      { Value := some "v", Version := some { BlockNum := 5, TxNum := 0 } }
      { BlockNum := 5, TxNum := 0 } rfl).2.1 (by decide) (by decide)
    exact ⟨after, h1, h2⟩⟩

end Pvtstatepurgemgmt

/-! # Theorems about the signer configuration -/

namespace Idemixca

/-- C28: for every `isAdmin`, revocation handle and issuer key (nil included),
`GenerateSignerConfig` returns no bytes and the error "the OU attribute value is empty" when
the OU string is empty, whatever the enrollment id, and no bytes and the error
"the enrollment id value is empty" when the OU string is not empty and the enrollment id is;
in both runs no call has drawn randomness or issued a credential, whereas a run that passes
both checks starts by getting a random number generator. -/
theorem GenerateSignerConfig_rejects_empty (lib : Library) (entropy : Nat) (isAdmin : Bool)
    (ouString enrollmentId : String) (revocationHandle : Int) (key : Option IssuerKey) :
    (ouString = "" →
      GenerateSignerConfig lib entropy isAdmin ouString enrollmentId revocationHandle key =
        { effects := [], result := some (none, some "the OU attribute value is empty") }) ∧
    (ouString ≠ "" → enrollmentId = "" →
      GenerateSignerConfig lib entropy isAdmin ouString enrollmentId revocationHandle key =
        { effects := [], result := some (none, some "the enrollment id value is empty") }) ∧
    (ouString ≠ "" → enrollmentId ≠ "" →
      (GenerateSignerConfig lib entropy isAdmin ouString enrollmentId revocationHandle
        key).effects.head? = some Effect.GetRand) := by
  refine ⟨?_, ?_, ?_⟩
  · intro hou
    simp only [GenerateSignerConfig, hou, if_true]
  · intro hou heid
    simp only [GenerateSignerConfig, hou, heid, if_true, if_false]
  · intro hou heid
    simp only [GenerateSignerConfig, hou, heid, if_false]
    split
    · rfl
    · split
      · rfl
      · split
        · rfl
        · split
          · rfl
          · rfl

/-- Witness of C28: an empty OU with an empty enrollment id, an empty enrollment id alone,
and a run of the sample library that passes both checks. -/
theorem GenerateSignerConfig_rejects_empty_witness :
    GenerateSignerConfig sampleLibrary 7 true "" "" 3 none =
      { effects := [], result := some (none, some "the OU attribute value is empty") } ∧
    GenerateSignerConfig sampleLibrary 7 false "ou" "" 3 (some { ISk := "isk", IPk := "ipk" }) =
      { effects := [], result := some (none, some "the enrollment id value is empty") } ∧
    GenerateSignerConfig sampleLibrary 7 false "ou" "alice" 3
        (some { ISk := "isk", IPk := "ipk" }) =
      { effects := [Effect.GetRand, Effect.RandModOrder, Effect.RandModOrder,
          Effect.NewCredRequest, Effect.NewCredential],
        result := some (some "credential-request-ipk", none) } :=
  ⟨(GenerateSignerConfig_rejects_empty sampleLibrary 7 true "" "" 3 none).1 rfl,
    (GenerateSignerConfig_rejects_empty sampleLibrary 7 false "ou" "" 3
      (some { ISk := "isk", IPk := "ipk" })).2.1 (by decide) rfl,
    by decide⟩

end Idemixca
